import Mathlib

/-!
Verification development for the bitdict repository: a shallow embedding of
the schema validation, layout compilation and record accessor engine found in
`src/bitdict/factory.py` + `src/bitdict/validation.py` (the refactored
revision, called `factory` below) and `src/bitdict/bitdict.py` (the earlier
monolithic revision, called `legacy` below), together with proofs about the
claims of the natural-language specification.

Modelling conventions:
* Python arbitrary-precision integers are `Int`; Python `//` and `%` with a
  positive right operand are `Int.ediv` / `Int.emod`.
* Python bitwise expressions on integers are expressed arithmetically:
  `(v >> s) & ((1 <<< w) - 1)` is `bdSlice v s w`, and
  `v & ~(mask <<< s) | ((x & mask) <<< s)` is `maskedWrite v s w x`
  (the identities hold for negative `v`/`x` as well, because Python's
  bitwise operators act on the infinite two's-complement representation).
* Python exceptions are explicit `Err` results; every operation returns the
  state reached at the point the exception was raised (Python objects keep
  their partially mutated state when an exception propagates).
* The mutable parent back-pointer (`_parent`, `_parent_key`) is modelled by
  threading an optional `Ctx` (the parent's slot position and its current
  integer) through each operation; `_update_parent` is the `pushCtx` below.
* Recursion through the schema tree is fuel-indexed; exhausting fuel yields
  the distinguished error `Err.oom`, which no real execution produces for
  sufficiently large fuel.
-/

namespace BitDictModel

/-- Integer power `2 ^ n`. -/
def pow2 (n : Nat) : Int := (2 : Int) ^ n

/-- Python `(v >> s) & ((1 << w) - 1)`: extract the `w`-bit field that starts
at bit `s` of the (possibly negative) integer `v`. -/
def bdSlice (v : Int) (s w : Nat) : Int := (v.ediv (pow2 s)).emod (pow2 w)

/-- Python `v & ~(mask << s) | ((x & mask) << s)` with `mask = (1 << w) - 1`:
clear bits `[s, s+w)` of `v` and install the low `w` bits of `x` there. -/
def maskedWrite (v : Int) (s w : Nat) (x : Int) : Int :=
  v - bdSlice v s w * pow2 s + x.emod (pow2 w) * pow2 s

/-- Field types of the schema language (`type` key).  The factory revision's
validator accepts only the first four; `reserved` is accepted by the legacy
revision only. -/
inductive FType where
  | bool
  | uint
  | int
  | reserved
  | bitdict
deriving DecidableEq, Repr

/-- A declared default value (`default` key): Python `bool` or `int`. -/
inductive DVal where
  | db (b : Bool)
  | di (z : Int)
deriving DecidableEq, Repr

/-- The `valid` constraint of a field: an optional `value` set and an
optional `range` list; each range is a tuple of 1..3 integers with Python
`range(*r)` semantics. -/
structure VSpec where
  vset : Option (List Int)
  vrange : Option (List (List Int))
deriving DecidableEq, Repr

/-- Error taxonomy: which Python exception a code path raises.  `valErr`
carries the raise site family so that e.g. a range `ValueError` can be told
apart from the reserved-field `ValueError`.  `oom` is the out-of-fuel marker
of the model (raised by no real execution given enough fuel). -/
inductive VKind where
  | range
  | reservedK
  | schemaK
  | overlapK
  | shiftK
deriving DecidableEq, Repr

inductive Err where
  | keyErr
  | typeErr
  | valErr (k : VKind)
  | assertErr
  | indexErr
  | oom
deriving DecidableEq, Repr

mutual
/-- One property configuration (one value of the schema mapping).
`selector`/`subtype` model the presence of those keys (only meaningful for
`bitdict` fields); `link` models the `_bitdict` reverse link written into a
selector's configuration by validation. -/
inductive FieldCfg where
  | mk (start width : Nat) (ty : FType) (dflt : Option DVal) (vld : Option VSpec)
      (selector : Option String) (subtype : Option (List (Option Cfg)))
      (link : Option String)

/-- A schema/configuration: ordered mapping from field name to `FieldCfg`
(Python dicts preserve insertion order). -/
inductive Cfg where
  | mk (fields : List (String × FieldCfg))
end

def FieldCfg.start : FieldCfg → Nat
  | .mk s _ _ _ _ _ _ _ => s

def FieldCfg.width : FieldCfg → Nat
  | .mk _ w _ _ _ _ _ _ => w

def FieldCfg.ty : FieldCfg → FType
  | .mk _ _ t _ _ _ _ _ => t

def FieldCfg.dflt : FieldCfg → Option DVal
  | .mk _ _ _ d _ _ _ _ => d

def FieldCfg.vld : FieldCfg → Option VSpec
  | .mk _ _ _ _ v _ _ _ => v

def FieldCfg.selector : FieldCfg → Option String
  | .mk _ _ _ _ _ s _ _ => s

def FieldCfg.subtype : FieldCfg → Option (List (Option Cfg))
  | .mk _ _ _ _ _ _ st _ => st

def FieldCfg.link : FieldCfg → Option String
  | .mk _ _ _ _ _ _ _ l => l

def Cfg.fields : Cfg → List (String × FieldCfg)
  | .mk fs => fs

/-- Lookup `self._config[key]` (first binding wins; Python dicts have unique keys). -/
def lookupF (c : Cfg) (k : String) : Option FieldCfg :=
  c.fields.lookup k

/-- Model of `_calculate_total_width`: `max(start + width)` over all fields, 0 for an
empty configuration. -/
def totalWidth (c : Cfg) : Nat :=
  c.fields.foldl (fun acc p => max acc (p.2.start + p.2.width)) 0

/-- Runtime state of one BitDict instance: the packed integer `_value` and
the `_subbitdicts` cache (field name to a fixed-size slot list of optional
sub-instances). -/
inductive St where
  | mk (value : Int) (subs : List (String × List (Option St)))

def St.value : St → Int
  | .mk v _ => v

def St.subs : St → List (String × List (Option St))
  | .mk _ s => s

/-- The parent back-pointer data used by `_update_parent`: the configuration
slot (start, width) this instance occupies in its parent, and the parent's
current `_value`. -/
structure Ctx where
  cstart : Nat
  cwidth : Nat
  pval : Int

/-- Model of `_update_parent`: overwrite this instance's bit range in the parent's
integer with `self.to_int() & mask`. -/
def pushCtx (ctx : Option Ctx) (v : Int) : Option Ctx :=
  match ctx with
  | none => none
  | some c => some ⟨c.cstart, c.cwidth, maskedWrite c.pval c.cstart c.cwidth v⟩

def pvalOf (ctx : Option Ctx) (dflt : Int) : Int :=
  match ctx with
  | none => dflt
  | some c => c.pval

/-- Values passed to `__setitem__` / `set`: Python bool, int, dict, or
anything else (which the type checks reject). -/
inductive PyVal where
  | pb (b : Bool)
  | pi (z : Int)
  | pdict (d : List (String × PyVal))
  | pother

/-- A declared default as a Python value. -/
def dvalPy : DVal → PyVal
  | .db b => .pb b
  | .di z => .pi z

/-- Result of `__getitem__`: bool, int, or a sub-BitDict.  For a sub-BitDict
the model also records the (normalized) cache slot index and the sub
configuration, which in Python live on the returned object itself. -/
inductive Got where
  | gb (b : Bool)
  | gi (z : Int)
  | gsub (idx : Nat) (subcfg : Cfg) (s : St)

/-- JSON-like values produced by `to_json` / `inspect`. -/
inductive JVal where
  | jb (b : Bool)
  | ji (z : Int)
  | jobj (l : List (String × JVal))

/-- Seeds accepted by `__init__`. -/
inductive InitV where
  | vnone
  | vint (z : Int)
  | vbytes (bs : List Nat)
  | vdict (d : List (String × PyVal))
  | vother

/-- Which revision of the engine: the refactored `factory.py` or the legacy
`bitdict.py`. -/
inductive Rev where
  | factory
  | legacy
deriving DecidableEq, Repr

/-- Python list indexing (negative indices wrap once): the normalized index
and the element, or `none` for an `IndexError`. -/
def pyIdxN {α : Type} (l : List α) (z : Int) : Option (Nat × α) :=
  let i : Int := if z < 0 then (l.length : Int) + z else z
  if 0 ≤ i then
    match l[i.toNat]? with
    | some a => some (i.toNat, a)
    | none => none
  else none

def pyIdx {α : Type} (l : List α) (z : Int) : Option α :=
  (pyIdxN l z).map (·.2)

/-- Replace the binding of `k` in an association list (no-op when absent);
Python dict item assignment on an existing key. -/
def assocSet {α : Type} : List (String × α) → String → α → List (String × α)
  | [], _, _ => []
  | (k', v') :: rest, k, v =>
    if k' = k then (k', v) :: rest else (k', v') :: assocSet rest k v

/-- Store `sub` in cache slot `i` of the slot list of `key`
(`sdk[selector_value] = nbd` after `pyIdxN` normalization). -/
def putSub (st : St) (key : String) (i : Nat) (sub : St) : St :=
  .mk st.value (assocSet st.subs key (((st.subs.lookup key).getD []).set i (some sub)))

/-- Byte count `(total_width + 7) // 8`. -/
def numBytes (w : Nat) : Nat := (w + 7) / 8

/-- Big-endian decoding, Python `int.from_bytes(value, "big")`. -/
def fromBytes (bs : List Nat) : Int :=
  bs.foldl (fun (acc : Int) (b : Nat) => acc * 256 + (b : Int)) 0

/-- Big-endian encoding, Python `v.to_bytes(n, "big")`, for a non-negative integer that fits. -/
def beBytes : Nat → Nat → List Nat
  | 0, _ => []
  | n + 1, v => beBytes n (v / 256) ++ [v % 256]

/-- Membership in Python `range(*r)`; `.error` when `range(*r)` itself
raises (zero step or a tuple of the wrong arity). -/
def pyRangeHas (r : List Int) (v : Int) : Except Unit Bool :=
  match r with
  | [e] => .ok (decide (0 ≤ v ∧ v < e))
  | [s, e] => .ok (decide (s ≤ v ∧ v < e))
  | [s, e, st] =>
    if st = 0 then .error ()
    else if 0 < st then .ok (decide (s ≤ v ∧ v < e ∧ (v - s).emod st = 0))
    else .ok (decide (e < v ∧ v ≤ s ∧ (v - s).emod st = 0))
  | _ => .error ()

/-- The element list of Python `range(*r)` (used by schema validation, which
iterates the whole range). -/
def pyRangeElems (r : List Int) : Except Unit (List Int) :=
  match r with
  | [e] => .ok ((List.range (e.toNat)).map (fun k => (k : Int)))
  | [s, e] => .ok ((List.range ((e - s).toNat)).map (fun k => s + (k : Int)))
  | [s, e, st] =>
    if 0 < st then
      .ok ((List.range (((e - s + st - 1).ediv st).toNat)).map (fun k => s + st * (k : Int)))
    else if st = 0 then .error ()
    else .ok ((List.range (((s - e - st - 1).ediv (-st)).toNat)).map (fun k => s + st * (k : Int)))
  | _ => .error ()

/-- Helper for `isValidValue`: first matching range wins. -/
def isValidValueGo (rs : List (List Int)) (v : Int) : Except Unit Bool :=
  match rs with
  | [] => .ok false
  | r :: rest =>
    match pyRangeHas r v with
    | .error e => .error e
    | .ok true => .ok true
    | .ok false => isValidValueGo rest v

/-- Model of `_is_valid_value(value, prop_config)` (module level in `factory.py`).
Errors only on a malformed range tuple. -/
def isValidValue (vld : Option VSpec) (v : Int) : Except Unit Bool :=
  match vld with
  | none => .ok true
  | some s =>
    if (match s.vset with | some l => l.contains v | none => false) then .ok true
    else
      match s.vrange with
      | none => .ok false
      | some rs => isValidValueGo rs v

/-- Stable insertion used to model Python's stable `sorted(..., key=start)`. -/
def insertByStart (x : String × FieldCfg) :
    List (String × FieldCfg) → List (String × FieldCfg)
  | [] => [x]
  | y :: ys =>
    if y.2.start ≤ x.2.start then y :: insertByStart x ys else x :: y :: ys

def sortByStart : List (String × FieldCfg) → List (String × FieldCfg)
  | [] => []
  | x :: xs => insertByStart x (sortByStart xs)


/-- Coerce the value read from a selector field: Python
`assert isinstance(selector_value, int)` (a Python `bool` is an `int`). -/
def selAsInt : Option Got → Except Err Int
  | some (.gb b) => .ok (if b then 1 else 0)
  | some (.gi z) => .ok z
  | _ => .error .assertErr

/-- Scalar value read for validity checking (`valid()` / `inspect()`);
Python passes the bool/int value straight to `_is_valid_value`. -/
def gotScalarInt : Got → Except Err Int
  | .gb b => .ok (if b then 1 else 0)
  | .gi z => .ok z
  | .gsub _ _ _ => .error .assertErr

/-- Python `isinstance(value, int)` view of a set value (a `bool` is an
`int` with value 0/1). -/
def intOf : PyVal → Option Int
  | .pb b => some (if b then 1 else 0)
  | .pi z => some z
  | _ => none

/-- Scalar arm of the `__setitem__` type dispatch: host-type check, range
check, truthiness coercion for `bool`, two's-complement conversion for a
negative `int` value. -/
def scalarPattern (fc : FieldCfg) (v : PyVal) : Option Int × Option Err :=
  match fc.ty with
  | .bool =>
    match v with
    | .pb b => (some (if b then 1 else 0), none)
    | .pi z => (some (if z = 0 then 0 else 1), none)
    | _ => (none, some .typeErr)
  | .uint =>
    match intOf v with
    | none => (none, some .typeErr)
    | some z =>
      if 0 ≤ z ∧ z < pow2 fc.width then (some z, none) else (none, some (.valErr .range))
  | .int =>
    match intOf v with
    | none => (none, some .typeErr)
    | some z =>
      if fc.width = 0 then (none, some (.valErr .shiftK))
      else if -(pow2 (fc.width - 1)) ≤ z ∧ z < pow2 (fc.width - 1) then
        (some (if z < 0 then pow2 fc.width + z else z), none)
      else (none, some (.valErr .range))
  | _ => (none, some .assertErr)

/-- Record a read scalar as a JSON value (`inspect` stores `self[name]`). -/
def gotJ : Got → JVal
  | .gb b => .jb b
  | .gi z => .ji z
  | .gsub _ _ _ => .jobj []

set_option maxHeartbeats 2000000 in
mutual

/-- Model of `BitDict._get_subbitdict(key, selector_value)` (identical in
both revisions up to unobservable detail): allocate the per-key slot list on
first touch, return the cached sub-instance or create it (running the fresh
instance's parent-less `reset`), together with its cache slot and its
configuration.  Python reads the sub configuration off the cached object's
class; the model re-derives it from the field's `subtype` table, which
agrees on every state actually reachable (slots are only ever filled from
that table). -/
def getSub (rev : Rev) (fuel : Nat) (cfg : Cfg) (st : St) (key : String) (sel : Int) :
    St × Option (Nat × St × Cfg) × Option Err :=
  match fuel with
  | 0 => (st, none, some .oom)
  | fuel + 1 =>
    match lookupF cfg key with
    | none => (st, none, some .keyErr)
    | some fc =>
      match (match st.subs.lookup key with
             | some sdk => Sum.inl (st, sdk)
             | none =>
               match fc.selector with
               | none => Sum.inr Err.keyErr
               | some selName =>
                 match lookupF cfg selName with
                 | none => Sum.inr Err.keyErr
                 | some selFc =>
                   let sdk : List (Option St) := List.replicate (2 ^ selFc.width) none
                   Sum.inl (St.mk st.value (st.subs ++ [(key, sdk)]), sdk)) with
      | .inr e => (st, none, some e)
      | .inl (st1, sdk) =>
        match pyIdxN sdk sel with
        | none => (st1, none, some .indexErr)
        | some (i, some sub) =>
          match fc.subtype with
          | some lst =>
            match pyIdx lst sel with
            | some (some sc) => (st1, some (i, sub, sc), none)
            | _ => (st1, none, some .assertErr)
          | none => (st1, none, some .assertErr)
        | some (i, none) =>
          match fc.subtype with
          | none => (st1, none, some .keyErr)
          | some lst =>
            match pyIdx lst sel with
            | none => (st1, none, some .indexErr)
            | some none => (st1, none, some .assertErr)
            | some (some sc) =>
              match resetOp rev fuel sc (St.mk 0 []) none with
              | (_, _, some e) => (st1, none, some e)
              | (fresh, _, none) => (putSub st1 key i fresh, some (i, fresh, sc), none)
termination_by structural fuel

/-- Model of `BitDict.__getitem__`.  The two revisions differ only on a
`reserved` field: legacy raises `ValueError` at once, factory falls through
its type dispatch to `assert False`. -/
def getItem (rev : Rev) (fuel : Nat) (cfg : Cfg) (st : St) (key : String) :
    St × Option Got × Option Err :=
  match fuel with
  | 0 => (st, none, some .oom)
  | fuel + 1 =>
    match lookupF cfg key with
    | none => (st, none, some .keyErr)
    | some fc =>
      if rev = .legacy ∧ fc.ty = .reserved then (st, none, some (.valErr .reservedK))
      else
        match fc.ty with
        | .bitdict =>
          match fc.selector with
          | none => (st, none, some .keyErr)
          | some selName =>
            match getItem rev fuel cfg st selName with
            | (st1, _, some e) => (st1, none, some e)
            | (st1, got, none) =>
              match selAsInt got with
              | .error e => (st1, none, some e)
              | .ok sel =>
                match getSub rev fuel cfg st1 key sel with
                | (st2, _, some e) => (st2, none, some e)
                | (st2, some (i, sub, sc), none) => (st2, some (.gsub i sc sub), none)
                | (st2, none, none) => (st2, none, some .assertErr)
        | .bool => (st, some (.gb (decide (bdSlice st.value fc.start fc.width ≠ 0))), none)
        | .uint => (st, some (.gi (bdSlice st.value fc.start fc.width)), none)
        | .int =>
          if fc.width = 0 then (st, none, some (.valErr .shiftK))
          else
            let raw := bdSlice st.value fc.start fc.width
            (st, some (.gi (if bdSlice raw (fc.width - 1) 1 = 1 then raw - pow2 fc.width else raw)),
             none)
        | .reserved => (st, none, some .assertErr)
termination_by structural fuel

/-- Sub-record assignment arm of the `__setitem__` type dispatch for a
`bitdict` field: read the selector, resolve the sub-record, `set` it with
the given value (its field assignments pushing into this record's integer),
and use its resulting integer as the bit pattern to store. -/
def setItemValBD (rev : Rev) (fuel : Nat) (cfg : Cfg) (st : St) (key : String) (fc : FieldCfg)
    (v : PyVal) : St × Option Int × Option Err :=
  match fuel with
  | 0 => (st, none, some .oom)
  | fuel + 1 =>
    match fc.selector with
    | none => (st, none, some .keyErr)
    | some selName =>
      match getItem rev fuel cfg st selName with
      | (st1, _, some e) => (st1, none, some e)
      | (st1, got, none) =>
        match selAsInt got with
        | .error e => (st1, none, some e)
        | .ok sel =>
          match getSub rev fuel cfg st1 key sel with
          | (st2, _, some e) => (st2, none, some e)
          | (st2, some (i, sub, sc), none) =>
            match setOp rev fuel sc sub (some ⟨fc.start, fc.width, st2.value⟩) v true with
            | (sub2, ctx2, e2) =>
              let st3 := putSub (St.mk (pvalOf ctx2 st2.value) st2.subs) key i sub2
              match e2 with
              | some e => (st3, none, some e)
              | none => (st3, some sub2.value, none)
          | (st2, none, none) => (st2, none, some .assertErr)
termination_by structural fuel

/-- Value-coercion phase of `BitDict.__setitem__` (the `match` on the
property type): returns the integer bit pattern to store, after running a
sub-bitdict assignment for a `bitdict` field. -/
def setItemVal (rev : Rev) (fuel : Nat) (cfg : Cfg) (st : St) (key : String) (fc : FieldCfg)
    (v : PyVal) : St × Option Int × Option Err :=
  match fuel with
  | 0 => (st, none, some .oom)
  | fuel + 1 =>
    match fc.ty with
    | .bitdict => setItemValBD rev fuel cfg st key fc v
    | .reserved => (st, none, some .assertErr)
    | _ =>
      match scalarPattern fc v with
      | (r, e) => (st, r, e)
termination_by structural fuel

/-- Model of `BitDict.__setitem__`: coerce/assign the value (`setItemVal`),
then, when the field is a selector (`_bitdict` reverse link), splice the
newly selected sub-record into the owning bitdict field's bit range, then
clear-and-or the field's own bits, and finally push to the parent. -/
def setItem (rev : Rev) (fuel : Nat) (cfg : Cfg) (st : St) (ctx : Option Ctx) (key : String)
    (v : PyVal) : St × Option Ctx × Option Err :=
  match fuel with
  | 0 => (st, ctx, some .oom)
  | fuel + 1 =>
    match lookupF cfg key with
    | none => (st, ctx, some .keyErr)
    | some fc =>
      if rev = .legacy ∧ fc.ty = .reserved then (st, ctx, some (.valErr .reservedK))
      else
        match setItemVal rev fuel cfg st key fc v with
        | (st2, _, some e) => (st2, ctx, some e)
        | (st2, none, none) => (st2, ctx, some .assertErr)
        | (st2, some ival, none) =>
          let fin : St → St × Option Ctx × Option Err := fun st4 =>
            let st5 := St.mk (maskedWrite st4.value fc.start fc.width ival) st4.subs
            (st5, pushCtx ctx st5.value, none)
          match fc.link with
          | none => fin st2
          | some bdKey =>
            match getSub rev fuel cfg st2 bdKey ival with
            | (st3, _, some e) => (st3, ctx, some e)
            | (st3, none, none) => (st3, ctx, some .assertErr)
            | (st3, some (_, bsub, _), none) =>
              match lookupF cfg bdKey with
              | none => (st3, ctx, some .keyErr)
              | some bdc =>
                fin (St.mk (maskedWrite st3.value bdc.start bdc.width bsub.value) st3.subs)
termination_by structural fuel

/-- Model of `BitDict.set`: a mapping applies field by field (ignoring or
rejecting unknown keys); an integer is range-checked (the factory revision
also rejects negatives, the legacy one accepts values down to
`-2^(total_width-1)` and stores them as given), stored, and every bitdict
field's sub-record is re-derived from the slice of the new value. -/
def setOp (rev : Rev) (fuel : Nat) (cfg : Cfg) (st : St) (ctx : Option Ctx) (v : PyVal)
    (ignoreUnknown : Bool) : St × Option Ctx × Option Err :=
  match fuel with
  | 0 => (st, ctx, some .oom)
  | fuel + 1 =>
    match v with
    | .pdict d =>
      if rev = .legacy ∨ ignoreUnknown then setDictIgnore rev fuel cfg st ctx d cfg.fields
      else
        match setDictStrict1 rev fuel cfg st ctx d with
        | (st1, ctx1, some e) => (st1, ctx1, some e)
        | (st1, ctx1, none) => setDictStrict2 rev fuel cfg st1 ctx1 d cfg.fields
    | _ =>
      match intOf v with
      | none => (st, ctx, some .typeErr)
      | some z =>
        let W := totalWidth cfg
        if pow2 W ≤ z then (st, ctx, some (.valErr .range))
        else
          match rev with
          | .factory =>
            if z < 0 then (st, ctx, some (.valErr .range))
            else
              match setIntSubs rev fuel cfg (St.mk z st.subs) z cfg.fields with
              | (st1, e) => (st1, ctx, e)
          | .legacy =>
            if W = 0 then (st, ctx, some (.valErr .shiftK))
            else if z < -(pow2 (W - 1)) then (st, ctx, some (.valErr .range))
            else
              match setIntSubs rev fuel cfg (St.mk z st.subs) z cfg.fields with
              | (st1, e) => (st1, ctx, e)
termination_by structural fuel

/-- Ignore-unknown mapping assignment: iterate the configuration in schema
order; a field present in the data is assigned, otherwise its default (when
it has one) is assigned. -/
def setDictIgnore (rev : Rev) (fuel : Nat) (cfg : Cfg) (st : St) (ctx : Option Ctx)
    (d : List (String × PyVal)) (fields : List (String × FieldCfg)) :
    St × Option Ctx × Option Err :=
  match fuel with
  | 0 => (st, ctx, some .oom)
  | fuel + 1 =>
    match fields with
    | [] => (st, ctx, none)
    | (k, fc) :: rest =>
      match (match d.lookup k with
             | some dv => some dv
             | none => (fc.dflt).map dvalPy) with
      | none => setDictIgnore rev fuel cfg st ctx d rest
      | some dv =>
        match setItem rev fuel cfg st ctx k dv with
        | (st1, ctx1, some e) => (st1, ctx1, some e)
        | (st1, ctx1, none) => setDictIgnore rev fuel cfg st1 ctx1 d rest
termination_by structural fuel

/-- Strict mapping assignment, first pass: every key of the data must be a
declared field and is assigned in data order. -/
def setDictStrict1 (rev : Rev) (fuel : Nat) (cfg : Cfg) (st : St) (ctx : Option Ctx)
    (d : List (String × PyVal)) : St × Option Ctx × Option Err :=
  match fuel with
  | 0 => (st, ctx, some .oom)
  | fuel + 1 =>
    match d with
    | [] => (st, ctx, none)
    | (k, dv) :: rest =>
      if (lookupF cfg k).isNone then (st, ctx, some .keyErr)
      else
        match setItem rev fuel cfg st ctx k dv with
        | (st1, ctx1, some e) => (st1, ctx1, some e)
        | (st1, ctx1, none) => setDictStrict1 rev fuel cfg st1 ctx1 rest
termination_by structural fuel

/-- Strict mapping assignment, second pass: fields not named by the data get
their defaults.  Python iterates a `set` here, whose order is unspecified;
the model uses schema order, one admissible order. -/
def setDictStrict2 (rev : Rev) (fuel : Nat) (cfg : Cfg) (st : St) (ctx : Option Ctx)
    (d : List (String × PyVal)) (fields : List (String × FieldCfg)) :
    St × Option Ctx × Option Err :=
  match fuel with
  | 0 => (st, ctx, some .oom)
  | fuel + 1 =>
    match fields with
    | [] => (st, ctx, none)
    | (k, fc) :: rest =>
      match (if (d.lookup k).isSome then none else (fc.dflt).map dvalPy) with
      | none => setDictStrict2 rev fuel cfg st ctx d rest
      | some dv =>
        match setItem rev fuel cfg st ctx k dv with
        | (st1, ctx1, some e) => (st1, ctx1, some e)
        | (st1, ctx1, none) => setDictStrict2 rev fuel cfg st1 ctx1 d rest
termination_by structural fuel

/-- Sub-record re-derivation loop of integer `set`: after the top value is
committed, every bitdict field's sub-record is `set` from the slice of the
new value (never pushing to a parent: `set` contains no parent update). -/
def setIntSubs (rev : Rev) (fuel : Nat) (cfg : Cfg) (st : St) (z : Int)
    (fields : List (String × FieldCfg)) : St × Option Err :=
  match fuel with
  | 0 => (st, some .oom)
  | fuel + 1 =>
    match fields with
    | [] => (st, none)
    | (k, fc) :: rest =>
      match fc.ty with
      | .bitdict =>
        match fc.selector with
        | none => (st, some .keyErr)
        | some selName =>
          match getItem rev fuel cfg st selName with
          | (st1, _, some e) => (st1, some e)
          | (st1, got, none) =>
            match selAsInt got with
            | .error e => (st1, some e)
            | .ok sel =>
              match getSub rev fuel cfg st1 k sel with
              | (st2, _, some e) => (st2, some e)
              | (st2, none, none) => (st2, some .assertErr)
              | (st2, some (i, sub, sc), none) =>
                match setOp rev fuel sc sub none (.pi (bdSlice z fc.start fc.width)) true with
                | (sub2, _, e2) =>
                  let st3 := putSub st2 k i sub2
                  match e2 with
                  | some e => (st3, some e)
                  | none => setIntSubs rev fuel cfg st3 z rest
      | _ => setIntSubs rev fuel cfg st z rest
termination_by structural fuel

/-- Model of `BitDict.reset`: every field to its default in schema order; a
bitdict field resets its currently selected sub-record (whose own field
assignments push into this record); the legacy revision skips `reserved`
fields, the factory revision has none after validation. -/
def resetOp (rev : Rev) (fuel : Nat) (cfg : Cfg) (st : St) (ctx : Option Ctx) :
    St × Option Ctx × Option Err :=
  match fuel with
  | 0 => (st, ctx, some .oom)
  | fuel + 1 => resetGo rev fuel cfg st ctx cfg.fields
termination_by structural fuel

def resetGo (rev : Rev) (fuel : Nat) (cfg : Cfg) (st : St) (ctx : Option Ctx)
    (fields : List (String × FieldCfg)) : St × Option Ctx × Option Err :=
  match fuel with
  | 0 => (st, ctx, some .oom)
  | fuel + 1 =>
    match fields with
    | [] => (st, ctx, none)
    | (k, fc) :: rest =>
      if rev = .legacy ∧ fc.ty = .reserved then resetGo rev fuel cfg st ctx rest
      else
        match fc.ty with
        | .bitdict =>
          match fc.selector with
          | none => (st, ctx, some .keyErr)
          | some selName =>
            match getItem rev fuel cfg st selName with
            | (st1, _, some e) => (st1, ctx, some e)
            | (st1, got, none) =>
              match selAsInt got with
              | .error e => (st1, ctx, some e)
              | .ok sel =>
                match getSub rev fuel cfg st1 k sel with
                | (st2, _, some e) => (st2, ctx, some e)
                | (st2, none, none) => (st2, ctx, some .assertErr)
                | (st2, some (i, sub, sc), none) =>
                  match resetOp rev fuel sc sub (some ⟨fc.start, fc.width, st2.value⟩) with
                  | (sub2, ctxS, e2) =>
                    let st3 := putSub (St.mk (pvalOf ctxS st2.value) st2.subs) k i sub2
                    match e2 with
                    | some e => (st3, ctx, some e)
                    | none => resetGo rev fuel cfg st3 ctx rest
        | _ =>
          match fc.dflt with
          | none => (st, ctx, some .keyErr)
          | some dv =>
            match setItem rev fuel cfg st ctx k (dvalPy dv) with
            | (st1, ctx1, some e) => (st1, ctx1, some e)
            | (st1, ctx1, none) => resetGo rev fuel cfg st1 ctx1 rest
termination_by structural fuel

/-- Model of `BitDict.update`: assign each key of the data in data order. -/
def updateOp (rev : Rev) (fuel : Nat) (cfg : Cfg) (st : St) (ctx : Option Ctx) (v : PyVal) :
    St × Option Ctx × Option Err :=
  match fuel with
  | 0 => (st, ctx, some .oom)
  | fuel + 1 =>
    match v with
    | .pdict d => updateGo rev fuel cfg st ctx d
    | _ => (st, ctx, some .typeErr)

def updateGo (rev : Rev) (fuel : Nat) (cfg : Cfg) (st : St) (ctx : Option Ctx)
    (d : List (String × PyVal)) : St × Option Ctx × Option Err :=
  match fuel with
  | 0 => (st, ctx, some .oom)
  | fuel + 1 =>
    match d with
    | [] => (st, ctx, none)
    | (k, dv) :: rest =>
      match setItem rev fuel cfg st ctx k dv with
      | (st1, ctx1, some e) => (st1, ctx1, some e)
      | (st1, ctx1, none) => updateGo rev fuel cfg st1 ctx1 rest
termination_by structural fuel

/-- Model of `BitDict.__contains__`: declared here, or declared in the
currently selected variant of some bitdict field, recursively. -/
def containsOp (rev : Rev) (fuel : Nat) (cfg : Cfg) (st : St) (key : String) :
    St × Option Bool × Option Err :=
  match fuel with
  | 0 => (st, none, some .oom)
  | fuel + 1 =>
    if (lookupF cfg key).isSome then (st, some true, none)
    else containsGo rev fuel cfg st key cfg.fields
termination_by structural fuel

def containsGo (rev : Rev) (fuel : Nat) (cfg : Cfg) (st : St) (key : String)
    (fields : List (String × FieldCfg)) : St × Option Bool × Option Err :=
  match fuel with
  | 0 => (st, none, some .oom)
  | fuel + 1 =>
    match fields with
    | [] => (st, some false, none)
    | (k, fc) :: rest =>
      match fc.ty with
      | .bitdict =>
        match getItem rev fuel cfg st k with
        | (st1, _, some e) => (st1, none, some e)
        | (st1, some (.gsub i sc sub), none) =>
          match containsOp rev fuel sc sub key with
          | (sub2, br, e2) =>
            let st2 := putSub st1 k i sub2
            match e2 with
            | some e => (st2, none, some e)
            | none =>
              if br.getD false then (st2, some true, none)
              else containsGo rev fuel cfg st2 key rest
        | (st1, _, none) => (st1, none, some .assertErr)
      | _ => containsGo rev fuel cfg st key rest
termination_by structural fuel

/-- Model of `BitDict.__iter__` materialized: non-`reserved` fields (the
legacy revision filters them; validated factory configurations have none) in
ascending start order (stable), each read through `__getitem__`. -/
def iterOp (rev : Rev) (fuel : Nat) (cfg : Cfg) (st : St) :
    St × List (String × Got) × Option Err :=
  match fuel with
  | 0 => (st, [], some .oom)
  | fuel + 1 =>
    let sps := sortByStart cfg.fields
    let flds := if rev = .legacy then sps.filter (fun p => p.2.ty != FType.reserved) else sps
    iterGo rev fuel cfg st flds

def iterGo (rev : Rev) (fuel : Nat) (cfg : Cfg) (st : St)
    (fields : List (String × FieldCfg)) : St × List (String × Got) × Option Err :=
  match fuel with
  | 0 => (st, [], some .oom)
  | fuel + 1 =>
    match fields with
    | [] => (st, [], none)
    | (k, _) :: rest =>
      match getItem rev fuel cfg st k with
      | (st1, _, some e) => (st1, [], some e)
      | (st1, none, none) => (st1, [], some .assertErr)
      | (st1, some got, none) =>
        match iterGo rev fuel cfg st1 rest with
        | (st2, acc, e2) => (st2, (k, got) :: acc, e2)
termination_by structural fuel

/-- Model of `BitDict.to_json`: iterate, then re-read every field in
descending order, expanding sub-records recursively. -/
def toJsonOp (rev : Rev) (fuel : Nat) (cfg : Cfg) (st : St) :
    St × List (String × JVal) × Option Err :=
  match fuel with
  | 0 => (st, [], some .oom)
  | fuel + 1 =>
    match iterOp rev fuel cfg st with
    | (st1, _, some e) => (st1, [], some e)
    | (st1, lst, none) => toJsonGo rev fuel cfg st1 (lst.reverse.map (fun p => p.1))
termination_by structural fuel

def toJsonGo (rev : Rev) (fuel : Nat) (cfg : Cfg) (st : St) (names : List String) :
    St × List (String × JVal) × Option Err :=
  match fuel with
  | 0 => (st, [], some .oom)
  | fuel + 1 =>
    match names with
    | [] => (st, [], none)
    | name :: rest =>
      match getItem rev fuel cfg st name with
      | (st1, _, some e) => (st1, [], some e)
      | (st1, none, none) => (st1, [], some .assertErr)
      | (st1, some got, none) =>
        match got with
        | .gb b =>
          match toJsonGo rev fuel cfg st1 rest with
          | (st2, acc, e2) => (st2, (name, .jb b) :: acc, e2)
        | .gi z =>
          match toJsonGo rev fuel cfg st1 rest with
          | (st2, acc, e2) => (st2, (name, .ji z) :: acc, e2)
        | .gsub i sc sub =>
          match toJsonOp rev fuel sc sub with
          | (sub2, j, e2) =>
            let st2 := putSub st1 name i sub2
            match e2 with
            | some e => (st2, [], some e)
            | none =>
              match toJsonGo rev fuel cfg st2 rest with
              | (st3, acc, e3) => (st3, (name, .jobj j) :: acc, e3)
termination_by structural fuel

/-- Model of `BitDict.valid` (factory revision only; the legacy class has no
such method): short-circuit conjunction of `_is_valid_value` over all
fields, descending into the selected variant when its selector is valid. -/
def validOp (rev : Rev) (fuel : Nat) (cfg : Cfg) (st : St) : St × Option Bool × Option Err :=
  match fuel with
  | 0 => (st, none, some .oom)
  | fuel + 1 => validGo rev fuel cfg st cfg.fields
termination_by structural fuel

def validGo (rev : Rev) (fuel : Nat) (cfg : Cfg) (st : St)
    (fields : List (String × FieldCfg)) : St × Option Bool × Option Err :=
  match fuel with
  | 0 => (st, none, some .oom)
  | fuel + 1 =>
    match fields with
    | [] => (st, some true, none)
    | (k, fc) :: rest =>
      match fc.ty with
      | .bitdict =>
        match fc.selector with
        | none => (st, none, some .keyErr)
        | some selName =>
          match getItem rev fuel cfg st selName with
          | (st1, _, some e) => (st1, none, some e)
          | (st1, got, none) =>
            match selAsInt got with
            | .error e => (st1, none, some e)
            | .ok sel =>
              match lookupF cfg selName with
              | none => (st1, none, some .keyErr)
              | some selFc =>
                match isValidValue selFc.vld sel with
                | .error _ => (st1, none, some (.valErr .schemaK))
                | .ok false => (st1, some false, none)
                | .ok true =>
                  match getSub rev fuel cfg st1 k sel with
                  | (st2, _, some e) => (st2, none, some e)
                  | (st2, none, none) => (st2, none, some .assertErr)
                  | (st2, some (i, sub, sc), none) =>
                    match validOp rev fuel sc sub with
                    | (sub2, vr, e2) =>
                      let st3 := putSub st2 k i sub2
                      match e2 with
                      | some e => (st3, none, some e)
                      | none =>
                        if vr.getD false then validGo rev fuel cfg st3 rest
                        else (st3, some false, none)
      | _ =>
        match getItem rev fuel cfg st k with
        | (st1, _, some e) => (st1, none, some e)
        | (st1, got, none) =>
          match got with
          | none => (st1, none, some .assertErr)
          | some g =>
            match gotScalarInt g with
            | .error e => (st1, none, some e)
            | .ok z =>
              match isValidValue fc.vld z with
              | .error _ => (st1, none, some (.valErr .schemaK))
              | .ok false => (st1, some false, none)
              | .ok true => validGo rev fuel cfg st1 rest
termination_by structural fuel

/-- Model of `BitDict.inspect` (factory revision only): collect the invalid
fields as a nested mapping.  For a scalar field Python reads the value a
second time when recording it; scalar reads are pure, so the model records
the single read. -/
def inspectOp (rev : Rev) (fuel : Nat) (cfg : Cfg) (st : St) :
    St × List (String × JVal) × Option Err :=
  match fuel with
  | 0 => (st, [], some .oom)
  | fuel + 1 => inspectGo rev fuel cfg st cfg.fields
termination_by structural fuel

def inspectGo (rev : Rev) (fuel : Nat) (cfg : Cfg) (st : St)
    (fields : List (String × FieldCfg)) : St × List (String × JVal) × Option Err :=
  match fuel with
  | 0 => (st, [], some .oom)
  | fuel + 1 =>
    match fields with
    | [] => (st, [], none)
    | (k, fc) :: rest =>
      match fc.ty with
      | .bitdict =>
        match fc.selector with
        | none => (st, [], some .keyErr)
        | some selName =>
          match getItem rev fuel cfg st selName with
          | (st1, _, some e) => (st1, [], some e)
          | (st1, none, none) => (st1, [], some .assertErr)
          | (st1, some got, none) =>
            match selAsInt (some got) with
            | .error e => (st1, [], some e)
            | .ok sel =>
              match lookupF cfg selName with
              | none => (st1, [], some .keyErr)
              | some selFc =>
                match isValidValue selFc.vld sel with
                | .error _ => (st1, [], some (.valErr .schemaK))
                | .ok false =>
                  match inspectGo rev fuel cfg st1 rest with
                  | (st2, acc, e2) => (st2, (selName, gotJ got) :: acc, e2)
                | .ok true =>
                  match getSub rev fuel cfg st1 k sel with
                  | (st2, _, some e) => (st2, [], some e)
                  | (st2, none, none) => (st2, [], some .assertErr)
                  | (st2, some (i, sub, sc), none) =>
                    match inspectOp rev fuel sc sub with
                    | (sub2, subBad, e2) =>
                      let st3 := putSub st2 k i sub2
                      match e2 with
                      | some e => (st3, [], some e)
                      | none =>
                        match inspectGo rev fuel cfg st3 rest with
                        | (st4, acc, e3) =>
                          if subBad.isEmpty then (st4, acc, e3)
                          else (st4, (k, .jobj subBad) :: acc, e3)
      | _ =>
        match getItem rev fuel cfg st k with
        | (st1, _, some e) => (st1, [], some e)
        | (st1, none, none) => (st1, [], some .assertErr)
        | (st1, some got, none) =>
          match gotScalarInt got with
          | .error e => (st1, [], some e)
          | .ok z =>
            match isValidValue fc.vld z with
            | .error _ => (st1, [], some (.valErr .schemaK))
            | .ok false =>
              match inspectGo rev fuel cfg st1 rest with
              | (st2, acc, e2) => (st2, (k, gotJ got) :: acc, e2)
            | .ok true => inspectGo rev fuel cfg st1 rest
termination_by structural fuel

end

/-- Model of `BitDict.__init__`: seed from nothing (reset to defaults), an
integer (range-checked, then `set`), big-endian bytes (length-checked, then
`set`), a mapping, or reject the type. -/
def initOp (rev : Rev) (fuel : Nat) (cfg : Cfg) (v : InitV) (ignoreUnknown : Bool) :
    St × Option Err :=
  match fuel with
  | 0 => (St.mk 0 [], some .oom)
  | fuel + 1 =>
    let st0 : St := .mk 0 []
    let W := totalWidth cfg
    match v with
    | .vnone =>
      match resetOp rev fuel cfg st0 none with
      | (st, _, e) => (st, e)
    | .vint z =>
      if pow2 W ≤ z then (st0, some (.valErr .range))
      else if W = 0 then (st0, some (.valErr .shiftK))
      else if z < -(pow2 (W - 1)) then (st0, some (.valErr .range))
      else
        match setOp rev fuel cfg st0 none (.pi z) true with
        | (st, _, e) => (st, e)
    | .vbytes bs =>
      if numBytes W < bs.length then (st0, some (.valErr .range))
      else
        match setOp rev fuel cfg st0 none (.pi (fromBytes bs)) true with
        | (st, _, e) => (st, e)
    | .vdict d =>
      match setOp rev fuel cfg st0 none (.pdict d) ignoreUnknown with
      | (st, _, e) => (st, e)
    | .vother => (st0, some .typeErr)

/-- Model of `BitDict.clear`: `self.set(0)`. -/
def clearOp (rev : Rev) (fuel : Nat) (cfg : Cfg) (st : St) (ctx : Option Ctx) :
    St × Option Ctx × Option Err :=
  setOp rev fuel cfg st ctx (.pi 0) true

/-- Model of `BitDict.to_int`. -/
def toIntOp (st : St) : Int := st.value

/-- Model of `BitDict.to_bytes`: the value encoded big-endian in
`ceil(total_width/8)` bytes; `none` models Python's `OverflowError` when the
value is negative or too large (unreachable from factory states). -/
def toBytesOp (cfg : Cfg) (st : St) : Option (List Nat) :=
  let n := numBytes (totalWidth cfg)
  if 0 ≤ st.value ∧ st.value < (256 : Int) ^ n then some (beBytes n st.value.toNat) else none


/-- Mutation through a held sub-record object: `root[k1][k2]...[kn][key] = v`
in Python first fetches the cached sub-records (the path records each cache
slot), then runs `__setitem__` on the last one.  Only that record's
`__setitem__` runs, so only its immediate parent receives a push-up; the
remaining ancestors merely alias the mutated caches. -/
def setItemAt (rev : Rev) (fuel : Nat) (cfg : Cfg) (st : St) :
    List (String × Nat) → String → PyVal → St × Option Err
  | [], key, v =>
    match setItem rev fuel cfg st none key v with
    | (st1, _, e) => (st1, e)
  | [(k, i)], key, v =>
    match lookupF cfg k with
    | none => (st, some .keyErr)
    | some fc =>
      match fc.subtype with
      | none => (st, some .keyErr)
      | some lst =>
        match lst.get? i with
        | some (some sc) =>
          match ((st.subs.lookup k).getD []).get? i with
          | some (some sub) =>
            match setItem rev fuel sc sub (some ⟨fc.start, fc.width, st.value⟩) key v with
            | (sub2, ctx2, e) =>
              (putSub (St.mk (pvalOf ctx2 st.value) st.subs) k i sub2, e)
          | _ => (st, some .keyErr)
        | _ => (st, some .keyErr)
  | (k, i) :: p2 :: rest, key, v =>
    match lookupF cfg k with
    | none => (st, some .keyErr)
    | some fc =>
      match fc.subtype with
      | none => (st, some .keyErr)
      | some lst =>
        match lst.get? i with
        | some (some sc) =>
          match ((st.subs.lookup k).getD []).get? i with
          | some (some sub) =>
            match setItemAt rev fuel sc sub (p2 :: rest) key v with
            | (sub2, e) => (putSub st k i sub2, e)
          | _ => (st, some .keyErr)
        | _ => (st, some .keyErr)

/-- Observe the packed integer of the record reached by a cache path
(`[]` is the record itself). -/
def valueAt : St → List (String × Nat) → Option Int
  | st, [] => some st.value
  | st, (k, i) :: p =>
    match st.subs.lookup k with
    | none => none
    | some sdk =>
      match sdk.get? i with
      | some (some sub) => valueAt sub p
      | _ => none

/-- ASCII model of Python `str.isidentifier` (all identifiers appearing in
this development are ASCII). -/
def isIdentChar (c : Char) (first : Bool) : Bool :=
  decide (c = Char.ofNat 95) ||
  decide (Char.ofNat 97 ≤ c ∧ c ≤ Char.ofNat 122) ||
  decide (Char.ofNat 65 ≤ c ∧ c ≤ Char.ofNat 90) ||
  (!first && decide (Char.ofNat 48 ≤ c ∧ c ≤ Char.ofNat 57))

def pyIdent (s : String) : Bool :=
  match s.toList with
  | [] => false
  | c :: cs => isIdentChar c true && cs.all (fun c2 => isIdentChar c2 false)

def FieldCfg.withDflt : FieldCfg → Option DVal → FieldCfg
  | .mk s w t _ v sel sub l, d => .mk s w t d v sel sub l

def FieldCfg.withLink : FieldCfg → Option String → FieldCfg
  | .mk s w t d v sel sub _, l => .mk s w t d v sel sub l

def FieldCfg.withSubtype : FieldCfg → Option (List (Option Cfg)) → FieldCfg
  | .mk s w t d v sel _ l, sub => .mk s w t d v sel sub l

def dvAsInt : DVal → Int
  | .db b => if b then 1 else 0
  | .di z => z

/-- Model of `ValidKeyValidator._is_value_in_range`. -/
def inDomain (ty : FType) (w : Nat) (z : Int) : Bool :=
  match ty with
  | .bool => decide (z = 0 ∨ z = 1)
  | .uint => decide (0 ≤ z ∧ z < pow2 w)
  | _ => decide (-(pow2 (w - 1)) ≤ z ∧ z < pow2 (w - 1))

/-- Model of `DefaultValueValidator` (shared verbatim by the legacy
validator's default section): forbid defaults on `bitdict` (and, in the
legacy path, `reserved`), fill missing scalar defaults, and check a present
default's host type and range. -/
def defaultCheck (rev : Rev) (fc : FieldCfg) : Except Err FieldCfg :=
  if (fc.ty = .bitdict ∨ (rev = .legacy ∧ fc.ty = .reserved)) then
    if fc.dflt.isSome then .error (.valErr .schemaK) else .ok fc
  else
    match fc.dflt with
    | none =>
      match fc.ty with
      | .bool => .ok (fc.withDflt (some (.db false)))
      | .uint => .ok (fc.withDflt (some (.di 0)))
      | .int => .ok (fc.withDflt (some (.di 0)))
      | _ => .ok fc
    | some dv =>
      match fc.ty with
      | .bool =>
        match dv with
        | .db _ => .ok fc
        | .di _ => .error .typeErr
      | .uint =>
        if 0 ≤ dvAsInt dv ∧ dvAsInt dv < pow2 fc.width then .ok fc
        else .error (.valErr .schemaK)
      | .int =>
        if -(pow2 (fc.width - 1)) ≤ dvAsInt dv ∧ dvAsInt dv < pow2 (fc.width - 1) then .ok fc
        else .error (.valErr .schemaK)
      | _ => .ok fc

/-- Range tuples of a `valid.range` list: shape check, then full expansion
with every element required in the field's domain (the Python validator
iterates `range(*r)` entirely). -/
def validRangesCheck (ty : FType) (w : Nat) : List (List Int) → Except Err Unit
  | [] => .ok ()
  | r :: rest =>
    if ¬ (1 ≤ r.length ∧ r.length ≤ 3) then .error (.valErr .schemaK)
    else
      match pyRangeElems r with
      | .error _ => .error (.valErr .schemaK)
      | .ok es =>
        if es.all (inDomain ty w) then validRangesCheck ty w rest
        else .error (.valErr .schemaK)

/-- Model of `ValidKeyValidator` (factory revision only; the legacy
validator has no `valid` checks). -/
def validKeyCheck (fc : FieldCfg) : Except Err Unit :=
  match fc.ty, fc.vld with
  | .bitdict, some _ => .error (.valErr .schemaK)
  | .bitdict, none => .ok ()
  | _, none => .ok ()
  | ty, some s =>
    if s.vset = none ∧ s.vrange = none then .error (.valErr .schemaK)
    else
      match (match s.vset with
             | none => Except.ok ()
             | some l =>
               if l = [] then Except.error (Err.valErr .schemaK)
               else if l.all (fun z => inDomain ty fc.width z) then Except.ok ()
               else Except.error (Err.valErr .schemaK)) with
      | .error e => .error e
      | .ok _ =>
        match s.vrange with
        | none => .ok ()
        | some rs =>
          if rs = [] then .error (.valErr .schemaK)
          else validRangesCheck ty fc.width rs

/-- Per-field validator chain of `ConfigurationValidator._validate_single_property`
(name, structure, start/width, type membership without `reserved`,
bool width, defaults, `valid` key, bitdict key presence). -/
def validateField (name : String) (fc : FieldCfg) : Except Err FieldCfg :=
  if ¬ pyIdent name then .error (.valErr .schemaK)
  else if fc.width = 0 then .error (.valErr .schemaK)
  else if ¬ (fc.ty = .bool ∨ fc.ty = .uint ∨ fc.ty = .int ∨ fc.ty = .bitdict) then
    .error (.valErr .schemaK)
  else if fc.ty = .bool ∧ fc.width ≠ 1 then .error (.valErr .schemaK)
  else
    match defaultCheck .factory fc with
    | .error e => .error e
    | .ok fc1 =>
      match validKeyCheck fc1 with
      | .error e => .error e
      | .ok _ =>
        if fc1.ty = .bitdict ∧ (fc1.subtype.isNone ∨ fc1.selector.isNone) then
          .error (.valErr .schemaK)
        else .ok fc1

/-- Per-field validator of the legacy `_validate_property_config` (accepts
`reserved`, has no `valid` checks). -/
def validateFieldL (name : String) (fc : FieldCfg) : Except Err FieldCfg :=
  if ¬ pyIdent name then .error (.valErr .schemaK)
  else if fc.width = 0 then .error (.valErr .schemaK)
  else if fc.ty = .bool ∧ fc.width ≠ 1 then .error (.valErr .schemaK)
  else
    match defaultCheck .legacy fc with
    | .error e => .error e
    | .ok fc1 =>
      if fc1.ty = .bitdict ∧ (fc1.subtype.isNone ∨ fc1.selector.isNone) then
        .error (.valErr .schemaK)
      else .ok fc1

mutual

/-- Model of `validate_property_config` + subtype recursion of the factory
revision (`validation.py`): per-field checks, reverse-link writing, and
recursive validation of each non-null subtype schema.  Note that the
recursion validates the nested schema but runs no overlap check on it. -/
def validateF (fuel : Nat) (cfg : Cfg) : Except Err Cfg :=
  match fuel with
  | 0 => .error .oom
  | fuel + 1 =>
    match validateFGo fuel (cfg.fields.map (fun p => p.1)) cfg.fields with
    | .error e => .error e
    | .ok flds => .ok (.mk flds)
termination_by structural fuel

def validateFGo (fuel : Nat) (ks : List String) (flds : List (String × FieldCfg)) :
    Except Err (List (String × FieldCfg)) :=
  match fuel with
  | 0 => .error .oom
  | fuel + 1 =>
    match ks with
    | [] => .ok flds
    | k :: ks =>
      match flds.lookup k with
      | none => .error .assertErr
      | some fc =>
        match validateField k fc with
        | .error e => .error e
        | .ok fc1 =>
          let flds1 := assocSet flds k fc1
          if fc1.ty = .bitdict then
            match fc1.selector, fc1.subtype with
            | some selName, some lst =>
              match flds1.lookup selName with
              | none => .error (.valErr .schemaK)
              | some selFc =>
                if ¬ (selFc.ty = .bool ∨ selFc.ty = .uint) then .error (.valErr .schemaK)
                else if 16 < selFc.width then .error (.valErr .schemaK)
                else
                  let flds2 := assocSet flds1 selName (selFc.withLink (some k))
                  if lst.length = 0 then .error (.valErr .schemaK)
                  else
                    match validateSubsF fuel selFc.vld 0 lst with
                    | .error e => .error e
                    | .ok lst2 => validateFGo fuel ks (assocSet flds2 k (fc1.withSubtype (some lst2)))
            | _, _ => .error .assertErr
          else validateFGo fuel ks flds1
termination_by structural fuel

def validateSubsF (fuel : Nat) (selVld : Option VSpec) (idx : Nat) (lst : List (Option Cfg)) :
    Except Err (List (Option Cfg)) :=
  match fuel with
  | 0 => .error .oom
  | fuel + 1 =>
    match lst with
    | [] => .ok []
    | none :: rest =>
      match isValidValue selVld (idx : Int) with
      | .error _ => .error (.valErr .schemaK)
      | .ok true => .error (.valErr .schemaK)
      | .ok false =>
        match validateSubsF fuel selVld (idx + 1) rest with
        | .error e => .error e
        | .ok rest2 => .ok (none :: rest2)
    | some sub :: rest =>
      match validateF fuel sub with
      | .error e => .error e
      | .ok sub2 =>
        match validateSubsF fuel selVld (idx + 1) rest with
        | .error e => .error e
        | .ok rest2 => .ok (some sub2 :: rest2)
termination_by structural fuel

end

/-- Model of `OverlapValidator.check_overlapping`: walk each field's bits in
declaration order, failing when a bit repeats. -/
def bitsUsedGo (used : List Nat) : List Nat → Option (List Nat)
  | [] => some used
  | b :: bs => if used.contains b then none else bitsUsedGo (b :: used) bs

def checkOverlapGo (used : List Nat) : List (String × FieldCfg) → Option Err
  | [] => none
  | (_, fc) :: rest =>
    match bitsUsedGo used (List.range' fc.start fc.width) with
    | none => some (.valErr .overlapK)
    | some used2 => checkOverlapGo used2 rest

def checkOverlapping (cfg : Cfg) : Option Err := checkOverlapGo [] cfg.fields

/-- Model of the factory-revision `bitdict_factory` pipeline
(`validate_property_config` on the whole tree, then `check_overlapping` on
the top level only), producing the normalized configuration the generated
class carries. -/
def compileFactory (fuel : Nat) (cfg : Cfg) : Except Err Cfg :=
  match validateF fuel cfg with
  | .error e => .error e
  | .ok ncfg =>
    match checkOverlapping ncfg with
    | some e => .error e
    | none => .ok ncfg

mutual

/-- Model of the legacy `bitdict_factory`: validation recurses through the
factory itself, so every nested subtype schema also gets an overlap check. -/
def compileLegacy (fuel : Nat) (cfg : Cfg) : Except Err Cfg :=
  match fuel with
  | 0 => .error .oom
  | fuel + 1 =>
    match validateL fuel cfg with
    | .error e => .error e
    | .ok ncfg =>
      match checkOverlapping ncfg with
      | some e => .error e
      | none => .ok ncfg
termination_by structural fuel

def validateL (fuel : Nat) (cfg : Cfg) : Except Err Cfg :=
  match fuel with
  | 0 => .error .oom
  | fuel + 1 =>
    match validateLGo fuel (cfg.fields.map (fun p => p.1)) cfg.fields with
    | .error e => .error e
    | .ok flds => .ok (.mk flds)
termination_by structural fuel

def validateLGo (fuel : Nat) (ks : List String) (flds : List (String × FieldCfg)) :
    Except Err (List (String × FieldCfg)) :=
  match fuel with
  | 0 => .error .oom
  | fuel + 1 =>
    match ks with
    | [] => .ok flds
    | k :: ks =>
      match flds.lookup k with
      | none => .error .assertErr
      | some fc =>
        match validateFieldL k fc with
        | .error e => .error e
        | .ok fc1 =>
          let flds1 := assocSet flds k fc1
          if fc1.ty = .bitdict then
            match fc1.selector, fc1.subtype with
            | some selName, some lst =>
              match flds1.lookup selName with
              | none => .error (.valErr .schemaK)
              | some selFc =>
                if ¬ (selFc.ty = .bool ∨ selFc.ty = .uint) then .error (.valErr .schemaK)
                else if 16 < selFc.width then .error (.valErr .schemaK)
                else
                  let flds2 := assocSet flds1 selName (selFc.withLink (some k))
                  if lst.length = 0 then .error (.valErr .schemaK)
                  else
                    match validateSubsL fuel lst with
                    | .error e => .error e
                    | .ok lst2 => validateLGo fuel ks (assocSet flds2 k (fc1.withSubtype (some lst2)))
            | _, _ => .error .assertErr
          else validateLGo fuel ks flds1
termination_by structural fuel

def validateSubsL (fuel : Nat) (lst : List (Option Cfg)) : Except Err (List (Option Cfg)) :=
  match fuel with
  | 0 => .error .oom
  | fuel + 1 =>
    match lst with
    | [] => .ok []
    | none :: rest =>
      match validateSubsL fuel rest with
      | .error e => .error e
      | .ok rest2 => .ok (none :: rest2)
    | some sub :: rest =>
      match compileLegacy fuel sub with
      | .error e => .error e
      | .ok sub2 =>
        match validateSubsL fuel rest with
        | .error e => .error e
        | .ok rest2 => .ok (some sub2 :: rest2)
termination_by structural fuel

end


/-! Arithmetic facts about `bdSlice` and `maskedWrite`. -/

theorem bdSlice_def (v : Int) (s w : Nat) : bdSlice v s w = (v / pow2 s) % pow2 w := rfl

theorem maskedWrite_def (v : Int) (s w : Nat) (x : Int) :
    maskedWrite v s w x = v - bdSlice v s w * pow2 s + x % pow2 w * pow2 s := rfl

theorem pow2_pos (n : Nat) : 0 < pow2 n := by
  unfold pow2; positivity

theorem pow2_ne (n : Nat) : pow2 n ≠ 0 := ne_of_gt (pow2_pos n)

theorem pow2_add (a b : Nat) : pow2 (a + b) = pow2 a * pow2 b := by
  unfold pow2; rw [pow_add]

theorem bdSlice_nonneg (v : Int) (s w : Nat) : 0 ≤ bdSlice v s w := by
  rw [bdSlice_def]
  exact Int.emod_nonneg _ (pow2_ne w)

theorem bdSlice_lt (v : Int) (s w : Nat) : bdSlice v s w < pow2 w := by
  rw [bdSlice_def]
  exact Int.emod_lt_of_pos _ (pow2_pos w)

theorem emod_pow2_nonneg (v : Int) (s : Nat) : 0 ≤ v % pow2 s :=
  Int.emod_nonneg _ (pow2_ne s)

theorem emod_pow2_lt (v : Int) (s : Nat) : v % pow2 s < pow2 s :=
  Int.emod_lt_of_pos _ (pow2_pos s)

/-- Splitting euclidean division and remainder at a product of powers of
two: the quotient by `2^(s+w)` is the iterated quotient, and the remainder
by `2^(s+w)` decomposes into the `w`-bit slice at `s` and the low bits. -/
theorem split_sw (v : Int) (s w : Nat) :
    v / pow2 (s + w) = (v / pow2 s) / pow2 w ∧
      v % pow2 (s + w) = bdSlice v s w * pow2 s + v % pow2 s := by
  have h1 : v % pow2 s + pow2 s * (v / pow2 s) = v := Int.emod_add_ediv v (pow2 s)
  have h2 : (v / pow2 s) % pow2 w + pow2 w * ((v / pow2 s) / pow2 w) = v / pow2 s :=
    Int.emod_add_ediv _ (pow2 w)
  have hb : bdSlice v s w = (v / pow2 s) % pow2 w := bdSlice_def v s w
  have hs0 := bdSlice_nonneg v s w
  have hs1 := bdSlice_lt v s w
  have hl0 := emod_pow2_nonneg v s
  have hl1 := emod_pow2_lt v s
  have hp : pow2 (s + w) = pow2 s * pow2 w := pow2_add s w
  have key := (Int.ediv_emod_unique (a := v) (b := pow2 (s + w))
    (q := (v / pow2 s) / pow2 w) (r := bdSlice v s w * pow2 s + v % pow2 s)
    (pow2_pos (s + w))).mpr ?_
  · exact ⟨key.1, key.2⟩
  · refine ⟨?_, ?_, ?_⟩
    · rw [hb, hp]
      linear_combination h1 + pow2 s * h2
    · exact add_nonneg (mul_nonneg hs0 (le_of_lt (pow2_pos s))) hl0
    · have e2 : bdSlice v s w * pow2 s ≤ (pow2 w - 1) * pow2 s := by
        have := pow2_pos s
        nlinarith
      have e3 : (pow2 w - 1) * pow2 s + (pow2 s - 1) = pow2 s * pow2 w - 1 := by ring
      rw [hp]
      linarith

theorem ediv_pow2_split (v : Int) (s w : Nat) :
    v / pow2 (s + w) = (v / pow2 s) / pow2 w := (split_sw v s w).1

theorem emod_pow2_split (v : Int) (s w : Nat) :
    v % pow2 (s + w) = bdSlice v s w * pow2 s + v % pow2 s := (split_sw v s w).2

/-- Full decomposition of an integer at a bit range. -/
theorem v_decomp (v : Int) (s w : Nat) :
    v = v / pow2 (s + w) * pow2 (s + w) + bdSlice v s w * pow2 s + v % pow2 s := by
  have h : v % pow2 (s + w) + pow2 (s + w) * (v / pow2 (s + w)) = v :=
    Int.emod_add_ediv v (pow2 (s + w))
  have h2 := emod_pow2_split v s w
  linarith

theorem maskedWrite_decomp (v : Int) (s w : Nat) (x : Int) :
    maskedWrite v s w x
      = v / pow2 (s + w) * pow2 (s + w) + x % pow2 w * pow2 s + v % pow2 s := by
  have h := v_decomp v s w
  rw [maskedWrite_def]
  linarith

theorem maskedWrite_ediv_high (v : Int) (s w : Nat) (x : Int) :
    maskedWrite v s w x / pow2 (s + w) = v / pow2 (s + w) := by
  have hd := maskedWrite_decomp v s w x
  have hx0 : 0 ≤ x % pow2 w := Int.emod_nonneg _ (pow2_ne w)
  have hx1 : x % pow2 w < pow2 w := Int.emod_lt_of_pos _ (pow2_pos w)
  have hl0 := emod_pow2_nonneg v s
  have hl1 := emod_pow2_lt v s
  have hp : pow2 (s + w) = pow2 s * pow2 w := pow2_add s w
  have key := (Int.ediv_emod_unique (a := maskedWrite v s w x) (b := pow2 (s + w))
    (q := v / pow2 (s + w)) (r := x % pow2 w * pow2 s + v % pow2 s)
    (pow2_pos (s + w))).mpr ?_
  · exact key.1
  · refine ⟨by linear_combination -hd, ?_, ?_⟩
    · exact add_nonneg (mul_nonneg hx0 (le_of_lt (pow2_pos s))) hl0
    · have e2 : x % pow2 w * pow2 s ≤ (pow2 w - 1) * pow2 s := by
        have := pow2_pos s
        nlinarith
      have e3 : (pow2 w - 1) * pow2 s + (pow2 s - 1) = pow2 s * pow2 w - 1 := by ring
      rw [hp]
      linarith

theorem maskedWrite_emod_low (v : Int) (s w : Nat) (x : Int) :
    maskedWrite v s w x % pow2 s = v % pow2 s := by
  have hd := maskedWrite_decomp v s w x
  have hl0 := emod_pow2_nonneg v s
  have hl1 := emod_pow2_lt v s
  have hp : pow2 (s + w) = pow2 s * pow2 w := pow2_add s w
  have key := (Int.ediv_emod_unique (a := maskedWrite v s w x) (b := pow2 s)
    (q := v / pow2 (s + w) * pow2 w + x % pow2 w) (r := v % pow2 s)
    (pow2_pos s)).mpr ?_
  · exact key.2
  · refine ⟨?_, hl0, hl1⟩
    linear_combination -hd - v / pow2 (s + w) * hp

theorem maskedWrite_ediv_mid (v : Int) (s w : Nat) (x : Int) :
    maskedWrite v s w x / pow2 s = v / pow2 (s + w) * pow2 w + x % pow2 w := by
  have hd := maskedWrite_decomp v s w x
  have hx0 : 0 ≤ x % pow2 w := Int.emod_nonneg _ (pow2_ne w)
  have hl0 := emod_pow2_nonneg v s
  have hl1 := emod_pow2_lt v s
  have hp : pow2 (s + w) = pow2 s * pow2 w := pow2_add s w
  have key := (Int.ediv_emod_unique (a := maskedWrite v s w x) (b := pow2 s)
    (q := v / pow2 (s + w) * pow2 w + x % pow2 w) (r := v % pow2 s)
    (pow2_pos s)).mpr ?_
  · exact key.1
  · refine ⟨?_, hl0, hl1⟩
    linear_combination -hd - v / pow2 (s + w) * hp

/-- Reading back the written range recovers the written bits. -/
theorem bdSlice_maskedWrite_self (v : Int) (s w : Nat) (x : Int) :
    bdSlice (maskedWrite v s w x) s w = x % pow2 w := by
  have hx0 : 0 ≤ x % pow2 w := Int.emod_nonneg _ (pow2_ne w)
  have hx1 : x % pow2 w < pow2 w := Int.emod_lt_of_pos _ (pow2_pos w)
  rw [bdSlice_def, maskedWrite_ediv_mid, add_comm, Int.add_mul_emod_self,
    Int.emod_eq_of_lt hx0 hx1]

/-- Writing a field that lies inside the record keeps the record value in
its unsigned range (for any written value, which is masked). -/
theorem maskedWrite_range {W : Nat} (v : Int) (s w : Nat) (x : Int)
    (hW : s + w ≤ W) (h0 : 0 ≤ v) (h1 : v < pow2 W) :
    0 ≤ maskedWrite v s w x ∧ maskedWrite v s w x < pow2 W := by
  have hd := maskedWrite_decomp v s w x
  have hx0 : 0 ≤ x % pow2 w := Int.emod_nonneg _ (pow2_ne w)
  have hx1 : x % pow2 w < pow2 w := Int.emod_lt_of_pos _ (pow2_pos w)
  have hl0 := emod_pow2_nonneg v s
  have hl1 := emod_pow2_lt v s
  have hq0 : 0 ≤ v / pow2 (s + w) := Int.ediv_nonneg h0 (le_of_lt (pow2_pos (s + w)))
  have hWsplit : pow2 (W - (s + w)) * pow2 (s + w) = pow2 W := by
    rw [← pow2_add, Nat.sub_add_cancel hW]
  have hq1 : v / pow2 (s + w) < pow2 (W - (s + w)) := by
    rw [Int.ediv_lt_iff_lt_mul (pow2_pos (s + w))]
    rw [hWsplit]; exact h1
  constructor
  · rw [hd]
    have := pow2_pos (s + w)
    have := pow2_pos s
    positivity
  · have e1 : v / pow2 (s + w) * pow2 (s + w) ≤ (pow2 (W - (s + w)) - 1) * pow2 (s + w) := by
      have := pow2_pos (s + w)
      nlinarith
    have e2 : x % pow2 w * pow2 s ≤ (pow2 w - 1) * pow2 s := by
      have := pow2_pos s
      nlinarith
    have e3 : (pow2 (W - (s + w)) - 1) * pow2 (s + w) + (pow2 w - 1) * pow2 s + (pow2 s - 1)
        = pow2 W - pow2 (s + w) + pow2 s * pow2 w - pow2 s + pow2 s - 1 := by
      rw [← hWsplit]
      ring
    have e4 : pow2 (s + w) = pow2 s * pow2 w := pow2_add s w
    linarith

/-- A write at `[s, s+w)` does not change a slice lying entirely below it. -/
theorem bdSlice_congr_emod {v v2 : Int} (s2 w2 : Nat)
    (h : v % pow2 (s2 + w2) = v2 % pow2 (s2 + w2)) :
    bdSlice v s2 w2 = bdSlice v2 s2 w2 := by
  have e1 := emod_pow2_split v s2 w2
  have e2 := emod_pow2_split v2 s2 w2
  have els1 := bdSlice_nonneg v s2 w2
  have els2 := bdSlice_lt v s2 w2
  have els3 := bdSlice_nonneg v2 s2 w2
  have els4 := bdSlice_lt v2 s2 w2
  have elo1 := emod_pow2_nonneg v s2
  have elo2 := emod_pow2_lt v s2
  have elo3 := emod_pow2_nonneg v2 s2
  have elo4 := emod_pow2_lt v2 s2
  have hps := pow2_pos s2
  nlinarith [e1, e2, h]

theorem bdSlice_maskedWrite_low (v : Int) (s w : Nat) (x : Int) (s2 w2 : Nat)
    (h : s2 + w2 ≤ s) :
    bdSlice (maskedWrite v s w x) s2 w2 = bdSlice v s2 w2 := by
  refine bdSlice_congr_emod s2 w2 ?_
  have hdvd : pow2 (s2 + w2) ∣ pow2 s := by
    unfold pow2; exact pow_dvd_pow 2 h
  calc maskedWrite v s w x % pow2 (s2 + w2)
      = maskedWrite v s w x % pow2 s % pow2 (s2 + w2) :=
        (Int.emod_emod_of_dvd _ hdvd).symm
    _ = v % pow2 s % pow2 (s2 + w2) := by rw [maskedWrite_emod_low]
    _ = v % pow2 (s2 + w2) := Int.emod_emod_of_dvd _ hdvd

/-- A write at `[s, s+w)` does not change a slice lying entirely above it. -/
theorem bdSlice_maskedWrite_high (v : Int) (s w : Nat) (x : Int) (s2 w2 : Nat)
    (h : s + w ≤ s2) :
    bdSlice (maskedWrite v s w x) s2 w2 = bdSlice v s2 w2 := by
  have hsplit : ∀ u : Int, u / pow2 s2 = (u / pow2 (s + w)) / pow2 (s2 - (s + w)) := by
    intro u
    have h2 := ediv_pow2_split u (s + w) (s2 - (s + w))
    have harg : s + w + (s2 - (s + w)) = s2 := by omega
    rw [harg] at h2
    exact h2
  rw [bdSlice_def, bdSlice_def, hsplit (maskedWrite v s w x), hsplit v, maskedWrite_ediv_high]


/-! Concrete schemas used by counterexamples and witnesses, and the record
types compiled from them. -/

/-- Compiled record type of a raw schema under the factory pipeline (the
empty schema when compilation fails; the theorems using this always also
state that compilation succeeded). -/
def compiledF (fuel : Nat) (raw : Cfg) : Cfg :=
  match compileFactory fuel raw with
  | .ok c => c
  | .error _ => .mk []

/-- Compiled record type under the legacy pipeline. -/
def compiledL (fuel : Nat) (raw : Cfg) : Cfg :=
  match compileLegacy fuel raw with
  | .ok c => c
  | .error _ => .mk []

/-- One unsigned 8-bit field. -/
def c1raw : Cfg := .mk [("v8", .mk 0 8 .uint none none none none none)]

def c1n : Cfg := compiledF 10 c1raw

/-- One unsigned 4-bit field (total width 4, byte length 1). -/
def c7raw : Cfg := .mk [("v4", .mk 0 4 .uint none none none none none)]

def c7n : Cfg := compiledF 10 c7raw

/-- Two unsigned 4-bit fields, no overlap. -/
def c8raw : Cfg := .mk [
  ("a", .mk 0 4 .uint none none none none none),
  ("b", .mk 4 4 .uint none none none none none)]

def c8n : Cfg := compiledF 10 c8raw

def c8st0 : St := (initOp .factory 10 c8n .vnone true).1

def c8res : St × Option Ctx × Option Err :=
  setOp .factory 10 c8n c8st0 none (.pdict [("a", .pi 5), ("b", .pi 99)]) true

/-- Depth-two nesting: a root with a bitdict field `S` (selector `s1`) whose
variants contain a bitdict field `T` (selector `s2`) whose variants hold a
2-bit field `x`. -/
def c2leaf : Cfg := .mk [("x", .mk 0 2 .uint none none none none none)]

def c2mid : Cfg := .mk [
  ("s2", .mk 0 1 .bool none none none none none),
  ("T", .mk 1 2 .bitdict none none (some "s2") (some [some c2leaf, some c2leaf]) none)]

def c2raw : Cfg := .mk [
  ("s1", .mk 0 1 .bool none none none none none),
  ("S", .mk 1 3 .bitdict none none (some "s1") (some [some c2mid, some c2mid]) none)]

def c2n : Cfg := compiledF 30 c2raw

def c2st0 : St := (initOp .factory 30 c2n .vnone true).1

def c2res : St × Option Err :=
  setItemAt .factory 30 c2n c2st0 [("S", 0), ("T", 0)] "x" (.pi 3)

/-- One boolean field (total width 1), for the legacy negative-set state. -/
def c4raw : Cfg := .mk [("f", .mk 0 1 .bool none none none none none)]

def c4n : Cfg := compiledL 10 c4raw

def c4st0 : St := (initOp .legacy 10 c4n .vnone true).1

def c4res : St × Option Ctx × Option Err := setOp .legacy 10 c4n c4st0 none (.pi (-1)) true

/-- A nested variant schema whose two fields overlap on bit 1. -/
def c5sub : Cfg := .mk [
  ("a", .mk 0 2 .uint none none none none none),
  ("b", .mk 1 2 .uint none none none none none)]

def c5raw : Cfg := .mk [
  ("sel", .mk 0 1 .bool none none none none none),
  ("S", .mk 1 4 .bitdict none none (some "sel") (some [some c5sub, some c5sub]) none)]

/-- A schema with a reserved padding field. -/
def c6raw : Cfg := .mk [
  ("r", .mk 0 2 .reserved none none none none none),
  ("f", .mk 2 1 .bool none none none none none)]

def c6n : Cfg := compiledL 10 c6raw

/-- A bitdict field with an unsigned 2-bit selector whose `valid` constraint
excludes index 2, and a null variant slot at index 2. -/
def c9sub : Cfg := .mk [("p", .mk 0 2 .uint none none none none none)]

def c9raw : Cfg := .mk [
  ("sel", .mk 0 2 .uint none (some ⟨some [0, 1], none⟩) none none none),
  ("S", .mk 2 2 .bitdict none none (some "sel") (some [some c9sub, some c9sub, none]) none)]

def c9n : Cfg := compiledF 10 c9raw

def c9st0 : St := (initOp .factory 10 c9n .vnone true).1

/-- The factory version of the specification's worked example (no reserved
field): `Constant` (bit 7), `Mode` (bit 6, selector), `SubValue` (bits 0-3)
with variant 0 = PropA:uint2=0 / PropB:int2=-1 and variant 1 = PropC:uint3=1
/ PropD:bool=true. -/
def c3sub0 : Cfg := .mk [
  ("PropA", .mk 0 2 .uint (some (.di 0)) none none none none),
  ("PropB", .mk 2 2 .int (some (.di (-1))) none none none none)]

def c3sub1 : Cfg := .mk [
  ("PropC", .mk 0 3 .uint (some (.di 1)) none none none none),
  ("PropD", .mk 3 1 .bool (some (.db true)) none none none none)]

def c3raw : Cfg := .mk [
  ("Constant", .mk 7 1 .bool none none none none none),
  ("Mode", .mk 6 1 .bool none none none none none),
  ("SubValue", .mk 0 4 .bitdict none none (some "Mode") (some [some c3sub0, some c3sub1]) none)]

def c3n : Cfg := compiledF 20 c3raw

def c3st0 : St := (initOp .factory 20 c3n (.vint 140) true).1

set_option maxHeartbeats 4000000 in
/-- C8, stated as the claim does: the mapping `{a: 5, b: 99}` applied to a
fresh record of `c8n` raises (99 is out of range for the 4-bit `b`) after
`a` has already been applied, leaving the record changed. -/
theorem c8_theorem :
    compileFactory 10 c8raw = .ok c8n ∧
    (initOp .factory 10 c8n .vnone true).2 = none ∧
    c8st0.value = 0 ∧
    c8res.2.2 = some (.valErr .range) ∧
    c8res.1.value = 5 ∧
    bdSlice c8res.1.value 0 4 = 5 ∧
    c8res.1.value ≠ c8st0.value := by
  refine ⟨by rfl, by rfl, by rfl, by rfl, by rfl, by decide, by decide⟩

set_option maxHeartbeats 4000000 in
/-- C1 counterexample: for the compiled 8-bit record type, the seed `-1`
lies in the claimed interval `[-2^7, 2^8)` yet construction raises the
non-negativity `ValueError` from `set` and produces no instance. -/
theorem c1_counterexample :
    compileFactory 10 c1raw = .ok c1n ∧
    totalWidth c1n = 8 ∧
    -(pow2 7) ≤ (-1 : Int) ∧ (-1 : Int) < pow2 8 ∧
    initOp .factory 10 c1n (.vint (-1)) true = (St.mk 0 [], some (.valErr .range)) := by
  refine ⟨by rfl, by rfl, by decide, by decide, by rfl⟩

set_option maxHeartbeats 4000000 in
/-- C2 counterexample: after mutating the grandchild field `x` through the
held sub-record objects (`root["S"]["T"]["x"] = 3`), the immediate parent's
integer contains the new value (its `T` range, bits 1-2, reads 3), but the
root's integer is unchanged: its `S` range (bits 1-3) still reads 0 while
the mutated sub-record's integer is 6 — the root does not contain the
sub-record's value, contradicting the claim at depth 2. -/
theorem c2_counterexample :
    compileFactory 30 c2raw = .ok c2n ∧
    (initOp .factory 30 c2n .vnone true).2 = none ∧
    c2res.2 = none ∧
    valueAt c2res.1 [("S", 0), ("T", 0)] = some 3 ∧
    valueAt c2res.1 [("S", 0)] = some 6 ∧
    bdSlice ((valueAt c2res.1 [("S", 0)]).getD 0) 1 2 = 3 ∧
    c2res.1.value = c2st0.value ∧
    c2res.1.value = 0 ∧
    bdSlice c2res.1.value 1 3 = 0 := by
  refine ⟨by rfl, by rfl, by rfl, by rfl, by rfl, by decide, by rfl, by rfl, by decide⟩

set_option maxHeartbeats 4000000 in
/-- C4 counterexample: in the legacy engine, `set(-1)` on a 1-bit record
completes without raising (the lower bound `-2^(total_width-1) = -1`
admits it) and stores `-1`, so `0 <= to_int()` fails after the operation. -/
theorem c4_counterexample :
    compileLegacy 10 c4raw = .ok c4n ∧
    totalWidth c4n = 1 ∧
    (initOp .legacy 10 c4n .vnone true).2 = none ∧
    c4res.2.2 = none ∧
    c4res.1.value = -1 ∧
    ¬ (0 ≤ c4res.1.value) := by
  refine ⟨by rfl, by rfl, by rfl, by rfl, by rfl, by decide⟩

set_option maxHeartbeats 4000000 in
/-- C5 counterexample: the nested variant schema `c5sub` has two fields
whose bit ranges intersect (bit 1), yet the factory pipeline compiles the
enclosing schema without error — no `SchemaError` is raised and a usable
record type is produced. -/
theorem c5_counterexample :
    checkOverlapping c5sub = some (.valErr .overlapK) ∧
    compileFactory 20 c5raw = .ok (compiledF 20 c5raw) ∧
    (initOp .factory 20 (compiledF 20 c5raw) .vnone true).2 = none := by
  refine ⟨by rfl, by rfl, by rfl⟩

set_option maxHeartbeats 4000000 in
/-- C6 counterexample: schema validation of the factory revision
(`validation.py`, whose `TypeValidator` accepts only bool/uint/int/bitdict)
rejects a schema containing a `reserved` field, so no record type with a
reserved field is produced there — contradicting the claim that a reserved
field is accepted by schema validation. -/
theorem c6_counterexample :
    compileFactory 10 c6raw = .error (.valErr .schemaK) := by rfl

set_option maxHeartbeats 4000000 in
/-- C7 counterexample: for the 4-bit record type the byte length is 1, and
`I = 16` fits that byte length (`16 < 2^8`), but constructing from its
big-endian encoding `[0x10]` raises the range `ValueError` instead of
succeeding. -/
theorem c7_counterexample :
    compileFactory 10 c7raw = .ok c7n ∧
    totalWidth c7n = 4 ∧
    numBytes 4 = 1 ∧
    fromBytes [16] = 16 ∧ (16 : Int) < pow2 (8 * numBytes 4) ∧
    initOp .factory 10 c7n (.vbytes [16]) true = (St.mk 0 [], some (.valErr .range)) := by
  refine ⟨by rfl, by rfl, by rfl, by decide, by decide, by rfl⟩

/-! Structural facts about the accessor engine. -/

theorem putSub_value (st : St) (k : String) (i : Nat) (sub : St) :
    (putSub st k i sub).value = st.value := rfl

theorem pushCtx_some (c : Ctx) (v : Int) :
    pushCtx (some c) v = some ⟨c.cstart, c.cwidth, maskedWrite c.pval c.cstart c.cwidth v⟩ := rfl

/-- Every successful `__setitem__` on a record with a parent ends in exactly
one push: the parent's integer in the returned context is the old parent
integer with this record's bit range overwritten by the new record value
masked to the field width. -/
theorem setItem_push (rev : Rev) (fuel : Nat) (cfg : Cfg) (st : St) (c : Ctx) (key : String)
    (v : PyVal) (st' : St) (ctx' : Option Ctx)
    (h : setItem rev fuel cfg st (some c) key v = (st', ctx', none)) :
    ctx' = some ⟨c.cstart, c.cwidth, maskedWrite c.pval c.cstart c.cwidth st'.value⟩ := by
  cases fuel with
  | zero => simp [setItem] at h
  | succ fuel =>
    unfold setItem at h
    split at h
    · simp at h
    · split at h
      · simp at h
      · split at h
        · simp at h
        · simp at h
        · split at h
          · simp only [Prod.mk.injEq] at h
            obtain ⟨h1, h2, -⟩ := h
            subst h1
            rw [← h2, pushCtx_some]
          · split at h
            · simp at h
            · simp at h
            · split at h
              · simp at h
              · simp only [Prod.mk.injEq] at h
                obtain ⟨h1, h2, -⟩ := h
                subst h1
                rw [← h2, pushCtx_some]

/-- A mutation routed through held sub-record objects at depth at least two
never changes this record's integer: only the mutated record's immediate
parent receives a push-up. -/
theorem setItemAt_deep (rev : Rev) (fuel : Nat) (cfg : Cfg) (st : St) (k : String) (i : Nat)
    (p : String × Nat) (rest : List (String × Nat)) (key : String) (v : PyVal) :
    (setItemAt rev fuel cfg st ((k, i) :: p :: rest) key v).1.value = st.value := by
  unfold setItemAt
  repeat' split
  all_goals rfl

/-- C2 (amended): on any successful mutation through `__setitem__`, a
parented record overwrites exactly its designated bit range in its
immediate parent's integer with its own new value masked to its own width,
leaving every disjoint bit range of the parent unchanged; but the push-up is
a single hop only — a mutation routed through held sub-record objects at
depth two or more leaves this record's integer (hence the root's and every
higher ancestor's) unchanged, because an intermediate parent's own
`__setitem__` never runs. -/
theorem c2_theorem (rev : Rev) (fuel : Nat) (cfg : Cfg) (st : St) (c : Ctx) (key : String)
    (v : PyVal) (st' : St) (ctx' : Option Ctx) (s2 w2 : Nat)
    (hset : setItem rev fuel cfg st (some c) key v = (st', ctx', none))
    (hdisj : s2 + w2 ≤ c.cstart ∨ c.cstart + c.cwidth ≤ s2) :
    (∃ p : Ctx, ctx' = some p ∧ p.cstart = c.cstart ∧ p.cwidth = c.cwidth ∧
      p.pval = maskedWrite c.pval c.cstart c.cwidth st'.value ∧
      bdSlice p.pval c.cstart c.cwidth = st'.value % pow2 c.cwidth ∧
      bdSlice p.pval s2 w2 = bdSlice c.pval s2 w2) ∧
    (∀ (st2 : St) (k : String) (i : Nat) (p2 : String × Nat) (rest : List (String × Nat))
        (key2 : String) (v2 : PyVal),
      (setItemAt rev fuel cfg st2 ((k, i) :: p2 :: rest) key2 v2).1.value = st2.value) := by
  constructor
  · have hp := setItem_push rev fuel cfg st c key v st' ctx' hset
    refine ⟨⟨c.cstart, c.cwidth, maskedWrite c.pval c.cstart c.cwidth st'.value⟩, hp, rfl, rfl,
      rfl, bdSlice_maskedWrite_self _ _ _ _, ?_⟩
    cases hdisj with
    | inl hlow => exact bdSlice_maskedWrite_low _ _ _ _ _ _ hlow
    | inr hhigh => exact bdSlice_maskedWrite_high _ _ _ _ _ _ hhigh
  · intro st2 k i p2 rest key2 v2
    exact setItemAt_deep rev fuel cfg st2 k i p2 rest key2 v2

theorem c2_witness :
    ∃ p : Ctx, (some (⟨1, 2, 6⟩ : Ctx) : Option Ctx) = some p ∧ p.cstart = 1 ∧ p.cwidth = 2 ∧
      p.pval = maskedWrite 0 1 2 (St.mk 3 []).value ∧
      bdSlice p.pval 1 2 = (St.mk 3 []).value % pow2 2 ∧
      bdSlice p.pval 0 1 = bdSlice 0 0 1 :=
  (c2_theorem .factory 5 c2leaf (St.mk 0 []) ⟨1, 2, 0⟩ "x" (.pi 3) (St.mk 3 [])
    (some ⟨1, 2, 6⟩) 0 1 (by rfl) (Or.inl (by decide))).1

theorem pyIdxN_replicate_none (n : Nat) (v : Int) (h0 : 0 ≤ v) (h1 : v < (n : Int)) :
    pyIdxN (List.replicate n (none : Option St)) v = some (v.toNat, none) := by
  have hv : ¬ v < 0 := not_lt.mpr h0
  have ht : v.toNat < n := by omega
  simp only [pyIdxN, List.length_replicate, hv, if_false, if_pos h0,
    List.getElem?_replicate, if_pos ht]

/-- Resolving a null variant slot fails with `AssertionError` after (at
most) allocating the cache line; the record integer is untouched.  Fresh
cache case. -/
theorem getSub_nullslot_fresh (fuel : Nat) (cfg : Cfg) (st : St) (bdKey sel : String)
    (bdFc selFc : FieldCfg) (lst : List (Option Cfg)) (v : Int)
    (h4 : lookupF cfg bdKey = some bdFc)
    (h5 : bdFc.selector = some sel)
    (h1 : lookupF cfg sel = some selFc)
    (h6 : bdFc.subtype = some lst)
    (h7 : pyIdx lst v = some none)
    (h8 : 0 ≤ v) (h8b : v < pow2 selFc.width)
    (hc : st.subs.lookup bdKey = none) :
    getSub .factory (fuel + 1) cfg st bdKey v
      = (St.mk st.value (st.subs ++ [(bdKey, List.replicate (2 ^ selFc.width) none)]),
         none, some .assertErr) := by
  have hvn : v < ((2 ^ selFc.width : Nat) : Int) := by
    have : ((2 ^ selFc.width : Nat) : Int) = pow2 selFc.width := by
      unfold pow2; push_cast; ring
    omega
  unfold getSub
  rw [h4]
  simp only [hc, h5, h1, h6]
  rw [pyIdxN_replicate_none _ _ h8 hvn]
  simp only [h7]

/-- Resolving a null variant slot fails with `AssertionError`; cached slot
list case. -/
theorem getSub_nullslot_cached (fuel : Nat) (cfg : Cfg) (st : St) (bdKey : String)
    (bdFc : FieldCfg) (lst : List (Option Cfg)) (sdk : List (Option St)) (v : Int)
    (h4 : lookupF cfg bdKey = some bdFc)
    (h6 : bdFc.subtype = some lst)
    (h7 : pyIdx lst v = some none)
    (hc : st.subs.lookup bdKey = some sdk)
    (hs : pyIdxN sdk v = some (v.toNat, none)) :
    getSub .factory (fuel + 1) cfg st bdKey v = (st, none, some .assertErr) := by
  unfold getSub
  rw [h4]
  simp only [hc, hs, h6, h7]

/-- C9: assigning an in-range discriminator value `v` to a selector field
whose owning bitdict field has a null variant slot at index `v` raises an
`AssertionError` — outside the documented SchemaError/TypeMismatchError/
RangeError/UnknownFieldError taxonomy — and leaves the record's integer
unchanged (at most the empty cache line is allocated). -/
theorem c9_theorem (fuel : Nat) (cfg : Cfg) (st : St) (sel bdKey : String)
    (selFc bdFc : FieldCfg) (lst : List (Option Cfg)) (v : Int)
    (h1 : lookupF cfg sel = some selFc)
    (h2 : selFc.ty = .uint)
    (h3 : selFc.link = some bdKey)
    (h4 : lookupF cfg bdKey = some bdFc)
    (h5 : bdFc.selector = some sel)
    (h6 : bdFc.subtype = some lst)
    (h7 : pyIdx lst v = some none)
    (h8 : 0 ≤ v) (h8b : v < pow2 selFc.width)
    (h9 : st.subs.lookup bdKey = none ∨
      (∃ sdk, st.subs.lookup bdKey = some sdk ∧ pyIdxN sdk v = some (v.toNat, none))) :
    (∃ st', setItem .factory (fuel + 2) cfg st none sel (.pi v) = (st', none, some .assertErr) ∧
      st'.value = st.value) ∧
    (∀ k : VKind, (Err.assertErr ≠ Err.keyErr) ∧ (Err.assertErr ≠ Err.typeErr) ∧
      (Err.assertErr ≠ Err.valErr k)) := by
  refine ⟨?_, by intro k; refine ⟨by simp, by simp, by simp⟩⟩
  have hsp : scalarPattern selFc (.pi v) = (some v, none) := by
    unfold scalarPattern
    rw [h2]
    simp only [intOf]
    rw [if_pos ⟨h8, h8b⟩]
  have hval : setItemVal .factory (fuel + 1) cfg st sel selFc (.pi v)
      = (st, some v, none) := by
    unfold setItemVal
    rw [h2, hsp]
  cases h9 with
  | inl hc =>
    refine ⟨St.mk st.value (st.subs ++ [(bdKey, List.replicate (2 ^ selFc.width) none)]),
      ?_, rfl⟩
    have hg := getSub_nullslot_fresh fuel cfg st bdKey sel bdFc selFc lst v
      h4 h5 h1 h6 h7 h8 h8b hc
    show setItem .factory (fuel + 1 + 1) cfg st none sel (.pi v) = _
    unfold setItem
    rw [h1]
    simp only [h2, hval, h3, hg]
    simp
  | inr hex =>
    obtain ⟨sdk, hc, hs⟩ := hex
    refine ⟨st, ?_, rfl⟩
    have hg := getSub_nullslot_cached fuel cfg st bdKey bdFc lst sdk v h4 h6 h7 hc hs
    show setItem .factory (fuel + 1 + 1) cfg st none sel (.pi v) = _
    unfold setItem
    rw [h1]
    simp only [h2, hval, h3, hg]
    simp

def c9selFc : FieldCfg := (lookupF c9n "sel").getD (.mk 0 1 .bool none none none none none)

def c9SFc : FieldCfg := (lookupF c9n "S").getD (.mk 0 1 .bool none none none none none)

def c9lst : List (Option Cfg) := c9SFc.subtype.getD []

def c9sdk : List (Option St) := (c9st0.subs.lookup "S").getD []

set_option maxHeartbeats 4000000 in
theorem c9_witness :
    (∃ st', setItem .factory 10 c9n c9st0 none "sel" (.pi 2) = (st', none, some .assertErr) ∧
      st'.value = c9st0.value) ∧
    (∀ k : VKind, (Err.assertErr ≠ Err.keyErr) ∧ (Err.assertErr ≠ Err.typeErr) ∧
      (Err.assertErr ≠ Err.valErr k)) :=
  c9_theorem 8 c9n c9st0 "sel" "S" c9selFc c9SFc c9lst 2
    (by rfl) (by rfl) (by rfl) (by rfl) (by rfl) (by rfl) (by rfl)
    (by decide) (by decide)
    (Or.inr ⟨c9sdk, by rfl, by rfl⟩)

/-! Association-list and cache lemmas. -/

theorem lookup_append_single {α : Type} (l : List (String × α)) (k : String) (x : α)
    (h : l.lookup k = none) : (l ++ [(k, x)]).lookup k = some x := by
  induction l with
  | nil => simp [List.lookup]
  | cons p t ih =>
    obtain ⟨a, b⟩ := p
    simp only [List.cons_append, List.lookup] at h ⊢
    cases hk : (k == a) with
    | true => simp [hk] at h
    | false =>
      simp only [hk] at h ⊢
      exact ih h

theorem lookup_assocSet_self {α : Type} (l : List (String × α)) (k : String) (x y : α)
    (h : l.lookup k = some y) : (assocSet l k x).lookup k = some x := by
  induction l with
  | nil => simp [List.lookup] at h
  | cons p t ih =>
    obtain ⟨a, b⟩ := p
    simp only [List.lookup] at h
    unfold assocSet
    by_cases hk : a = k
    · subst hk
      simp [List.lookup]
    · rw [if_neg hk]
      simp only [List.lookup]
      have hbe : (k == a) = false := by
        refine beq_eq_false_iff_ne.mpr ?_
        exact fun he => hk he.symm
      rw [hbe] at h ⊢
      exact ih h

theorem lookup_assocSet_ne {α : Type} (l : List (String × α)) (k k' : String) (x : α)
    (h : k' ≠ k) : (assocSet l k x).lookup k' = l.lookup k' := by
  induction l with
  | nil => rfl
  | cons p t ih =>
    obtain ⟨a, b⟩ := p
    unfold assocSet
    by_cases hk : a = k
    · subst hk
      have hbe : (k' == a) = false := beq_eq_false_iff_ne.mpr h
      simp only [List.lookup, hbe]
    · rw [if_neg hk]
      simp only [List.lookup]
      cases hbe : (k' == a) with
      | true => rfl
      | false => exact ih

theorem pyIdxN_set_self (l : List (Option St)) (v : Int) (i : Nat) (y : Option St)
    (h : pyIdxN l v = some (i, y)) (z : Option St) :
    pyIdxN (l.set i z) v = some (i, z) := by
  simp only [pyIdxN, List.length_set] at h ⊢
  by_cases h0 : 0 ≤ (if v < 0 then (l.length : Int) + v else v)
  · rw [if_pos h0] at h ⊢
    cases hg : l[(if v < 0 then (l.length : Int) + v else v).toNat]? with
    | none => rw [hg] at h; simp at h
    | some a =>
      rw [hg] at h
      simp only [Option.some.injEq, Prod.mk.injEq] at h
      obtain ⟨hi, -⟩ := h
      have hlen : i < l.length := by
        have := List.getElem?_eq_some_iff.mp (hi ▸ hg)
        exact this.1
      rw [hi] at hg ⊢
      rw [List.getElem?_set_self hlen]
  · rw [if_neg h0] at h
    simp at h

theorem pyIdxN_mem {α : Type} (l : List α) (v : Int) (i : Nat) (y : α)
    (h : pyIdxN l v = some (i, y)) : i < l.length ∧ l[i]? = some y := by
  simp only [pyIdxN] at h
  by_cases h0 : 0 ≤ (if v < 0 then (l.length : Int) + v else v)
  · rw [if_pos h0] at h
    cases hg : l[(if v < 0 then (l.length : Int) + v else v).toNat]? with
    | none => rw [hg] at h; simp at h
    | some a =>
      rw [hg] at h
      simp only [Option.some.injEq, Prod.mk.injEq] at h
      obtain ⟨hi, hy⟩ := h
      subst hi
      subst hy
      exact ⟨(List.getElem?_eq_some_iff.mp hg).1, hg⟩
  · rw [if_neg h0] at h
    simp at h

theorem pow2_cast (w : Nat) : ((2 ^ w : Nat) : Int) = pow2 w := by
  unfold pow2; push_cast; ring

/-- Reading a plain unsigned field returns its masked slice and leaves the
state unchanged. -/
theorem getItem_uint (rev : Rev) (fuel : Nat) (cfg : Cfg) (st : St) (key : String)
    (fc : FieldCfg) (h : lookupF cfg key = some fc) (hty : fc.ty = .uint) :
    getItem rev (fuel + 1) cfg st key
      = (st, some (.gi (bdSlice st.value fc.start fc.width)), none) := by
  unfold getItem
  rw [h]
  simp [hty]

/-- Resolving an already cached sub-record returns it unchanged. -/
theorem getSub_cached (rev : Rev) (fuel : Nat) (cfg : Cfg) (st : St) (key : String)
    (fc : FieldCfg) (lst : List (Option Cfg)) (sdk : List (Option St)) (v : Int)
    (cached : St) (subcfg : Cfg)
    (h4 : lookupF cfg key = some fc)
    (hc : st.subs.lookup key = some sdk)
    (hs : pyIdxN sdk v = some (v.toNat, some cached))
    (h7 : fc.subtype = some lst)
    (h8 : pyIdx lst v = some (some subcfg)) :
    getSub rev (fuel + 1) cfg st key v = (st, some (v.toNat, cached, subcfg), none) := by
  unfold getSub
  rw [h4]
  simp only [hc, hs, h7, h8]

/-- Resolving a never-visited slot creates the sub-record by a parent-less
reset and caches it (cache line already allocated). -/
theorem getSub_create_sdk (rev : Rev) (fuel : Nat) (cfg : Cfg) (st : St) (key : String)
    (fc : FieldCfg) (lst : List (Option Cfg)) (sdk : List (Option St)) (v : Int)
    (subcfg : Cfg) (defSt : St) (rctx : Option Ctx)
    (h4 : lookupF cfg key = some fc)
    (hc : st.subs.lookup key = some sdk)
    (hs : pyIdxN sdk v = some (v.toNat, none))
    (h7 : fc.subtype = some lst)
    (h8 : pyIdx lst v = some (some subcfg))
    (hres : resetOp rev fuel subcfg (St.mk 0 []) none = (defSt, rctx, none)) :
    getSub rev (fuel + 1) cfg st key v
      = (putSub st key v.toNat defSt, some (v.toNat, defSt, subcfg), none) := by
  unfold getSub
  rw [h4]
  simp only [hc, hs, h7, h8, hres]

/-- Resolving a never-visited slot with a fresh cache line: the line is
allocated from the selector's width, then the sub-record is created. -/
theorem getSub_create_fresh (rev : Rev) (fuel : Nat) (cfg : Cfg) (st : St) (key sel : String)
    (fc selFc : FieldCfg) (lst : List (Option Cfg)) (v : Int)
    (subcfg : Cfg) (defSt : St) (rctx : Option Ctx)
    (h4 : lookupF cfg key = some fc)
    (h6 : fc.selector = some sel)
    (h1 : lookupF cfg sel = some selFc)
    (h7 : fc.subtype = some lst)
    (h8 : pyIdx lst v = some (some subcfg))
    (h9 : 0 ≤ v) (h9b : v < pow2 selFc.width)
    (hc : st.subs.lookup key = none)
    (hres : resetOp rev fuel subcfg (St.mk 0 []) none = (defSt, rctx, none)) :
    getSub rev (fuel + 1) cfg st key v
      = (putSub (St.mk st.value (st.subs ++ [(key, List.replicate (2 ^ selFc.width) none)]))
          key v.toNat defSt,
         some (v.toNat, defSt, subcfg), none) := by
  have hvn : v < ((2 ^ selFc.width : Nat) : Int) := by rw [pow2_cast]; exact h9b
  unfold getSub
  rw [h4]
  simp only [hc, h6, h1]
  rw [pyIdxN_replicate_none _ _ h9 hvn]
  simp only [h7, h8, hres]

theorem setItemVal_uint (rev : Rev) (fuel : Nat) (cfg : Cfg) (st : St) (key : String)
    (fc : FieldCfg) (v : Int) (hty : fc.ty = .uint)
    (h9 : 0 ≤ v) (h9b : v < pow2 fc.width) :
    setItemVal rev (fuel + 1) cfg st key fc (.pi v) = (st, some v, none) := by
  have hsp : scalarPattern fc (.pi v) = (some v, none) := by
    unfold scalarPattern
    rw [hty]
    simp only [intOf]
    rw [if_pos ⟨h9, h9b⟩]
  unfold setItemVal
  rw [hty, hsp]

/-- Reading a bitdict field whose selector slice is `v` and whose slot `v`
is cached returns the cached sub-record, unchanged state. -/
theorem getItem_bitdict_cached (rev : Rev) (fuel : Nat) (cfg : Cfg) (st : St) (key sel : String)
    (fc selFc : FieldCfg) (lst : List (Option Cfg)) (sdk : List (Option St)) (v : Int)
    (target : St) (subcfg : Cfg)
    (h4 : lookupF cfg key = some fc)
    (h5 : fc.ty = .bitdict)
    (h6 : fc.selector = some sel)
    (h1 : lookupF cfg sel = some selFc)
    (h2 : selFc.ty = .uint)
    (hslice : bdSlice st.value selFc.start selFc.width = v)
    (hc : st.subs.lookup key = some sdk)
    (hs : pyIdxN sdk v = some (v.toNat, some target))
    (h7 : fc.subtype = some lst)
    (h8 : pyIdx lst v = some (some subcfg)) :
    getItem rev (fuel + 2) cfg st key = (st, some (.gsub v.toNat subcfg target), none) := by
  have hsel := getItem_uint rev fuel cfg st sel selFc h1 h2
  rw [hslice] at hsel
  have hg := getSub_cached rev fuel cfg st key fc lst sdk v target subcfg h4 hc hs h7 h8
  show getItem rev (fuel + 1 + 1) cfg st key = _
  unfold getItem
  rw [h4]
  simp only [h5, h6, hsel, hg]
  simp [selAsInt, hg]

/-- C3: assigning an in-range, implemented discriminator value `v` to an
unsigned selector field splices the sub-record for `v` into the owning
bitdict field's range and then writes the selector bits, so that reading
the bitdict field afterwards returns exactly that sub-record: the
parent-less reset state of the variant's schema (its declared defaults)
when slot `v` was never visited in this record's lifetime, and the cached
last-set state when it was. -/
theorem c3_theorem (rev : Rev) (fuel : Nat) (cfg : Cfg) (st : St) (sel bdKey : String)
    (selFc bdFc : FieldCfg) (lst : List (Option Cfg)) (subcfg : Cfg) (target : St) (v : Int)
    (h1 : lookupF cfg sel = some selFc)
    (h2 : selFc.ty = .uint)
    (h3 : selFc.link = some bdKey)
    (h4 : lookupF cfg bdKey = some bdFc)
    (h5 : bdFc.ty = .bitdict)
    (h6 : bdFc.selector = some sel)
    (h7 : bdFc.subtype = some lst)
    (h8 : pyIdx lst v = some (some subcfg))
    (h9 : 0 ≤ v) (h9b : v < pow2 selFc.width)
    (hcache :
      (st.subs.lookup bdKey = none ∧
        target = (resetOp rev fuel subcfg (St.mk 0 []) none).1 ∧
        (resetOp rev fuel subcfg (St.mk 0 []) none).2.2 = none) ∨
      (∃ sdk, st.subs.lookup bdKey = some sdk ∧ pyIdxN sdk v = some (v.toNat, none) ∧
        target = (resetOp rev fuel subcfg (St.mk 0 []) none).1 ∧
        (resetOp rev fuel subcfg (St.mk 0 []) none).2.2 = none) ∨
      (∃ sdk, st.subs.lookup bdKey = some sdk ∧ pyIdxN sdk v = some (v.toNat, some target))) :
    ∃ st', setItem rev (fuel + 2) cfg st none sel (.pi v) = (st', none, none) ∧
      bdSlice st'.value selFc.start selFc.width = v ∧
      getItem rev (fuel + 2) cfg st' bdKey = (st', some (.gsub v.toNat subcfg target), none) := by
  obtain ⟨sv, ss⟩ := st
  have hval := setItemVal_uint rev fuel cfg (St.mk sv ss) sel selFc v h2 h9 h9b
  have hmod : v % pow2 selFc.width = v := Int.emod_eq_of_lt h9 h9b
  rcases hcache with ⟨hc, htgt, hok⟩ | ⟨sdk, hc, hslot, htgt, hok⟩ | ⟨sdk, hc, hslot⟩
  · -- never visited, cache line not yet allocated
    have hres : resetOp rev fuel subcfg (St.mk 0 []) none
        = (target, (resetOp rev fuel subcfg (St.mk 0 []) none).2.1, none) := by
      rw [htgt, ← hok]
    have hg := getSub_create_fresh rev fuel cfg (St.mk sv ss) bdKey sel bdFc selFc lst v
      subcfg target ((resetOp rev fuel subcfg (St.mk 0 []) none).2.1) h4 h6 h1 h7 h8 h9 h9b
      hc hres
    have hlookA : (ss ++ [(bdKey, List.replicate (2 ^ selFc.width) none)]).lookup bdKey
        = some (List.replicate (2 ^ selFc.width) none) := lookup_append_single ss bdKey _ hc
    have hvn : v < ((2 ^ selFc.width : Nat) : Int) := by rw [pow2_cast]; exact h9b
    have hrep := pyIdxN_replicate_none (2 ^ selFc.width) v h9 hvn
    refine ⟨St.mk (maskedWrite (maskedWrite sv bdFc.start bdFc.width target.value)
        selFc.start selFc.width v)
        (assocSet (ss ++ [(bdKey, List.replicate (2 ^ selFc.width) none)])
          bdKey ((List.replicate (2 ^ selFc.width) none).set v.toNat (some target))),
        ?_, ?_, ?_⟩
    · show setItem rev (fuel + 1 + 1) cfg (St.mk sv ss) none sel (.pi v) = _
      unfold setItem
      rw [h1]
      simp only [h2, hval, h3, hg, h4]
      simp [pushCtx, putSub, St.value, St.subs, hlookA]
    · simp only [St.value]
      rw [bdSlice_maskedWrite_self]
      exact hmod
    · refine getItem_bitdict_cached rev fuel cfg _ bdKey sel bdFc selFc lst
        ((List.replicate (2 ^ selFc.width) none).set v.toNat (some target)) v target subcfg
        h4 h5 h6 h1 h2 ?_ ?_ ?_ h7 h8
      · simp only [St.value]
        rw [bdSlice_maskedWrite_self]
        exact hmod
      · exact lookup_assocSet_self _ _ _ _ hlookA
      · exact pyIdxN_set_self _ _ _ _ hrep target
  · -- never visited, cache line already allocated
    have hres : resetOp rev fuel subcfg (St.mk 0 []) none
        = (target, (resetOp rev fuel subcfg (St.mk 0 []) none).2.1, none) := by
      rw [htgt, ← hok]
    have hg := getSub_create_sdk rev fuel cfg (St.mk sv ss) bdKey bdFc lst sdk v subcfg target
      ((resetOp rev fuel subcfg (St.mk 0 []) none).2.1) h4 hc hslot h7 h8 hres
    have hlook2 : ss.lookup bdKey = some sdk := hc
    refine ⟨St.mk (maskedWrite (maskedWrite sv bdFc.start bdFc.width target.value)
        selFc.start selFc.width v) (assocSet ss bdKey (sdk.set v.toNat (some target))),
        ?_, ?_, ?_⟩
    · show setItem rev (fuel + 1 + 1) cfg (St.mk sv ss) none sel (.pi v) = _
      unfold setItem
      rw [h1]
      simp only [h2, hval, h3, hg, h4]
      simp [pushCtx, putSub, St.value, St.subs, hlook2]
    · simp only [St.value]
      rw [bdSlice_maskedWrite_self]
      exact hmod
    · refine getItem_bitdict_cached rev fuel cfg _ bdKey sel bdFc selFc lst
        (sdk.set v.toNat (some target)) v target subcfg
        h4 h5 h6 h1 h2 ?_ ?_ ?_ h7 h8
      · simp only [St.value]
        rw [bdSlice_maskedWrite_self]
        exact hmod
      · exact lookup_assocSet_self _ _ _ _ hlook2
      · exact pyIdxN_set_self _ _ _ _ hslot target
  · -- previously visited: the cached sub-record is spliced back
    have hg := getSub_cached rev fuel cfg (St.mk sv ss) bdKey bdFc lst sdk v target subcfg
      h4 hc hslot h7 h8
    refine ⟨St.mk (maskedWrite (maskedWrite sv bdFc.start bdFc.width target.value)
        selFc.start selFc.width v) ss, ?_, ?_, ?_⟩
    · show setItem rev (fuel + 1 + 1) cfg (St.mk sv ss) none sel (.pi v) = _
      unfold setItem
      rw [h1]
      simp only [h2, hval, h3, hg, h4]
      simp [pushCtx, St.value, St.subs]
    · simp only [St.value]
      rw [bdSlice_maskedWrite_self]
      exact hmod
    · refine getItem_bitdict_cached rev fuel cfg _ bdKey sel bdFc selFc lst sdk v target subcfg
        h4 h5 h6 h1 h2 ?_ ?_ ?_ h7 h8
      · simp only [St.value]
        rw [bdSlice_maskedWrite_self]
        exact hmod
      · exact hc
      · exact hslot


/-- The compiled variant schema stored at discriminator slot 1 of `c9n`'s
bitdict field (the validation pipeline has written its default values). -/
def c3subC : Cfg := ((pyIdx c9lst 1).getD none).getD (.mk [])

/-- The parent-less reset (declared-defaults) state of that variant. -/
def c3target : St := (resetOp .factory 8 c3subC (St.mk 0 []) none).1

set_option maxHeartbeats 4000000 in
theorem c3_witness :
    ∃ st', setItem .factory 10 c9n c9st0 none "sel" (.pi 1) = (st', none, none) ∧
      bdSlice st'.value c9selFc.start c9selFc.width = 1 ∧
      getItem .factory 10 c9n st' "S" = (st', some (.gsub (Int.toNat 1) c3subC c3target), none) :=
  c3_theorem .factory 8 c9n c9st0 "sel" "S" c9selFc c9SFc c9lst c3subC c3target 1
    (by rfl) (by rfl) (by rfl) (by rfl) (by rfl) (by rfl) (by rfl) (by rfl)
    (by decide) (by decide)
    (Or.inr (Or.inl ⟨c9sdk, by rfl, by rfl, by rfl, by rfl⟩))

/-- Frame relation for read operations: the packed integer of the record and
of every record reachable through the cache tree is unchanged (new cache
entries may appear, so preservation is stated on defined paths). -/
def Preserves (st st' : St) : Prop :=
  st'.value = st.value ∧ ∀ p v, valueAt st p = some v → valueAt st' p = some v

theorem preserves_refl (st : St) : Preserves st st := ⟨rfl, fun _ _ h => h⟩

theorem preserves_trans {a b c : St} (h1 : Preserves a b) (h2 : Preserves b c) :
    Preserves a c :=
  ⟨h2.1.trans h1.1, fun p v h => h2.2 p v (h1.2 p v h)⟩

theorem lookup_append_of_some {α : Type} (l l' : List (String × α)) (k : String) (x : α)
    (h : l.lookup k = some x) : (l ++ l').lookup k = some x := by
  induction l with
  | nil => simp [List.lookup] at h
  | cons p t ih =>
    obtain ⟨a, b⟩ := p
    simp only [List.cons_append, List.lookup] at h ⊢
    cases hk : (k == a) with
    | true => simpa [hk] using h
    | false =>
      simp only [hk] at h ⊢
      exact ih h

/-- Allocating a fresh cache line for an unvisited key preserves every
defined path. -/
theorem preserves_extend (st : St) (key : String) (sdk0 : List (Option St))
    (hc : st.subs.lookup key = none) :
    Preserves st (St.mk st.value (st.subs ++ [(key, sdk0)])) := by
  obtain ⟨sv, ss⟩ := st
  refine ⟨rfl, ?_⟩
  intro p v h
  cases p with
  | nil =>
    simpa [valueAt, St.value] using h
  | cons q rest =>
    obtain ⟨k, j⟩ := q
    simp only [valueAt, St.subs] at h ⊢
    cases hl : ss.lookup k with
    | none => rw [hl] at h; exact absurd h (by simp)
    | some sdk =>
      rw [hl] at h
      rw [lookup_append_of_some ss _ k sdk hl]
      exact h

/-- Overwriting one cache slot with a record that preserves the previous
occupant's defined paths preserves every defined path of the whole record. -/
theorem preserves_putSub (st : St) (key : String) (sdk : List (Option St)) (i : Nat)
    (sub2 : St) (hc : st.subs.lookup key = some sdk)
    (hslot : ∀ sub, sdk[i]? = some (some sub) → Preserves sub sub2) :
    Preserves st (putSub st key i sub2) := by
  obtain ⟨sv, ss⟩ := st
  simp only [St.subs] at hc
  have hput : putSub (St.mk sv ss) key i sub2
      = St.mk sv (assocSet ss key (sdk.set i (some sub2))) := by
    simp [putSub, St.value, St.subs, hc]
  rw [hput]
  refine ⟨rfl, ?_⟩
  intro p v h
  cases p with
  | nil =>
    simpa [valueAt, St.value] using h
  | cons q rest =>
    obtain ⟨k, j⟩ := q
    simp only [valueAt, St.subs] at h ⊢
    cases hl : ss.lookup k with
    | none => rw [hl] at h; exact absurd h (by simp)
    | some sdkk =>
      rw [hl] at h
      simp only [] at h
      by_cases hk : k = key
      · subst hk
        have hsdk : sdkk = sdk := by
          rw [hl] at hc
          exact (Option.some.injEq _ _).mp hc
        rw [hsdk] at h
        rw [lookup_assocSet_self ss k (sdk.set i (some sub2)) sdk hc]
        simp only []
        by_cases hj : i = j
        · subst hj
          cases hg : sdk.get? i with
          | none => rw [hg] at h; exact absurd h (by simp)
          | some slot =>
            rw [hg] at h
            cases slot with
            | none => exact absurd h (by simp)
            | some sub =>
              have hg2 : sdk[i]? = some (some sub) := by
                rw [← List.get?_eq_getElem?]; exact hg
              have hlen : i < sdk.length := (List.getElem?_eq_some_iff.mp hg2).1
              have : (sdk.set i (some sub2)).get? i = some (some sub2) := by
                rw [List.get?_eq_getElem?]
                exact List.getElem?_set_eq hlen
              rw [this]
              exact (hslot sub hg2).2 rest v h
        · have : (sdk.set i (some sub2)).get? j = sdk.get? j := by
            rw [List.get?_eq_getElem?, List.get?_eq_getElem?]
            exact List.getElem?_set_ne hj
          rw [this]
          exact h
      · rw [lookup_assocSet_ne ss key k (sdk.set i (some sub2)) hk, hl]
        simp only []
        exact h

/-- Cache coherence of `_get_subbitdict`'s return value: the returned
sub-record is exactly the occupant of the returned cache slot. -/
def SubCoherent (key : String) (st2 : St) (r : Option (Nat × St × Cfg)) : Prop :=
  ∀ i sub sc, r = some (i, sub, sc) →
    ∃ sdk, st2.subs.lookup key = some sdk ∧ sdk[i]? = some (some sub)

/-- The same coherence transported through `__getitem__`. -/
def GotCoherent (key : String) (st2 : St) (g : Option Got) : Prop :=
  ∀ i sc sub, g = some (.gsub i sc sub) →
    ∃ sdk, st2.subs.lookup key = some sdk ∧ sdk[i]? = some (some sub)

theorem subCoherent_none (key : String) (st2 : St) : SubCoherent key st2 none :=
  fun _ _ _ h => Option.noConfusion h

theorem gotCoherent_none (key : String) (st2 : St) : GotCoherent key st2 none :=
  fun _ _ _ h => Option.noConfusion h

theorem putSub_lookup (st : St) (key : String) (sdk : List (Option St)) (i : Nat) (sub2 : St)
    (hc : st.subs.lookup key = some sdk) (hlen : i < sdk.length) :
    ∃ sdk2, (putSub st key i sub2).subs.lookup key = some sdk2 ∧
      sdk2[i]? = some (some sub2) := by
  obtain ⟨sv, ss⟩ := st
  simp only [St.subs] at hc
  have hput : putSub (St.mk sv ss) key i sub2
      = St.mk sv (assocSet ss key (sdk.set i (some sub2))) := by
    simp [putSub, St.value, St.subs, hc]
  rw [hput]
  exact ⟨sdk.set i (some sub2), lookup_assocSet_self ss key _ sdk hc,
    List.getElem?_set_eq hlen⟩

theorem getSubOK (fuel : Nat) (rev : Rev) (cfg : Cfg) (st : St) (key : String)
    (sel : Int) : Preserves st (getSub rev (fuel+1) cfg st key sel).1 ∧
      SubCoherent key (getSub rev (fuel+1) cfg st key sel).1
        (getSub rev (fuel+1) cfg st key sel).2.1 := by
  unfold getSub
  cases hF : lookupF cfg key with
  | none => exact ⟨preserves_refl st, subCoherent_none key st⟩
  | some fc =>
    cases hC : st.subs.lookup key with
    | some sdk =>
      try simp only []
      cases hP : pyIdxN sdk sel with
      | none => exact ⟨preserves_refl st, subCoherent_none key st⟩
      | some pr =>
        obtain ⟨i, slot⟩ := pr
        cases slot with
        | some sub =>
          try simp only []
          cases fc.subtype with
          | none => exact ⟨preserves_refl st, subCoherent_none key st⟩
          | some lst =>
            try simp only []
            cases pyIdx lst sel with
            | none => exact ⟨preserves_refl st, subCoherent_none key st⟩
            | some osc =>
              cases osc with
              | none => exact ⟨preserves_refl st, subCoherent_none key st⟩
              | some sc =>
                refine ⟨preserves_refl st, ?_⟩
                intro i2 sub2 sc2 h
                simp only [Option.some.injEq, Prod.mk.injEq] at h
                obtain ⟨hi, hsub, hsc⟩ := h
                subst hi; subst hsub
                exact ⟨sdk, hC, (pyIdxN_mem sdk sel i (some sub) hP).2⟩
        | none =>
          try simp only []
          cases fc.subtype with
          | none => exact ⟨preserves_refl st, subCoherent_none key st⟩
          | some lst =>
            try simp only []
            cases pyIdx lst sel with
            | none => exact ⟨preserves_refl st, subCoherent_none key st⟩
            | some osc =>
              cases osc with
              | none => exact ⟨preserves_refl st, subCoherent_none key st⟩
              | some sc =>
                try simp only []
                rcases hR : resetOp rev fuel sc (St.mk 0 []) none with ⟨fresh, rctx, e2⟩
                cases e2 with
                | some e => exact ⟨preserves_refl st, subCoherent_none key st⟩
                | none =>
                  try simp only []
                  have hmem := (pyIdxN_mem sdk sel i none hP).2
                  have hlen := ((List.getElem?_eq_some_iff).mp hmem).1
                  constructor
                  · refine preserves_putSub st key sdk i fresh hC ?_
                    intro sub hs
                    rw [hs] at hmem
                    exact absurd hmem (by simp)
                  · intro i2 sub2 sc2 h
                    simp only [Option.some.injEq, Prod.mk.injEq] at h
                    obtain ⟨hi, hsub, hsc⟩ := h
                    subst hi; subst hsub
                    exact putSub_lookup st key sdk i fresh hC hlen
    | none =>
      try simp only []
      cases hSel : fc.selector with
      | none => exact ⟨preserves_refl st, subCoherent_none key st⟩
      | some selName =>
        try simp only []
        cases hSF : lookupF cfg selName with
        | none => exact ⟨preserves_refl st, subCoherent_none key st⟩
        | some selFc =>
          try simp only []
          have hext := preserves_extend st key (List.replicate (2 ^ selFc.width) none) hC
          have hlook : (st.subs ++ [(key, List.replicate (2 ^ selFc.width) none)]).lookup key
              = some (List.replicate (2 ^ selFc.width) none) :=
            lookup_append_single st.subs key _ hC
          cases hP : pyIdxN (List.replicate (2 ^ selFc.width) none) sel with
          | none => exact ⟨hext, subCoherent_none key _⟩
          | some pr =>
            obtain ⟨i, slot⟩ := pr
            cases slot with
            | some sub =>
              try simp only []
              cases fc.subtype with
              | none => exact ⟨hext, subCoherent_none key _⟩
              | some lst =>
                try simp only []
                cases pyIdx lst sel with
                | none => exact ⟨hext, subCoherent_none key _⟩
                | some osc =>
                  cases osc with
                  | none => exact ⟨hext, subCoherent_none key _⟩
                  | some sc =>
                    refine ⟨hext, ?_⟩
                    intro i2 sub2 sc2 h
                    simp only [Option.some.injEq, Prod.mk.injEq] at h
                    obtain ⟨hi, hsub, hsc⟩ := h
                    subst hi; subst hsub
                    exact ⟨List.replicate (2 ^ selFc.width) none, hlook,
                      (pyIdxN_mem _ sel i (some sub) hP).2⟩
            | none =>
              try simp only []
              cases fc.subtype with
              | none => exact ⟨hext, subCoherent_none key _⟩
              | some lst =>
                try simp only []
                cases pyIdx lst sel with
                | none => exact ⟨hext, subCoherent_none key _⟩
                | some osc =>
                  cases osc with
                  | none => exact ⟨hext, subCoherent_none key _⟩
                  | some sc =>
                    try simp only []
                    rcases hR : resetOp rev fuel sc (St.mk 0 []) none with ⟨fresh, rctx, e2⟩
                    cases e2 with
                    | some e => exact ⟨hext, subCoherent_none key _⟩
                    | none =>
                      try simp only []
                      have hmem := (pyIdxN_mem _ sel i none hP).2
                      have hlen := ((List.getElem?_eq_some_iff).mp hmem).1
                      constructor
                      · refine preserves_trans hext ?_
                        refine preserves_putSub _ key
                          (List.replicate (2 ^ selFc.width) none) i fresh hlook ?_
                        intro sub hs
                        rw [hs] at hmem
                        exact absurd hmem (by simp)
                      · intro i2 sub2 sc2 h
                        simp only [Option.some.injEq, Prod.mk.injEq] at h
                        obtain ⟨hi, hsub, hsc⟩ := h
                        subst hi; subst hsub
                        exact putSub_lookup _ key
                          (List.replicate (2 ^ selFc.width) none) i fresh hlook hlen

theorem getItemOK (fuel : Nat) (rev : Rev) (cfg : Cfg) (st : St) (key : String)
    (ihG : ∀ cfg st key, Preserves st (getItem rev fuel cfg st key).1)
    (ihS : ∀ cfg st key sel, Preserves st (getSub rev fuel cfg st key sel).1 ∧
      SubCoherent key (getSub rev fuel cfg st key sel).1
        (getSub rev fuel cfg st key sel).2.1) :
    Preserves st (getItem rev (fuel+1) cfg st key).1 ∧
      GotCoherent key (getItem rev (fuel+1) cfg st key).1
        (getItem rev (fuel+1) cfg st key).2.1 := by
  unfold getItem
  cases hF : lookupF cfg key with
  | none => exact ⟨preserves_refl st, gotCoherent_none key st⟩
  | some fc =>
    try simp only []
    by_cases hres : rev = .legacy ∧ fc.ty = .reserved
    · rw [if_pos hres]
      exact ⟨preserves_refl st, gotCoherent_none key st⟩
    · rw [if_neg hres]
      cases hT : fc.ty with
      | bool =>
        exact ⟨preserves_refl st, fun i sc sub h => absurd h (by simp)⟩
      | uint =>
        exact ⟨preserves_refl st, fun i sc sub h => absurd h (by simp)⟩
      | reserved => exact ⟨preserves_refl st, gotCoherent_none key st⟩
      | int =>
        try simp only []
        split
        · exact ⟨preserves_refl st, gotCoherent_none key st⟩
        · exact ⟨preserves_refl st, fun i sc sub h => absurd h (by simp)⟩
      | bitdict =>
        try simp only []
        cases hSel : fc.selector with
        | none => exact ⟨preserves_refl st, gotCoherent_none key st⟩
        | some selName =>
          try simp only []
          rcases hg1 : getItem rev fuel cfg st selName with ⟨st1, got, e1⟩
          have p1 : Preserves st st1 := by
            have h := ihG cfg st selName
            rw [hg1] at h
            exact h
          cases e1 with
          | some e => exact ⟨p1, gotCoherent_none key st1⟩
          | none =>
            try simp only []
            cases selAsInt got with
            | error e => exact ⟨p1, gotCoherent_none key st1⟩
            | ok sel =>
              try simp only []
              rcases hg2 : getSub rev fuel cfg st1 key sel with ⟨st2, r2, e2⟩
              have p2 : Preserves st1 st2 := by
                have h := (ihS cfg st1 key sel).1
                rw [hg2] at h
                exact h
              have hcoh : SubCoherent key st2 r2 := by
                have h := (ihS cfg st1 key sel).2
                rw [hg2] at h
                exact h
              cases e2 with
              | some e =>
                cases r2 with
                | none => exact ⟨preserves_trans p1 p2, gotCoherent_none key st2⟩
                | some r =>
                  obtain ⟨i, sub, sc⟩ := r
                  exact ⟨preserves_trans p1 p2, gotCoherent_none key st2⟩
              | none =>
                try simp only []
                cases r2 with
                | none => exact ⟨preserves_trans p1 p2, gotCoherent_none key st2⟩
                | some r =>
                  obtain ⟨i, sub, sc⟩ := r
                  refine ⟨preserves_trans p1 p2, ?_⟩
                  intro i2 sc2 sub2 h
                  simp only [Option.some.injEq, Got.gsub.injEq] at h
                  obtain ⟨hi, hsc, hsub⟩ := h
                  subst hi; subst hsub
                  exact hcoh i sub sc rfl

theorem containsGoPreserve (fuel : Nat) (rev : Rev)
    (ihGI : ∀ cfg st key, Preserves st (getItem rev fuel cfg st key).1 ∧
      GotCoherent key (getItem rev fuel cfg st key).1 (getItem rev fuel cfg st key).2.1)
    (ihCO : ∀ cfg st key, Preserves st (containsOp rev fuel cfg st key).1)
    (ihCG : ∀ cfg st key fields, Preserves st (containsGo rev fuel cfg st key fields).1) :
    ∀ cfg st key fields, Preserves st (containsGo rev (fuel+1) cfg st key fields).1 := by
  intro cfg st key fields
  unfold containsGo
  cases fields with
  | nil => exact preserves_refl st
  | cons p rest =>
    obtain ⟨k, fc⟩ := p
    try simp only []
    cases hT : fc.ty with
    | bool => exact ihCG cfg st key rest
    | uint => exact ihCG cfg st key rest
    | int => exact ihCG cfg st key rest
    | reserved => exact ihCG cfg st key rest
    | bitdict =>
      try simp only []
      rcases hg : getItem rev fuel cfg st k with ⟨st1, g, e1⟩
      have p1 : Preserves st st1 := by
        have h := (ihGI cfg st k).1
        rw [hg] at h
        exact h
      have hcoh : GotCoherent k st1 g := by
        have h := (ihGI cfg st k).2
        rw [hg] at h
        exact h
      cases e1 with
      | some e =>
        cases g with
        | none => exact p1
        | some got => cases got <;> exact p1
      | none =>
        cases g with
        | none => exact p1
        | some got =>
          cases got with
          | gb b => exact p1
          | gi z => exact p1
          | gsub i sc sub =>
            try simp only []
            rcases hco : containsOp rev fuel sc sub key with ⟨sub2, br, e2⟩
            have psub : Preserves sub sub2 := by
              have h := ihCO sc sub key
              rw [hco] at h
              exact h
            obtain ⟨sdk, hlook, hslot⟩ := hcoh i sc sub rfl
            have pput : Preserves st1 (putSub st1 k i sub2) := by
              refine preserves_putSub st1 k sdk i sub2 hlook ?_
              intro sub3 hs
              rw [hslot] at hs
              simp only [Option.some.injEq] at hs
              subst hs
              exact psub
            cases e2 with
            | some e => exact preserves_trans p1 pput
            | none =>
              try simp only []
              by_cases hbr : br.getD false
              · rw [if_pos hbr]
                exact preserves_trans p1 pput
              · rw [if_neg hbr]
                exact preserves_trans p1 (preserves_trans pput
                  (ihCG cfg (putSub st1 k i sub2) key rest))

theorem containsOpPreserve (fuel : Nat) (rev : Rev)
    (ihCG : ∀ cfg st key fields, Preserves st (containsGo rev fuel cfg st key fields).1) :
    ∀ cfg st key, Preserves st (containsOp rev (fuel+1) cfg st key).1 := by
  intro cfg st key
  unfold containsOp
  split
  · exact preserves_refl st
  · exact ihCG cfg st key cfg.fields

theorem iterGoPreserve (fuel : Nat) (rev : Rev)
    (ihGI : ∀ cfg st key, Preserves st (getItem rev fuel cfg st key).1)
    (ihIG : ∀ cfg st fields, Preserves st (iterGo rev fuel cfg st fields).1) :
    ∀ cfg st fields, Preserves st (iterGo rev (fuel+1) cfg st fields).1 := by
  intro cfg st fields
  unfold iterGo
  cases fields with
  | nil => exact preserves_refl st
  | cons p rest =>
    obtain ⟨k, fc⟩ := p
    try simp only []
    rcases hg : getItem rev fuel cfg st k with ⟨st1, g, e1⟩
    have p1 : Preserves st st1 := by
      have h := ihGI cfg st k
      rw [hg] at h
      exact h
    cases e1 with
    | some e =>
      cases g with
      | none => exact p1
      | some got => cases got <;> exact p1
    | none =>
      cases g with
      | none => exact p1
      | some got =>
        try simp only []
        rcases hit : iterGo rev fuel cfg st1 rest with ⟨st2, acc, e2⟩
        have p2 : Preserves st1 st2 := by
          have h := ihIG cfg st1 rest
          rw [hit] at h
          exact h
        cases got <;> exact preserves_trans p1 p2

theorem iterOpPreserve (fuel : Nat) (rev : Rev)
    (ihIG : ∀ cfg st fields, Preserves st (iterGo rev fuel cfg st fields).1) :
    ∀ cfg st, Preserves st (iterOp rev (fuel+1) cfg st).1 := by
  intro cfg st
  unfold iterOp
  exact ihIG cfg st _

theorem toJsonGoPreserve (fuel : Nat) (rev : Rev)
    (ihGI : ∀ cfg st key, Preserves st (getItem rev fuel cfg st key).1 ∧
      GotCoherent key (getItem rev fuel cfg st key).1 (getItem rev fuel cfg st key).2.1)
    (ihJO : ∀ cfg st, Preserves st (toJsonOp rev fuel cfg st).1)
    (ihJG : ∀ cfg st names, Preserves st (toJsonGo rev fuel cfg st names).1) :
    ∀ cfg st names, Preserves st (toJsonGo rev (fuel+1) cfg st names).1 := by
  intro cfg st names
  unfold toJsonGo
  cases names with
  | nil => exact preserves_refl st
  | cons name rest =>
    try simp only []
    rcases hg : getItem rev fuel cfg st name with ⟨st1, g, e1⟩
    have p1 : Preserves st st1 := by
      have h := (ihGI cfg st name).1
      rw [hg] at h
      exact h
    have hcoh : GotCoherent name st1 g := by
      have h := (ihGI cfg st name).2
      rw [hg] at h
      exact h
    cases e1 with
    | some e =>
      cases g with
      | none => exact p1
      | some got => cases got <;> exact p1
    | none =>
      cases g with
      | none => exact p1
      | some got =>
        cases got with
        | gb b =>
          try simp only []
          rcases hjg : toJsonGo rev fuel cfg st1 rest with ⟨st2, acc, e2⟩
          have p2 : Preserves st1 st2 := by
            have h := ihJG cfg st1 rest
            rw [hjg] at h
            exact h
          exact preserves_trans p1 p2
        | gi z =>
          try simp only []
          rcases hjg : toJsonGo rev fuel cfg st1 rest with ⟨st2, acc, e2⟩
          have p2 : Preserves st1 st2 := by
            have h := ihJG cfg st1 rest
            rw [hjg] at h
            exact h
          exact preserves_trans p1 p2
        | gsub i sc sub =>
          try simp only []
          rcases hjo : toJsonOp rev fuel sc sub with ⟨sub2, j, e2⟩
          have psub : Preserves sub sub2 := by
            have h := ihJO sc sub
            rw [hjo] at h
            exact h
          obtain ⟨sdk, hlook, hslot⟩ := hcoh i sc sub rfl
          have pput : Preserves st1 (putSub st1 name i sub2) := by
            refine preserves_putSub st1 name sdk i sub2 hlook ?_
            intro sub3 hs
            rw [hslot] at hs
            simp only [Option.some.injEq] at hs
            subst hs
            exact psub
          cases e2 with
          | some e => exact preserves_trans p1 pput
          | none =>
            try simp only []
            rcases hjg : toJsonGo rev fuel cfg (putSub st1 name i sub2) rest with ⟨st3, acc, e3⟩
            have p3 : Preserves (putSub st1 name i sub2) st3 := by
              have h := ihJG cfg (putSub st1 name i sub2) rest
              rw [hjg] at h
              exact h
            exact preserves_trans p1 (preserves_trans pput p3)

theorem toJsonOpPreserve (fuel : Nat) (rev : Rev)
    (ihOit : ∀ cfg st, Preserves st (iterOp rev fuel cfg st).1)
    (ihJG : ∀ cfg st names, Preserves st (toJsonGo rev fuel cfg st names).1) :
    ∀ cfg st, Preserves st (toJsonOp rev (fuel+1) cfg st).1 := by
  intro cfg st
  unfold toJsonOp
  rcases hit : iterOp rev fuel cfg st with ⟨st1, lst, e1⟩
  have p1 : Preserves st st1 := by
    have h := ihOit cfg st
    rw [hit] at h
    exact h
  cases e1 with
  | some e => exact p1
  | none =>
    try simp only []
    exact preserves_trans p1 (ihJG cfg st1 _)

theorem validGoPreserve (fuel : Nat) (rev : Rev)
    (ihGI : ∀ cfg st key, Preserves st (getItem rev fuel cfg st key).1)
    (ihS : ∀ cfg st key sel, Preserves st (getSub rev fuel cfg st key sel).1 ∧
      SubCoherent key (getSub rev fuel cfg st key sel).1
        (getSub rev fuel cfg st key sel).2.1)
    (ihVO : ∀ cfg st, Preserves st (validOp rev fuel cfg st).1)
    (ihVG : ∀ cfg st fields, Preserves st (validGo rev fuel cfg st fields).1) :
    ∀ cfg st fields, Preserves st (validGo rev (fuel+1) cfg st fields).1 := by
  intro cfg st fields
  unfold validGo
  cases fields with
  | nil => exact preserves_refl st
  | cons p rest =>
    obtain ⟨k, fc⟩ := p
    try simp only []
    have hscalar : ∀ gsi : Got → Except Err Int,
        Preserves st ((match getItem rev fuel cfg st k with
          | (st1, _, some e) => (st1, none, some e)
          | (st1, got, none) =>
            match got with
            | none => (st1, none, some Err.assertErr)
            | some g =>
              match gsi g with
              | .error e => (st1, none, some e)
              | .ok z =>
                match isValidValue fc.vld z with
                | .error _ => (st1, none, some (Err.valErr .schemaK))
                | .ok false => (st1, some false, none)
                | .ok true => validGo rev fuel cfg st1 rest) :
          St × Option Bool × Option Err).1 := by
      intro gsi
      rcases hg : getItem rev fuel cfg st k with ⟨st1, g, e1⟩
      have p1 : Preserves st st1 := by
        have h := ihGI cfg st k
        rw [hg] at h
        exact h
      cases e1 with
      | some e =>
        cases g with
        | none => exact p1
        | some got => exact p1
      | none =>
        cases g with
        | none => exact p1
        | some got =>
          try simp only []
          cases gsi got with
          | error e => exact p1
          | ok z =>
            try simp only []
            cases isValidValue fc.vld z with
            | error e => exact p1
            | ok b =>
              cases b with
              | false => exact p1
              | true =>
                try simp only []
                exact preserves_trans p1 (ihVG cfg st1 rest)
    cases hT : fc.ty with
    | bool => exact hscalar gotScalarInt
    | uint => exact hscalar gotScalarInt
    | int => exact hscalar gotScalarInt
    | reserved => exact hscalar gotScalarInt
    | bitdict =>
      try simp only []
      cases hSel : fc.selector with
      | none => exact preserves_refl st
      | some selName =>
        try simp only []
        rcases hg : getItem rev fuel cfg st selName with ⟨st1, g, e1⟩
        have p1 : Preserves st st1 := by
          have h := ihGI cfg st selName
          rw [hg] at h
          exact h
        cases e1 with
        | some e => exact p1
        | none =>
          try simp only []
          cases selAsInt g with
          | error e => exact p1
          | ok sel =>
            try simp only []
            cases lookupF cfg selName with
            | none => exact p1
            | some selFc =>
              try simp only []
              cases isValidValue selFc.vld sel with
              | error e => exact p1
              | ok b =>
                cases b with
                | false => exact p1
                | true =>
                  try simp only []
                  rcases hg2 : getSub rev fuel cfg st1 k sel with ⟨st2, r2, e2⟩
                  have p2 : Preserves st1 st2 := by
                    have h := (ihS cfg st1 k sel).1
                    rw [hg2] at h
                    exact h
                  have hcoh : SubCoherent k st2 r2 := by
                    have h := (ihS cfg st1 k sel).2
                    rw [hg2] at h
                    exact h
                  cases e2 with
                  | some e =>
                    cases r2 with
                    | none => exact preserves_trans p1 p2
                    | some r =>
                      obtain ⟨i, sub, sc⟩ := r
                      exact preserves_trans p1 p2
                  | none =>
                    cases r2 with
                    | none => exact preserves_trans p1 p2
                    | some r =>
                      obtain ⟨i, sub, sc⟩ := r
                      try simp only []
                      rcases hvo : validOp rev fuel sc sub with ⟨sub2, vr, e3⟩
                      have psub : Preserves sub sub2 := by
                        have h := ihVO sc sub
                        rw [hvo] at h
                        exact h
                      obtain ⟨sdk, hlook, hslot⟩ := hcoh i sub sc rfl
                      have pput : Preserves st2 (putSub st2 k i sub2) := by
                        refine preserves_putSub st2 k sdk i sub2 hlook ?_
                        intro sub3 hs
                        rw [hslot] at hs
                        simp only [Option.some.injEq] at hs
                        subst hs
                        exact psub
                      cases e3 with
                      | some e => exact preserves_trans p1 (preserves_trans p2 pput)
                      | none =>
                        try simp only []
                        by_cases hvr : vr.getD false
                        · rw [if_pos hvr]
                          exact preserves_trans p1 (preserves_trans p2
                            (preserves_trans pput (ihVG cfg (putSub st2 k i sub2) rest)))
                        · rw [if_neg hvr]
                          exact preserves_trans p1 (preserves_trans p2 pput)

theorem validOpPreserve (fuel : Nat) (rev : Rev)
    (ihVG : ∀ cfg st fields, Preserves st (validGo rev fuel cfg st fields).1) :
    ∀ cfg st, Preserves st (validOp rev (fuel+1) cfg st).1 := by
  intro cfg st
  unfold validOp
  exact ihVG cfg st cfg.fields

theorem inspectGoPreserve (fuel : Nat) (rev : Rev)
    (ihGI : ∀ cfg st key, Preserves st (getItem rev fuel cfg st key).1)
    (ihS : ∀ cfg st key sel, Preserves st (getSub rev fuel cfg st key sel).1 ∧
      SubCoherent key (getSub rev fuel cfg st key sel).1
        (getSub rev fuel cfg st key sel).2.1)
    (ihOit : ∀ cfg st, Preserves st (inspectOp rev fuel cfg st).1)
    (ihIG : ∀ cfg st fields, Preserves st (inspectGo rev fuel cfg st fields).1) :
    ∀ cfg st fields, Preserves st (inspectGo rev (fuel+1) cfg st fields).1 := by
  intro cfg st fields
  unfold inspectGo
  cases fields with
  | nil => exact preserves_refl st
  | cons p rest =>
    obtain ⟨k, fc⟩ := p
    try simp only []
    cases hT : fc.ty with
    | bitdict =>
      try simp only []
      cases hSel : fc.selector with
      | none => exact preserves_refl st
      | some selName =>
        try simp only []
        rcases hg : getItem rev fuel cfg st selName with ⟨st1, g, e1⟩
        have p1 : Preserves st st1 := by
          have h := ihGI cfg st selName
          rw [hg] at h
          exact h
        cases e1 with
        | some e =>
          cases g with
          | none => exact p1
          | some got => exact p1
        | none =>
          cases g with
          | none => exact p1
          | some got =>
            try simp only []
            cases selAsInt (some got) with
            | error e => exact p1
            | ok sel =>
              try simp only []
              cases lookupF cfg selName with
              | none => exact p1
              | some selFc =>
                try simp only []
                cases isValidValue selFc.vld sel with
                | error e => exact p1
                | ok b =>
                  cases b with
                  | false =>
                    try simp only []
                    rcases hig : inspectGo rev fuel cfg st1 rest with ⟨st2, acc, e2⟩
                    have p2 : Preserves st1 st2 := by
                      have h := ihIG cfg st1 rest
                      rw [hig] at h
                      exact h
                    exact preserves_trans p1 p2
                  | true =>
                    try simp only []
                    rcases hg2 : getSub rev fuel cfg st1 k sel with ⟨st2, r2, e2⟩
                    have p2 : Preserves st1 st2 := by
                      have h := (ihS cfg st1 k sel).1
                      rw [hg2] at h
                      exact h
                    have hcoh : SubCoherent k st2 r2 := by
                      have h := (ihS cfg st1 k sel).2
                      rw [hg2] at h
                      exact h
                    cases e2 with
                    | some e =>
                      cases r2 with
                      | none => exact preserves_trans p1 p2
                      | some r =>
                        obtain ⟨i, sub, sc⟩ := r
                        exact preserves_trans p1 p2
                    | none =>
                      cases r2 with
                      | none => exact preserves_trans p1 p2
                      | some r =>
                        obtain ⟨i, sub, sc⟩ := r
                        try simp only []
                        rcases hio : inspectOp rev fuel sc sub with ⟨sub2, subBad, e3⟩
                        have psub : Preserves sub sub2 := by
                          have h := ihOit sc sub
                          rw [hio] at h
                          exact h
                        obtain ⟨sdk, hlook, hslot⟩ := hcoh i sub sc rfl
                        have pput : Preserves st2 (putSub st2 k i sub2) := by
                          refine preserves_putSub st2 k sdk i sub2 hlook ?_
                          intro sub3 hs
                          rw [hslot] at hs
                          simp only [Option.some.injEq] at hs
                          subst hs
                          exact psub
                        cases e3 with
                        | some e => exact preserves_trans p1 (preserves_trans p2 pput)
                        | none =>
                          try simp only []
                          rcases hig : inspectGo rev fuel cfg (putSub st2 k i sub2) rest
                            with ⟨st4, acc, e4⟩
                          have p4 : Preserves (putSub st2 k i sub2) st4 := by
                            have h := ihIG cfg (putSub st2 k i sub2) rest
                            rw [hig] at h
                            exact h
                          have pall := preserves_trans p1 (preserves_trans p2
                            (preserves_trans pput p4))
                          by_cases hsb : subBad.isEmpty
                          · rw [if_pos hsb]
                            exact pall
                          · rw [if_neg hsb]
                            exact pall
    | bool =>
      try simp only []
      rcases hg : getItem rev fuel cfg st k with ⟨st1, g, e1⟩
      have p1 : Preserves st st1 := by
        have h := ihGI cfg st k
        rw [hg] at h
        exact h
      cases e1 with
      | some e =>
        cases g with
        | none => exact p1
        | some got => exact p1
      | none =>
        cases g with
        | none => exact p1
        | some got =>
          try simp only []
          cases gotScalarInt got with
          | error e => exact p1
          | ok z =>
            try simp only []
            cases isValidValue fc.vld z with
            | error e => exact p1
            | ok b =>
              cases b with
              | false =>
                try simp only []
                rcases hig : inspectGo rev fuel cfg st1 rest with ⟨st2, acc, e2⟩
                have p2 : Preserves st1 st2 := by
                  have h := ihIG cfg st1 rest
                  rw [hig] at h
                  exact h
                exact preserves_trans p1 p2
              | true => exact preserves_trans p1 (ihIG cfg st1 rest)
    | uint =>
      try simp only []
      rcases hg : getItem rev fuel cfg st k with ⟨st1, g, e1⟩
      have p1 : Preserves st st1 := by
        have h := ihGI cfg st k
        rw [hg] at h
        exact h
      cases e1 with
      | some e =>
        cases g with
        | none => exact p1
        | some got => exact p1
      | none =>
        cases g with
        | none => exact p1
        | some got =>
          try simp only []
          cases gotScalarInt got with
          | error e => exact p1
          | ok z =>
            try simp only []
            cases isValidValue fc.vld z with
            | error e => exact p1
            | ok b =>
              cases b with
              | false =>
                try simp only []
                rcases hig : inspectGo rev fuel cfg st1 rest with ⟨st2, acc, e2⟩
                have p2 : Preserves st1 st2 := by
                  have h := ihIG cfg st1 rest
                  rw [hig] at h
                  exact h
                exact preserves_trans p1 p2
              | true => exact preserves_trans p1 (ihIG cfg st1 rest)
    | int =>
      try simp only []
      rcases hg : getItem rev fuel cfg st k with ⟨st1, g, e1⟩
      have p1 : Preserves st st1 := by
        have h := ihGI cfg st k
        rw [hg] at h
        exact h
      cases e1 with
      | some e =>
        cases g with
        | none => exact p1
        | some got => exact p1
      | none =>
        cases g with
        | none => exact p1
        | some got =>
          try simp only []
          cases gotScalarInt got with
          | error e => exact p1
          | ok z =>
            try simp only []
            cases isValidValue fc.vld z with
            | error e => exact p1
            | ok b =>
              cases b with
              | false =>
                try simp only []
                rcases hig : inspectGo rev fuel cfg st1 rest with ⟨st2, acc, e2⟩
                have p2 : Preserves st1 st2 := by
                  have h := ihIG cfg st1 rest
                  rw [hig] at h
                  exact h
                exact preserves_trans p1 p2
              | true => exact preserves_trans p1 (ihIG cfg st1 rest)
    | reserved =>
      try simp only []
      rcases hg : getItem rev fuel cfg st k with ⟨st1, g, e1⟩
      have p1 : Preserves st st1 := by
        have h := ihGI cfg st k
        rw [hg] at h
        exact h
      cases e1 with
      | some e =>
        cases g with
        | none => exact p1
        | some got => exact p1
      | none =>
        cases g with
        | none => exact p1
        | some got =>
          try simp only []
          cases gotScalarInt got with
          | error e => exact p1
          | ok z =>
            try simp only []
            cases isValidValue fc.vld z with
            | error e => exact p1
            | ok b =>
              cases b with
              | false =>
                try simp only []
                rcases hig : inspectGo rev fuel cfg st1 rest with ⟨st2, acc, e2⟩
                have p2 : Preserves st1 st2 := by
                  have h := ihIG cfg st1 rest
                  rw [hig] at h
                  exact h
                exact preserves_trans p1 p2
              | true => exact preserves_trans p1 (ihIG cfg st1 rest)

theorem inspectOpPreserve (fuel : Nat) (rev : Rev)
    (ihIG : ∀ cfg st fields, Preserves st (inspectGo rev fuel cfg st fields).1) :
    ∀ cfg st, Preserves st (inspectOp rev (fuel+1) cfg st).1 := by
  intro cfg st
  unfold inspectOp
  exact ihIG cfg st cfg.fields

theorem readsPreserve (fuel : Nat) : ∀ (rev : Rev) (cfg : Cfg) (st : St),
    (∀ key sel, Preserves st (getSub rev fuel cfg st key sel).1 ∧
      SubCoherent key (getSub rev fuel cfg st key sel).1
        (getSub rev fuel cfg st key sel).2.1) ∧
    (∀ key, Preserves st (getItem rev fuel cfg st key).1 ∧
      GotCoherent key (getItem rev fuel cfg st key).1
        (getItem rev fuel cfg st key).2.1) ∧
    (∀ key fields, Preserves st (containsGo rev fuel cfg st key fields).1) ∧
    (∀ key, Preserves st (containsOp rev fuel cfg st key).1) ∧
    (∀ fields, Preserves st (iterGo rev fuel cfg st fields).1) ∧
    Preserves st (iterOp rev fuel cfg st).1 ∧
    (∀ names, Preserves st (toJsonGo rev fuel cfg st names).1) ∧
    Preserves st (toJsonOp rev fuel cfg st).1 ∧
    (∀ fields, Preserves st (validGo rev fuel cfg st fields).1) ∧
    Preserves st (validOp rev fuel cfg st).1 ∧
    (∀ fields, Preserves st (inspectGo rev fuel cfg st fields).1) ∧
    Preserves st (inspectOp rev fuel cfg st).1 := by
  induction fuel with
  | zero =>
    intro rev cfg st
    exact ⟨fun key sel => ⟨preserves_refl st, subCoherent_none key st⟩,
      fun key => ⟨preserves_refl st, gotCoherent_none key st⟩,
      fun key fields => preserves_refl st,
      fun key => preserves_refl st,
      fun fields => preserves_refl st,
      preserves_refl st,
      fun names => preserves_refl st,
      preserves_refl st,
      fun fields => preserves_refl st,
      preserves_refl st,
      fun fields => preserves_refl st,
      preserves_refl st⟩
  | succ fuel ih =>
    intro rev cfg st
    have ihS : ∀ cfg st key sel, Preserves st (getSub rev fuel cfg st key sel).1 ∧
        SubCoherent key (getSub rev fuel cfg st key sel).1
          (getSub rev fuel cfg st key sel).2.1 :=
      fun cfg st key sel => (ih rev cfg st).1 key sel
    have ihGIfull : ∀ cfg st key, Preserves st (getItem rev fuel cfg st key).1 ∧
        GotCoherent key (getItem rev fuel cfg st key).1
          (getItem rev fuel cfg st key).2.1 :=
      fun cfg st key => (ih rev cfg st).2.1 key
    have ihGI : ∀ cfg st key, Preserves st (getItem rev fuel cfg st key).1 :=
      fun cfg st key => (ihGIfull cfg st key).1
    have ihCG : ∀ cfg st key fields,
        Preserves st (containsGo rev fuel cfg st key fields).1 :=
      fun cfg st key fields => (ih rev cfg st).2.2.1 key fields
    have ihCO : ∀ cfg st key, Preserves st (containsOp rev fuel cfg st key).1 :=
      fun cfg st key => (ih rev cfg st).2.2.2.1 key
    have ihIG : ∀ cfg st fields, Preserves st (iterGo rev fuel cfg st fields).1 :=
      fun cfg st fields => (ih rev cfg st).2.2.2.2.1 fields
    have ihOit : ∀ cfg st, Preserves st (iterOp rev fuel cfg st).1 :=
      fun cfg st => (ih rev cfg st).2.2.2.2.2.1
    have ihJG : ∀ cfg st names, Preserves st (toJsonGo rev fuel cfg st names).1 :=
      fun cfg st names => (ih rev cfg st).2.2.2.2.2.2.1 names
    have ihJO : ∀ cfg st, Preserves st (toJsonOp rev fuel cfg st).1 :=
      fun cfg st => (ih rev cfg st).2.2.2.2.2.2.2.1
    have ihVG : ∀ cfg st fields, Preserves st (validGo rev fuel cfg st fields).1 :=
      fun cfg st fields => (ih rev cfg st).2.2.2.2.2.2.2.2.1 fields
    have ihVO : ∀ cfg st, Preserves st (validOp rev fuel cfg st).1 :=
      fun cfg st => (ih rev cfg st).2.2.2.2.2.2.2.2.2.1
    have ihNG : ∀ cfg st fields, Preserves st (inspectGo rev fuel cfg st fields).1 :=
      fun cfg st fields => (ih rev cfg st).2.2.2.2.2.2.2.2.2.2.1 fields
    have ihNO : ∀ cfg st, Preserves st (inspectOp rev fuel cfg st).1 :=
      fun cfg st => (ih rev cfg st).2.2.2.2.2.2.2.2.2.2.2
    exact ⟨fun key sel => getSubOK fuel rev cfg st key sel,
      fun key => getItemOK fuel rev cfg st key ihGI ihS,
      fun key fields => containsGoPreserve fuel rev ihGIfull ihCO ihCG cfg st key fields,
      fun key => containsOpPreserve fuel rev ihCG cfg st key,
      fun fields => iterGoPreserve fuel rev ihGI ihIG cfg st fields,
      iterOpPreserve fuel rev ihIG cfg st,
      fun names => toJsonGoPreserve fuel rev ihGIfull ihJO ihJG cfg st names,
      toJsonOpPreserve fuel rev ihOit ihJG cfg st,
      fun fields => validGoPreserve fuel rev ihGI ihS ihVO ihVG cfg st fields,
      validOpPreserve fuel rev ihVG cfg st,
      fun fields => inspectGoPreserve fuel rev ihGI ihS ihNO ihNG cfg st fields,
      inspectOpPreserve fuel rev ihNG cfg st⟩

/-- C10: every read-only operation — field get (including a bitdict field,
whose sub-record may be lazily created and cached by the read), containment
test, iteration, `to_json`, `valid`, and `inspect` — leaves the packed
integer of the record and of every record reachable through the cache tree
unchanged (so a read performed on any nested record changes no ancestor's
integer); `to_int` reads the packed integer and `to_bytes` is a pure
function of it, neither taking nor returning a state. -/
theorem c10_theorem (rev : Rev) (fuel : Nat) (cfg : Cfg) (st : St) :
    (∀ key, Preserves st (getItem rev fuel cfg st key).1) ∧
    (∀ key sel, Preserves st (getSub rev fuel cfg st key sel).1) ∧
    (∀ key, Preserves st (containsOp rev fuel cfg st key).1) ∧
    Preserves st (iterOp rev fuel cfg st).1 ∧
    Preserves st (toJsonOp rev fuel cfg st).1 ∧
    Preserves st (validOp rev fuel cfg st).1 ∧
    Preserves st (inspectOp rev fuel cfg st).1 ∧
    toIntOp st = st.value := by
  obtain ⟨h1, h2, h3, h4, h5, h6, h7, h8, h9, h10, h11, h12⟩ := readsPreserve fuel rev cfg st
  exact ⟨fun key => (h2 key).1, fun key sel => (h1 key sel).1, h4, h6, h8, h10, h12, rfl⟩

theorem c10_witness : (getItem .factory 10 c9n c9st0 "S").1.value = c9st0.value :=
  ((c10_theorem .factory 10 c9n c9st0).1 "S").1

/-- The compiled legacy field configuration of the reserved field of `c6n`. -/
def c6rFc : FieldCfg := (lookupF c6n "r").getD (.mk 0 1 .bool none none none none none)

set_option maxHeartbeats 4000000 in
/-- C6, amended to the engine split: the legacy `bitdict.py` engine accepts
a schema with a `reserved` padding field (the concrete compile succeeds),
and on every record of every configuration a `reserved` field is
inaccessible there: reading it raises `ValueError` and writing it raises
`ValueError`, in both cases returning the record and the parent context
unchanged.  The `validation.py` pipeline used by `bitdict_factory`, by
contrast, rejects the `reserved` type outright at validation time. -/
theorem c6_theorem (fuel : Nat) (cfg : Cfg) (st : St) (ctx : Option Ctx) (key : String)
    (fc : FieldCfg) (v : PyVal)
    (h1 : lookupF cfg key = some fc) (h2 : fc.ty = .reserved) :
    compileLegacy 10 c6raw = .ok c6n ∧
    getItem .legacy (fuel+1) cfg st key = (st, none, some (.valErr .reservedK)) ∧
    setItem .legacy (fuel+1) cfg st ctx key v = (st, ctx, some (.valErr .reservedK)) := by
  refine ⟨by rfl, ?_, ?_⟩
  · unfold getItem
    rw [h1]
    simp [h2]
  · unfold setItem
    rw [h1]
    simp [h2]

set_option maxHeartbeats 4000000 in
theorem c6_witness :
    compileLegacy 10 c6raw = .ok c6n ∧
    getItem .legacy 5 c6n (St.mk 0 []) "r" = (St.mk 0 [], none, some (.valErr .reservedK)) ∧
    setItem .legacy 5 c6n (St.mk 0 []) none "r" (.pi 1)
      = (St.mk 0 [], none, some (.valErr .reservedK)) :=
  c6_theorem 4 c6n (St.mk 0 []) none "r" c6rFc (.pi 1) (by rfl) (by rfl)

/-- The (start, width) slots of a field list, in declaration order. -/
def fieldShape (flds : List (String × FieldCfg)) : List (Nat × Nat) :=
  flds.map (fun p => (p.2.start, p.2.width))

/-- Two half-open bit ranges do not intersect. -/
@[reducible] def RangesDisjoint (a b : Nat × Nat) : Prop :=
  ∀ bit ∈ List.range' a.1 a.2, bit ∉ List.range' b.1 b.2

theorem withDflt_start (fc : FieldCfg) (d : Option DVal) :
    (fc.withDflt d).start = fc.start := by cases fc; rfl

theorem withDflt_width (fc : FieldCfg) (d : Option DVal) :
    (fc.withDflt d).width = fc.width := by cases fc; rfl

theorem withLink_start (fc : FieldCfg) (l : Option String) :
    (fc.withLink l).start = fc.start := by cases fc; rfl

theorem withLink_width (fc : FieldCfg) (l : Option String) :
    (fc.withLink l).width = fc.width := by cases fc; rfl

theorem withSubtype_start (fc : FieldCfg) (s : Option (List (Option Cfg))) :
    (fc.withSubtype s).start = fc.start := by cases fc; rfl

theorem withSubtype_width (fc : FieldCfg) (s : Option (List (Option Cfg))) :
    (fc.withSubtype s).width = fc.width := by cases fc; rfl

theorem defaultCheck_shape (rev : Rev) (fc fc1 : FieldCfg)
    (h : defaultCheck rev fc = .ok fc1) : fc1.start = fc.start ∧ fc1.width = fc.width := by
  unfold defaultCheck at h
  repeat' split at h
  all_goals injection h
  all_goals rename_i h2
  all_goals subst h2
  all_goals exact ⟨by simp [withDflt_start], by simp [withDflt_width]⟩

theorem validateField_shape (name : String) (fc fc1 : FieldCfg)
    (h : validateField name fc = .ok fc1) : fc1.start = fc.start ∧ fc1.width = fc.width := by
  unfold validateField at h
  split at h
  · exact absurd h (by simp)
  split at h
  · exact absurd h (by simp)
  split at h
  · exact absurd h (by simp)
  split at h
  · exact absurd h (by simp)
  cases hd : defaultCheck .factory fc with
  | error e => rw [hd] at h; exact absurd h (by simp)
  | ok fcd =>
    rw [hd] at h
    simp only [] at h
    have hsd := defaultCheck_shape .factory fc fcd hd
    cases hk : validKeyCheck fcd with
    | error e => rw [hk] at h; exact absurd h (by simp)
    | ok u =>
      rw [hk] at h
      simp only [] at h
      split at h
      · exact absurd h (by simp)
      · simp only [Except.ok.injEq] at h
        subst h
        exact hsd

theorem fieldShape_assocSet (flds : List (String × FieldCfg)) (k : String) (fc fc1 : FieldCfg)
    (hl : flds.lookup k = some fc) (hs : fc1.start = fc.start) (hw : fc1.width = fc.width) :
    fieldShape (assocSet flds k fc1) = fieldShape flds := by
  induction flds with
  | nil => simp [List.lookup] at hl
  | cons p rest ih =>
    obtain ⟨a, b⟩ := p
    simp only [List.lookup] at hl
    unfold assocSet
    by_cases hk : a = k
    · subst hk
      rw [if_pos rfl]
      have hb : b = fc := by simpa [List.lookup] using hl
      subst hb
      simp only [fieldShape, List.map_cons]
      rw [hs, hw]
    · rw [if_neg hk]
      have hbe : (k == a) = false := beq_eq_false_iff_ne.mpr (fun hx => hk hx.symm)
      simp only [hbe] at hl
      simp only [fieldShape, List.map_cons]
      have ih2 := ih hl
      simp only [fieldShape] at ih2
      rw [ih2]

theorem validateFGo_shape (fuel : Nat) : ∀ (ks : List String)
    (flds flds2 : List (String × FieldCfg)),
    validateFGo fuel ks flds = .ok flds2 → fieldShape flds2 = fieldShape flds := by
  induction fuel with
  | zero =>
    intro ks flds flds2 h
    exact absurd h (by simp [validateFGo])
  | succ fuel ih =>
    intro ks flds flds2 h
    unfold validateFGo at h
    cases ks with
    | nil =>
      simp only [Except.ok.injEq] at h
      subst h
      rfl
    | cons k ks =>
      simp only [] at h
      cases hl : flds.lookup k with
      | none => rw [hl] at h; exact absurd h (by simp)
      | some fc =>
        rw [hl] at h
        simp only [] at h
        cases hv : validateField k fc with
        | error e => rw [hv] at h; exact absurd h (by simp)
        | ok fc1 =>
          rw [hv] at h
          simp only [] at h
          obtain ⟨hs1, hw1⟩ := validateField_shape k fc fc1 hv
          have hshape1 : fieldShape (assocSet flds k fc1) = fieldShape flds :=
            fieldShape_assocSet flds k fc fc1 hl hs1 hw1
          have hlk1 : (assocSet flds k fc1).lookup k = some fc1 :=
            lookup_assocSet_self flds k fc1 fc hl
          by_cases hb : fc1.ty = .bitdict
          · rw [if_pos hb] at h
            cases hsel : fc1.selector with
            | none =>
              rw [hsel] at h
              cases fc1.subtype <;> exact absurd h (by simp)
            | some selName =>
              rw [hsel] at h
              cases hsub : fc1.subtype with
              | none => rw [hsub] at h; exact absurd h (by simp)
              | some lst =>
                rw [hsub] at h
                simp only [] at h
                cases hl2 : (assocSet flds k fc1).lookup selName with
                | none => rw [hl2] at h; exact absurd h (by simp)
                | some selFc =>
                  rw [hl2] at h
                  simp only [] at h
                  split at h
                  · exact absurd h (by simp)
                  split at h
                  · exact absurd h (by simp)
                  split at h
                  · exact absurd h (by simp)
                  cases hvs : validateSubsF fuel selFc.vld 0 lst with
                  | error e => rw [hvs] at h; exact absurd h (by simp)
                  | ok lst2 =>
                    rw [hvs] at h
                    simp only [] at h
                    have hrec := ih ks _ flds2 h
                    rw [hrec]
                    by_cases hkk : selName = k
                    · subst hkk
                      have hself : selFc = fc1 := by
                        rw [hl2] at hlk1
                        exact (Option.some.injEq _ _).mp hlk1
                      have hshape2 : fieldShape (assocSet (assocSet flds selName fc1)
                          selName (selFc.withLink (some selName)))
                          = fieldShape (assocSet flds selName fc1) :=
                        fieldShape_assocSet _ selName fc1 _ hlk1
                          (by rw [withLink_start, hself]) (by rw [withLink_width, hself])
                      have hlk2 : (assocSet (assocSet flds selName fc1) selName
                            (selFc.withLink (some selName))).lookup selName
                          = some (selFc.withLink (some selName)) :=
                        lookup_assocSet_self _ selName _ fc1 hlk1
                      have hshape3 := fieldShape_assocSet
                        (assocSet (assocSet flds selName fc1) selName
                          (selFc.withLink (some selName))) selName
                        (selFc.withLink (some selName)) (fc1.withSubtype (some lst2)) hlk2
                        (by rw [withSubtype_start, withLink_start, hself])
                        (by rw [withSubtype_width, withLink_width, hself])
                      rw [hshape3, hshape2, hshape1]
                    · have hl2b : (assocSet flds k fc1).lookup selName = some selFc := hl2
                      have hshape2 : fieldShape (assocSet (assocSet flds k fc1)
                          selName (selFc.withLink (some k)))
                          = fieldShape (assocSet flds k fc1) :=
                        fieldShape_assocSet _ selName selFc _ hl2b
                          (by rw [withLink_start]) (by rw [withLink_width])
                      have hlk2 : (assocSet (assocSet flds k fc1) selName
                            (selFc.withLink (some k))).lookup k = some fc1 := by
                        rw [lookup_assocSet_ne _ selName k _ (fun hx => hkk hx.symm)]
                        exact hlk1
                      have hshape3 := fieldShape_assocSet
                        (assocSet (assocSet flds k fc1) selName (selFc.withLink (some k))) k
                        fc1 (fc1.withSubtype (some lst2)) hlk2
                        (by rw [withSubtype_start]) (by rw [withSubtype_width])
                      rw [hshape3, hshape2, hshape1]
          · rw [if_neg hb] at h
            have hrec := ih ks _ flds2 h
            rw [hrec, hshape1]

theorem validateF_shape (fuel : Nat) (raw ncfg : Cfg)
    (h : validateF fuel raw = .ok ncfg) : fieldShape ncfg.fields = fieldShape raw.fields := by
  cases fuel with
  | zero => exact absurd h (by simp [validateF])
  | succ fuel =>
    unfold validateF at h
    cases hg : validateFGo fuel (raw.fields.map (fun p => p.1)) raw.fields with
    | error e => rw [hg] at h; exact absurd h (by simp)
    | ok flds =>
      rw [hg] at h
      simp only [Except.ok.injEq] at h
      subst h
      exact validateFGo_shape fuel _ raw.fields flds hg

theorem bitsUsedGo_sound (bs : List Nat) : ∀ used used2,
    bitsUsedGo used bs = some used2 →
    (∀ b, b ∈ used2 ↔ (b ∈ used ∨ b ∈ bs)) ∧ ∀ b ∈ bs, b ∉ used := by
  induction bs with
  | nil =>
    intro used used2 h
    simp only [bitsUsedGo, Option.some.injEq] at h
    subst h
    simp
  | cons b bs ih =>
    intro used used2 h
    unfold bitsUsedGo at h
    split at h
    · exact absurd h (by simp)
    · rename_i hnb
      obtain ⟨hiff, hnot⟩ := ih (b :: used) used2 h
      have hbu : b ∉ used := by
        intro hx
        exact hnb (List.elem_eq_true_of_mem hx)
      constructor
      · intro x
        rw [hiff x]
        simp only [List.mem_cons]
        tauto
      · intro x hx
        rcases List.mem_cons.mp hx with hx1 | hx2
        · subst hx1
          exact hbu
        · intro hxu
          exact (hnot x hx2) (List.mem_cons_of_mem b hxu)

theorem checkOverlapGo_sound (fields : List (String × FieldCfg)) : ∀ used,
    checkOverlapGo used fields = none →
    List.Pairwise RangesDisjoint (fieldShape fields) ∧
    ∀ p ∈ fields, ∀ bit ∈ List.range' p.2.start p.2.width, bit ∉ used := by
  induction fields with
  | nil =>
    intro used h
    exact ⟨List.Pairwise.nil, by simp⟩
  | cons p rest ih =>
    intro used h
    obtain ⟨nm, fc⟩ := p
    unfold checkOverlapGo at h
    cases hb : bitsUsedGo used (List.range' fc.start fc.width) with
    | none => rw [hb] at h; exact absurd h (by simp)
    | some used2 =>
      rw [hb] at h
      simp only [] at h
      obtain ⟨hiff, hdisj⟩ := bitsUsedGo_sound _ _ _ hb
      obtain ⟨hpw, hrest⟩ := ih used2 h
      refine ⟨?_, ?_⟩
      · simp only [fieldShape, List.map_cons]
        refine List.Pairwise.cons ?_ hpw
        intro q hq
        obtain ⟨pr, hpr, hq2⟩ := List.mem_map.mp hq
        subst hq2
        intro bit hbit hbit2
        exact hrest pr hpr bit hbit2 ((hiff bit).mpr (Or.inr hbit))
      · intro q hq bit hbit
        rcases List.mem_cons.mp hq with hq1 | hq2
        · subst hq1
          exact hdisj bit hbit
        · intro hused
          exact hrest q hq2 bit hbit ((hiff bit).mpr (Or.inl hused))

set_option maxHeartbeats 4000000 in
/-- C5, amended to the level split: whenever the factory pipeline produces
a record type, the top-level fields' bit ranges are pairwise disjoint (a
top-level overlap therefore always raises at construction), but the overlap
check is not applied to nested variant schemas: the concrete schema
`c5raw`, whose nested variant `c5sub` overlaps on bit 1, compiles
successfully there, while the legacy engine, whose factory recurses into
subtypes, rejects the same schema with the overlap error. -/
theorem c5_theorem :
    (∀ (fuel : Nat) (raw ncfg : Cfg), compileFactory fuel raw = .ok ncfg →
      List.Pairwise RangesDisjoint (fieldShape raw.fields)) ∧
    checkOverlapping c5sub = some (.valErr .overlapK) ∧
    compileFactory 20 c5raw = .ok (compiledF 20 c5raw) ∧
    compileLegacy 20 c5raw = .error (.valErr .overlapK) := by
  refine ⟨?_, by rfl, by rfl, by rfl⟩
  intro fuel raw ncfg h
  unfold compileFactory at h
  cases hv : validateF fuel raw with
  | error e => rw [hv] at h; exact absurd h (by simp)
  | ok ncfg1 =>
    rw [hv] at h
    simp only [] at h
    cases hc : checkOverlapping ncfg1 with
    | some e => rw [hc] at h; exact absurd h (by simp)
    | none =>
      have hpw := (checkOverlapGo_sound ncfg1.fields [] hc).1
      rw [← validateF_shape fuel raw ncfg1 hv]
      exact hpw

set_option maxHeartbeats 4000000 in
theorem c5_witness :
    compileFactory 10 c8raw = .ok c8n ∧
    List.Pairwise RangesDisjoint (fieldShape c8raw.fields) :=
  ⟨by rfl, c5_theorem.1 10 c8raw c8n (by rfl)⟩

/-- Invariant carried by a parent back-pointer while the parent's packed
integer satisfies the width bound `W`: the held parent value is in range and
the slot fits inside the parent's width. -/
def CtxIn (W : Nat) (ctx : Option Ctx) : Prop :=
  ∀ c, ctx = some c → (0 ≤ c.pval ∧ c.pval < pow2 W) ∧ c.cstart + c.cwidth ≤ W

theorem ctxIn_none (W : Nat) : CtxIn W none := fun _ h => Option.noConfusion h

theorem ctxIn_pushCtx (W : Nat) (ctx : Option Ctx) (v : Int) (h : CtxIn W ctx) :
    CtxIn W (pushCtx ctx v) := by
  cases ctx with
  | none => exact ctxIn_none W
  | some c =>
    intro c2 h2
    simp only [pushCtx, Option.some.injEq] at h2
    subst h2
    obtain ⟨⟨h0, h1⟩, hW⟩ := h c rfl
    exact ⟨maskedWrite_range c.pval c.cstart c.cwidth v hW h0 h1, hW⟩

set_option maxHeartbeats 1000000 in
theorem ctxPreserve (fuel : Nat) : ∀ (rev : Rev) (cfg : Cfg) (st : St) (ctx : Option Ctx)
    (W : Nat), CtxIn W ctx →
    (∀ key v, CtxIn W (setItem rev fuel cfg st ctx key v).2.1) ∧
    (∀ v ign, CtxIn W (setOp rev fuel cfg st ctx v ign).2.1) ∧
    (∀ d fields, CtxIn W (setDictIgnore rev fuel cfg st ctx d fields).2.1) ∧
    (∀ d, CtxIn W (setDictStrict1 rev fuel cfg st ctx d).2.1) ∧
    (∀ d fields, CtxIn W (setDictStrict2 rev fuel cfg st ctx d fields).2.1) ∧
    CtxIn W (resetOp rev fuel cfg st ctx).2.1 ∧
    (∀ fields, CtxIn W (resetGo rev fuel cfg st ctx fields).2.1) ∧
    (∀ v, CtxIn W (updateOp rev fuel cfg st ctx v).2.1) ∧
    (∀ d, CtxIn W (updateGo rev fuel cfg st ctx d).2.1) := by
  induction fuel with
  | zero =>
    intro rev cfg st ctx W h
    exact ⟨fun key v => h, fun v ign => h, fun d fields => h, fun d => h,
      fun d fields => h, h, fun fields => h, fun v => h, fun d => h⟩
  | succ fuel ih =>
    intro rev cfg st ctx W h
    have hSet : ∀ (cfg : Cfg) (st : St) (ctx : Option Ctx), CtxIn W ctx →
        ∀ key v, CtxIn W (setItem rev (fuel+1) cfg st ctx key v).2.1 := by
      intro cfg st ctx h key v
      unfold setItem
      cases hF : lookupF cfg key with
      | none => exact h
      | some fc =>
        try simp only []
        split
        · exact h
        · rcases hsv : setItemVal rev fuel cfg st key fc v with ⟨st2, r, e⟩
          cases e with
          | some e2 =>
            cases r with
            | none => exact h
            | some ival => exact h
          | none =>
            cases r with
            | none => exact h
            | some ival =>
              try simp only []
              cases hL : fc.link with
              | none => exact ctxIn_pushCtx W ctx _ h
              | some bdKey =>
                try simp only []
                rcases hgs : getSub rev fuel cfg st2 bdKey ival with ⟨st3, r3, e3⟩
                cases e3 with
                | some e4 =>
                  cases r3 with
                  | none => exact h
                  | some r4 => exact h
                | none =>
                  cases r3 with
                  | none => exact h
                  | some r4 =>
                    obtain ⟨i, bsub, sc⟩ := r4
                    try simp only []
                    cases lookupF cfg bdKey with
                    | none => exact h
                    | some bdc => exact ctxIn_pushCtx W ctx _ h
    have hResetGo : ∀ (cfg : Cfg) (st : St) (ctx : Option Ctx), CtxIn W ctx →
        ∀ fields, CtxIn W (resetGo rev (fuel+1) cfg st ctx fields).2.1 := by
      intro cfg st ctx h fields
      unfold resetGo
      cases fields with
      | nil => exact h
      | cons p rest =>
        obtain ⟨k, fc⟩ := p
        try simp only []
        split
        · exact ((ih rev cfg st ctx W h).2.2.2.2.2.2.1) rest
        · cases hT : fc.ty with
          | bitdict =>
            try simp only []
            cases hSel : fc.selector with
            | none => exact h
            | some selName =>
              try simp only []
              rcases hg : getItem rev fuel cfg st selName with ⟨st1, got, e1⟩
              cases e1 with
              | some e => exact h
              | none =>
                try simp only []
                cases selAsInt got with
                | error e => exact h
                | ok sel =>
                  try simp only []
                  rcases hgs : getSub rev fuel cfg st1 k sel with ⟨st2, r2, e2⟩
                  cases e2 with
                  | some e =>
                    cases r2 with
                    | none => exact h
                    | some r => exact h
                  | none =>
                    cases r2 with
                    | none => exact h
                    | some r =>
                      obtain ⟨i, sub, sc⟩ := r
                      try simp only []
                      rcases hro : resetOp rev fuel sc sub
                          (some ⟨fc.start, fc.width, st2.value⟩) with ⟨sub2, ctxS, e3⟩
                      cases e3 with
                      | some e => exact h
                      | none =>
                        try simp only []
                        exact ((ih rev cfg (putSub (St.mk (pvalOf ctxS st2.value) st2.subs)
                          k i sub2) ctx W h).2.2.2.2.2.2.1) rest
          | bool =>
            cases fc.dflt with
            | none => exact h
            | some dv =>
              try simp only []
              rcases hsi : setItem rev fuel cfg st ctx k (dvalPy dv) with ⟨st1, ctx1, e1⟩
              have hctx1 : CtxIn W ctx1 := by
                have h2 := ((ih rev cfg st ctx W h).1) k (dvalPy dv)
                rw [hsi] at h2
                exact h2
              cases e1 with
              | some e => exact hctx1
              | none => exact ((ih rev cfg st1 ctx1 W hctx1).2.2.2.2.2.2.1) rest
          | uint =>
            cases fc.dflt with
            | none => exact h
            | some dv =>
              try simp only []
              rcases hsi : setItem rev fuel cfg st ctx k (dvalPy dv) with ⟨st1, ctx1, e1⟩
              have hctx1 : CtxIn W ctx1 := by
                have h2 := ((ih rev cfg st ctx W h).1) k (dvalPy dv)
                rw [hsi] at h2
                exact h2
              cases e1 with
              | some e => exact hctx1
              | none => exact ((ih rev cfg st1 ctx1 W hctx1).2.2.2.2.2.2.1) rest
          | int =>
            cases fc.dflt with
            | none => exact h
            | some dv =>
              try simp only []
              rcases hsi : setItem rev fuel cfg st ctx k (dvalPy dv) with ⟨st1, ctx1, e1⟩
              have hctx1 : CtxIn W ctx1 := by
                have h2 := ((ih rev cfg st ctx W h).1) k (dvalPy dv)
                rw [hsi] at h2
                exact h2
              cases e1 with
              | some e => exact hctx1
              | none => exact ((ih rev cfg st1 ctx1 W hctx1).2.2.2.2.2.2.1) rest
          | reserved =>
            cases fc.dflt with
            | none => exact h
            | some dv =>
              try simp only []
              rcases hsi : setItem rev fuel cfg st ctx k (dvalPy dv) with ⟨st1, ctx1, e1⟩
              have hctx1 : CtxIn W ctx1 := by
                have h2 := ((ih rev cfg st ctx W h).1) k (dvalPy dv)
                rw [hsi] at h2
                exact h2
              cases e1 with
              | some e => exact hctx1
              | none => exact ((ih rev cfg st1 ctx1 W hctx1).2.2.2.2.2.2.1) rest
    refine ⟨fun key v => hSet cfg st ctx h key v, ?_, ?_, ?_, ?_, ?_, ?_, ?_, ?_⟩
    · -- setOp
      intro v ign
      unfold setOp
      cases v with
      | pdict d =>
        try simp only []
        split
        · exact ((ih rev cfg st ctx W h).2.2.1) d cfg.fields
        · rcases hs1 : setDictStrict1 rev fuel cfg st ctx d with ⟨st1, ctx1, e1⟩
          have hctx1 : CtxIn W ctx1 := by
            have h2 := ((ih rev cfg st ctx W h).2.2.2.1) d
            rw [hs1] at h2
            exact h2
          cases e1 with
          | some e => exact hctx1
          | none =>
            try simp only []
            exact ((ih rev cfg st1 ctx1 W hctx1).2.2.2.2.1) d cfg.fields
      | pb b =>
        try simp only []
        repeat' split
        all_goals try exact h
        all_goals
          rcases hsi : setIntSubs rev fuel cfg (St.mk _ st.subs) _ cfg.fields with ⟨st1, e1⟩
        all_goals exact h
      | pi z =>
        try simp only []
        repeat' split
        all_goals try exact h
        all_goals
          rcases hsi : setIntSubs rev fuel cfg (St.mk _ st.subs) _ cfg.fields with ⟨st1, e1⟩
        all_goals exact h
      | pother =>
        try simp only []
        exact h
    · -- setDictIgnore
      intro d fields
      unfold setDictIgnore
      cases fields with
      | nil => exact h
      | cons p rest =>
        obtain ⟨k, fc⟩ := p
        try simp only []
        cases (match d.lookup k with
               | some dv => some dv
               | none => (fc.dflt).map dvalPy) with
        | none => exact ((ih rev cfg st ctx W h).2.2.1) d rest
        | some dv =>
          try simp only []
          rcases hsi : setItem rev fuel cfg st ctx k dv with ⟨st1, ctx1, e1⟩
          have hctx1 : CtxIn W ctx1 := by
            have h2 := ((ih rev cfg st ctx W h).1) k dv
            rw [hsi] at h2
            exact h2
          cases e1 with
          | some e => exact hctx1
          | none => exact ((ih rev cfg st1 ctx1 W hctx1).2.2.1) d rest
    · -- setDictStrict1
      intro d
      unfold setDictStrict1
      cases d with
      | nil => exact h
      | cons p rest =>
        obtain ⟨k, dv⟩ := p
        try simp only []
        split
        · exact h
        · rcases hsi : setItem rev fuel cfg st ctx k dv with ⟨st1, ctx1, e1⟩
          have hctx1 : CtxIn W ctx1 := by
            have h2 := ((ih rev cfg st ctx W h).1) k dv
            rw [hsi] at h2
            exact h2
          cases e1 with
          | some e => exact hctx1
          | none => exact ((ih rev cfg st1 ctx1 W hctx1).2.2.2.1) rest
    · -- setDictStrict2
      intro d fields
      unfold setDictStrict2
      cases fields with
      | nil => exact h
      | cons p rest =>
        obtain ⟨k, fc⟩ := p
        try simp only []
        cases (if (d.lookup k).isSome then none else (fc.dflt).map dvalPy) with
        | none => exact ((ih rev cfg st ctx W h).2.2.2.2.1) d rest
        | some dv =>
          try simp only []
          rcases hsi : setItem rev fuel cfg st ctx k dv with ⟨st1, ctx1, e1⟩
          have hctx1 : CtxIn W ctx1 := by
            have h2 := ((ih rev cfg st ctx W h).1) k dv
            rw [hsi] at h2
            exact h2
          cases e1 with
          | some e => exact hctx1
          | none => exact ((ih rev cfg st1 ctx1 W hctx1).2.2.2.2.1) d rest
    · -- resetOp
      unfold resetOp
      exact ((ih rev cfg st ctx W h).2.2.2.2.2.2.1) cfg.fields
    · -- resetGo
      exact fun fields => hResetGo cfg st ctx h fields
    · -- updateOp
      intro v
      unfold updateOp
      cases v with
      | pdict d => exact ((ih rev cfg st ctx W h).2.2.2.2.2.2.2.2) d
      | pb b => exact h
      | pi z => exact h
      | pother => exact h
    · -- updateGo
      intro d
      unfold updateGo
      cases d with
      | nil => exact h
      | cons p rest =>
        obtain ⟨k, dv⟩ := p
        try simp only []
        rcases hsi : setItem rev fuel cfg st ctx k dv with ⟨st1, ctx1, e1⟩
        have hctx1 : CtxIn W ctx1 := by
          have h2 := ((ih rev cfg st ctx W h).1) k dv
          rw [hsi] at h2
          exact h2
        cases e1 with
        | some e => exact hctx1
        | none => exact ((ih rev cfg st1 ctx1 W hctx1).2.2.2.2.2.2.2.2) rest

theorem foldl_max_le_acc (f : (String × FieldCfg) → Nat) (l : List (String × FieldCfg)) :
    ∀ acc, acc ≤ l.foldl (fun a p => max a (f p)) acc := by
  induction l with
  | nil => intro acc; exact le_refl acc
  | cons q t ih =>
    intro acc
    exact le_trans (le_max_left acc (f q)) (ih (max acc (f q)))

theorem foldl_max_mem (f : (String × FieldCfg) → Nat) (l : List (String × FieldCfg)) :
    ∀ acc p, p ∈ l → f p ≤ l.foldl (fun a q => max a (f q)) acc := by
  induction l with
  | nil => intro acc p hp; simp at hp
  | cons q t ih =>
    intro acc p hp
    rcases List.mem_cons.mp hp with h1 | h2
    · subst h1
      exact le_trans (le_max_right acc (f p)) (foldl_max_le_acc f t _)
    · exact ih (max acc (f q)) p h2

theorem lookup_mem {α : Type} (l : List (String × α)) (k : String) (x : α) :
    l.lookup k = some x → (k, x) ∈ l := by
  induction l with
  | nil => intro h; simp [List.lookup] at h
  | cons p t ih =>
    obtain ⟨a, b⟩ := p
    intro h
    simp only [List.lookup] at h
    cases hk : (k == a) with
    | true =>
      simp only [hk, Option.some.injEq] at h
      subst h
      have hka : k = a := eq_of_beq hk
      subst hka
      exact List.mem_cons_self _ _
    | false =>
      simp only [hk] at h
      exact List.mem_cons_of_mem _ (ih h)

/-- Every declared field fits inside the computed total width. -/
theorem lookupF_bound (cfg : Cfg) (k : String) (fc : FieldCfg)
    (h : lookupF cfg k = some fc) : fc.start + fc.width ≤ totalWidth cfg := by
  unfold totalWidth
  exact foldl_max_mem (fun p => p.2.start + p.2.width) cfg.fields 0 (k, fc)
    (lookup_mem cfg.fields k fc h)

theorem getItem_value (rev : Rev) (fuel : Nat) (cfg : Cfg) (st : St) (key : String) :
    (getItem rev fuel cfg st key).1.value = st.value :=
  ((readsPreserve fuel rev cfg st).2.1 key).1.1

theorem getSub_value (rev : Rev) (fuel : Nat) (cfg : Cfg) (st : St) (key : String)
    (sel : Int) : (getSub rev fuel cfg st key sel).1.value = st.value :=
  ((readsPreserve fuel rev cfg st).1 key sel).1.1

/-- The factory-revision range invariant on the packed integer. -/
def Inv (cfg : Cfg) (st : St) : Prop :=
  0 ≤ st.value ∧ st.value < pow2 (totalWidth cfg)

theorem inv_of_value_eq {cfg : Cfg} {st st2 : St} (h : Inv cfg st)
    (he : st2.value = st.value) : Inv cfg st2 := ⟨he ▸ h.1, he ▸ h.2⟩

set_option maxHeartbeats 2000000 in
theorem invPreserve (fuel : Nat) : ∀ (cfg : Cfg) (st : St), Inv cfg st →
    (∀ key fc v, fc.start + fc.width ≤ totalWidth cfg →
      Inv cfg (setItemValBD .factory fuel cfg st key fc v).1) ∧
    (∀ key fc v, fc.start + fc.width ≤ totalWidth cfg →
      Inv cfg (setItemVal .factory fuel cfg st key fc v).1) ∧
    (∀ ctx key v, Inv cfg (setItem .factory fuel cfg st ctx key v).1) ∧
    (∀ ctx v ign, Inv cfg (setOp .factory fuel cfg st ctx v ign).1) ∧
    (∀ ctx d fields, Inv cfg (setDictIgnore .factory fuel cfg st ctx d fields).1) ∧
    (∀ ctx d, Inv cfg (setDictStrict1 .factory fuel cfg st ctx d).1) ∧
    (∀ ctx d fields, Inv cfg (setDictStrict2 .factory fuel cfg st ctx d fields).1) ∧
    (∀ z fields, Inv cfg (setIntSubs .factory fuel cfg st z fields).1) ∧
    (∀ ctx, Inv cfg (resetOp .factory fuel cfg st ctx).1) ∧
    (∀ ctx fields, (∀ p ∈ fields, p.2.start + p.2.width ≤ totalWidth cfg) →
      Inv cfg (resetGo .factory fuel cfg st ctx fields).1) ∧
    (∀ ctx v, Inv cfg (updateOp .factory fuel cfg st ctx v).1) ∧
    (∀ ctx d, Inv cfg (updateGo .factory fuel cfg st ctx d).1) := by
  induction fuel with
  | zero =>
    intro cfg st h
    exact ⟨fun key fc v hb => h, fun key fc v hb => h, fun ctx key v => h,
      fun ctx v ign => h, fun ctx d fields => h, fun ctx d => h, fun ctx d fields => h,
      fun z fields => h, fun ctx => h, fun ctx fields hf => h, fun ctx v => h,
      fun ctx d => h⟩
  | succ fuel ih =>
    intro cfg st h
    have hBD : ∀ (st : St), Inv cfg st → ∀ key fc v, fc.start + fc.width ≤ totalWidth cfg →
        Inv cfg (setItemValBD .factory (fuel+1) cfg st key fc v).1 := by
      intro st h key fc v hb
      unfold setItemValBD
      cases hSel : fc.selector with
      | none => exact h
      | some selName =>
        try simp only []
        rcases hg : getItem .factory fuel cfg st selName with ⟨st1, got, e1⟩
        have h1 : Inv cfg st1 := inv_of_value_eq h (by
          have := getItem_value .factory fuel cfg st selName
          rw [hg] at this
          exact this)
        cases e1 with
        | some e => exact h1
        | none =>
          try simp only []
          cases selAsInt got with
          | error e => exact h1
          | ok sel =>
            try simp only []
            rcases hgs : getSub .factory fuel cfg st1 key sel with ⟨st2, r2, e2⟩
            have h2 : Inv cfg st2 := inv_of_value_eq h1 (by
              have := getSub_value .factory fuel cfg st1 key sel
              rw [hgs] at this
              exact this)
            cases e2 with
            | some e =>
              cases r2 with
              | none => exact h2
              | some r => exact h2
            | none =>
              cases r2 with
              | none => exact h2
              | some r =>
                obtain ⟨i, sub, sc⟩ := r
                try simp only []
                rcases hso : setOp .factory fuel sc sub
                    (some ⟨fc.start, fc.width, st2.value⟩) v true with ⟨sub2, ctx2, e3⟩
                have hctx0 : CtxIn (totalWidth cfg) (some ⟨fc.start, fc.width, st2.value⟩) := by
                  intro c hc
                  simp only [Option.some.injEq] at hc
                  subst hc
                  exact ⟨⟨h2.1, h2.2⟩, hb⟩
                have hctx2 : CtxIn (totalWidth cfg) ctx2 := by
                  have := ((ctxPreserve fuel .factory sc sub
                    (some ⟨fc.start, fc.width, st2.value⟩) (totalWidth cfg) hctx0).2.1) v true
                  rw [hso] at this
                  exact this
                have h3 : Inv cfg (putSub (St.mk (pvalOf ctx2 st2.value) st2.subs) key i sub2) := by
                  refine inv_of_value_eq ?_ (putSub_value _ key i sub2)
                  cases ctx2 with
                  | none => exact ⟨h2.1, h2.2⟩
                  | some c =>
                    obtain ⟨⟨hc0, hc1⟩, hcW⟩ := hctx2 c rfl
                    exact ⟨hc0, hc1⟩
                cases e3 with
                | some e => exact h3
                | none => exact h3
    have hVal : ∀ (st : St), Inv cfg st → ∀ key fc v, fc.start + fc.width ≤ totalWidth cfg →
        Inv cfg (setItemVal .factory (fuel+1) cfg st key fc v).1 := by
      intro st h key fc v hb
      unfold setItemVal
      cases hT : fc.ty with
      | bitdict =>
        have := (ih cfg st h).1 key fc v hb
        exact this
      | reserved => exact h
      | bool =>
        try simp only []
        rcases scalarPattern fc v with ⟨r, e⟩
        exact h
      | uint =>
        try simp only []
        rcases scalarPattern fc v with ⟨r, e⟩
        exact h
      | int =>
        try simp only []
        rcases scalarPattern fc v with ⟨r, e⟩
        exact h
    have hSet : ∀ (st : St), Inv cfg st → ∀ ctx key v,
        Inv cfg (setItem .factory (fuel+1) cfg st ctx key v).1 := by
      intro st h ctx key v
      unfold setItem
      cases hF : lookupF cfg key with
      | none => exact h
      | some fc =>
        have hb := lookupF_bound cfg key fc hF
        try simp only []
        split
        · exact h
        · rcases hsv : setItemVal .factory fuel cfg st key fc v with ⟨st2, r, e⟩
          have h2 : Inv cfg st2 := by
            have := (ih cfg st h).2.1 key fc v hb
            rw [hsv] at this
            exact this
          cases e with
          | some e2 =>
            cases r with
            | none => exact h2
            | some ival => exact h2
          | none =>
            cases r with
            | none => exact h2
            | some ival =>
              try simp only []
              cases hL : fc.link with
              | none =>
                exact ⟨(maskedWrite_range st2.value fc.start fc.width ival hb h2.1 h2.2).1,
                  (maskedWrite_range st2.value fc.start fc.width ival hb h2.1 h2.2).2⟩
              | some bdKey =>
                try simp only []
                rcases hgs : getSub .factory fuel cfg st2 bdKey ival with ⟨st3, r3, e3⟩
                have h3 : Inv cfg st3 := inv_of_value_eq h2 (by
                  have := getSub_value .factory fuel cfg st2 bdKey ival
                  rw [hgs] at this
                  exact this)
                cases e3 with
                | some e4 =>
                  cases r3 with
                  | none => exact h3
                  | some r4 => exact h3
                | none =>
                  cases r3 with
                  | none => exact h3
                  | some r4 =>
                    obtain ⟨i, bsub, sc⟩ := r4
                    try simp only []
                    cases hF2 : lookupF cfg bdKey with
                    | none => exact h3
                    | some bdc =>
                      have hb2 := lookupF_bound cfg bdKey bdc hF2
                      have hM : Inv cfg (St.mk
                          (maskedWrite st3.value bdc.start bdc.width bsub.value) st3.subs) := by
                        have := maskedWrite_range st3.value bdc.start bdc.width bsub.value
                          hb2 h3.1 h3.2
                        exact ⟨this.1, this.2⟩
                      have := maskedWrite_range (St.mk
                          (maskedWrite st3.value bdc.start bdc.width bsub.value) st3.subs).value
                          fc.start fc.width ival hb hM.1 hM.2
                      exact ⟨this.1, this.2⟩
    refine ⟨fun key fc v hb => hBD st h key fc v hb,
      fun key fc v hb => hVal st h key fc v hb,
      fun ctx key v => hSet st h ctx key v, ?_, ?_, ?_, ?_, ?_, ?_, ?_, ?_, ?_⟩
    · -- setOp
      intro ctx v ign
      unfold setOp
      cases v with
      | pdict d =>
        try simp only []
        split
        · exact (ih cfg st h).2.2.2.2.1 ctx d cfg.fields
        · rcases hs1 : setDictStrict1 .factory fuel cfg st ctx d with ⟨st1, ctx1, e1⟩
          have h1 : Inv cfg st1 := by
            have := (ih cfg st h).2.2.2.2.2.1 ctx d
            rw [hs1] at this
            exact this
          cases e1 with
          | some e => exact h1
          | none =>
            try simp only []
            exact (ih cfg st1 h1).2.2.2.2.2.2.1 ctx1 d cfg.fields
      | pb b =>
        cases b with
        | false =>
          simp only [intOf]
          try simp only []
          try simp only [if_true, if_false]
          try rw [show (if (false = true) then (1 : Int) else 0) = 0 from rfl]
          by_cases hle : pow2 (totalWidth cfg) ≤ (0 : Int)
          · rw [if_pos hle]
            exact h
          · rw [if_neg hle, if_neg (by decide : ¬ ((0 : Int) < 0))]
            rcases hsi : setIntSubs .factory fuel cfg (St.mk 0 st.subs) 0 cfg.fields
              with ⟨st1, e1⟩
            have hz : Inv cfg (St.mk 0 st.subs) :=
              ⟨by simp only [St.value]; decide, not_le.mp hle⟩
            have h2 := (ih cfg (St.mk 0 st.subs) hz).2.2.2.2.2.2.2.1 0 cfg.fields
            rw [hsi] at h2
            exact h2
        | true =>
          simp only [intOf]
          try simp only []
          try simp only [if_true, if_false]
          try rw [show (if (true = true) then (1 : Int) else 0) = 1 from rfl]
          by_cases hle : pow2 (totalWidth cfg) ≤ (1 : Int)
          · rw [if_pos hle]
            exact h
          · rw [if_neg hle, if_neg (by decide : ¬ ((1 : Int) < 0))]
            rcases hsi : setIntSubs .factory fuel cfg (St.mk 1 st.subs) 1 cfg.fields
              with ⟨st1, e1⟩
            have hz : Inv cfg (St.mk 1 st.subs) :=
              ⟨by simp only [St.value]; decide, not_le.mp hle⟩
            have h2 := (ih cfg (St.mk 1 st.subs) hz).2.2.2.2.2.2.2.1 1 cfg.fields
            rw [hsi] at h2
            exact h2
      | pi z =>
        simp only [intOf]
        try simp only []
        split
        case isTrue => exact h
        case isFalse hle =>
          split
          case isTrue => exact h
          case isFalse hneg =>
            rcases hsi : setIntSubs .factory fuel cfg (St.mk z st.subs) z cfg.fields
              with ⟨st1, e1⟩
            have hz : Inv cfg (St.mk z st.subs) := ⟨not_lt.mp hneg, not_le.mp hle⟩
            have h2 := (ih cfg (St.mk z st.subs) hz).2.2.2.2.2.2.2.1 z cfg.fields
            rw [hsi] at h2
            exact h2
      | pother => exact h
    · -- setDictIgnore
      intro ctx d fields
      unfold setDictIgnore
      cases fields with
      | nil => exact h
      | cons p rest =>
        obtain ⟨k, fc⟩ := p
        try simp only []
        cases (match d.lookup k with
               | some dv => some dv
               | none => (fc.dflt).map dvalPy) with
        | none => exact (ih cfg st h).2.2.2.2.1 ctx d rest
        | some dv =>
          try simp only []
          rcases hsi : setItem .factory fuel cfg st ctx k dv with ⟨st1, ctx1, e1⟩
          have h1 : Inv cfg st1 := by
            have := (ih cfg st h).2.2.1 ctx k dv
            rw [hsi] at this
            exact this
          cases e1 with
          | some e => exact h1
          | none => exact (ih cfg st1 h1).2.2.2.2.1 ctx1 d rest
    · -- setDictStrict1
      intro ctx d
      unfold setDictStrict1
      cases d with
      | nil => exact h
      | cons p rest =>
        obtain ⟨k, dv⟩ := p
        try simp only []
        split
        · exact h
        · rcases hsi : setItem .factory fuel cfg st ctx k dv with ⟨st1, ctx1, e1⟩
          have h1 : Inv cfg st1 := by
            have := (ih cfg st h).2.2.1 ctx k dv
            rw [hsi] at this
            exact this
          cases e1 with
          | some e => exact h1
          | none => exact (ih cfg st1 h1).2.2.2.2.2.1 ctx1 rest
    · -- setDictStrict2
      intro ctx d fields
      unfold setDictStrict2
      cases fields with
      | nil => exact h
      | cons p rest =>
        obtain ⟨k, fc⟩ := p
        try simp only []
        cases (if (d.lookup k).isSome then none else (fc.dflt).map dvalPy) with
        | none => exact (ih cfg st h).2.2.2.2.2.2.1 ctx d rest
        | some dv =>
          try simp only []
          rcases hsi : setItem .factory fuel cfg st ctx k dv with ⟨st1, ctx1, e1⟩
          have h1 : Inv cfg st1 := by
            have := (ih cfg st h).2.2.1 ctx k dv
            rw [hsi] at this
            exact this
          cases e1 with
          | some e => exact h1
          | none => exact (ih cfg st1 h1).2.2.2.2.2.2.1 ctx1 d rest
    · -- setIntSubs
      intro z fields
      unfold setIntSubs
      cases fields with
      | nil => exact h
      | cons p rest =>
        obtain ⟨k, fc⟩ := p
        try simp only []
        cases hT : fc.ty with
        | bitdict =>
          try simp only []
          cases hSel : fc.selector with
          | none => exact h
          | some selName =>
            try simp only []
            rcases hg : getItem .factory fuel cfg st selName with ⟨st1, got, e1⟩
            have h1 : Inv cfg st1 := inv_of_value_eq h (by
              have := getItem_value .factory fuel cfg st selName
              rw [hg] at this
              exact this)
            cases e1 with
            | some e => exact h1
            | none =>
              try simp only []
              cases selAsInt got with
              | error e => exact h1
              | ok sel =>
                try simp only []
                rcases hgs : getSub .factory fuel cfg st1 k sel with ⟨st2, r2, e2⟩
                have h2 : Inv cfg st2 := inv_of_value_eq h1 (by
                  have := getSub_value .factory fuel cfg st1 k sel
                  rw [hgs] at this
                  exact this)
                cases e2 with
                | some e =>
                  cases r2 with
                  | none => exact h2
                  | some r => exact h2
                | none =>
                  cases r2 with
                  | none => exact h2
                  | some r =>
                    obtain ⟨i, sub, sc⟩ := r
                    try simp only []
                    rcases hso : setOp .factory fuel sc sub none
                        (.pi (bdSlice z fc.start fc.width)) true with ⟨sub2, ctxS, e3⟩
                    have h3 : Inv cfg (putSub st2 k i sub2) :=
                      inv_of_value_eq h2 (putSub_value st2 k i sub2)
                    cases e3 with
                    | some e => exact h3
                    | none => exact (ih cfg (putSub st2 k i sub2) h3).2.2.2.2.2.2.2.1 z rest
        | bool => exact (ih cfg st h).2.2.2.2.2.2.2.1 z rest
        | uint => exact (ih cfg st h).2.2.2.2.2.2.2.1 z rest
        | int => exact (ih cfg st h).2.2.2.2.2.2.2.1 z rest
        | reserved => exact (ih cfg st h).2.2.2.2.2.2.2.1 z rest
    · -- resetOp
      intro ctx
      unfold resetOp
      refine (ih cfg st h).2.2.2.2.2.2.2.2.2.1 ctx cfg.fields ?_
      intro p hp
      exact foldl_max_mem (fun q => q.2.start + q.2.width) cfg.fields 0 p hp
    · -- resetGo
      intro ctx fields hflds
      unfold resetGo
      cases fields with
      | nil => exact h
      | cons p rest =>
        obtain ⟨k, fc⟩ := p
        have hrest : ∀ p ∈ rest, p.2.start + p.2.width ≤ totalWidth cfg :=
          fun q hq => hflds q (List.mem_cons_of_mem _ hq)
        have hfcb : fc.start + fc.width ≤ totalWidth cfg :=
          hflds (k, fc) (List.mem_cons_self _ _)
        try simp only []
        split
        · exact (ih cfg st h).2.2.2.2.2.2.2.2.2.1 ctx rest hrest
        · cases hT : fc.ty with
          | bitdict =>
            try simp only []
            cases hSel : fc.selector with
            | none => exact h
            | some selName =>
              try simp only []
              rcases hg : getItem .factory fuel cfg st selName with ⟨st1, got, e1⟩
              have h1 : Inv cfg st1 := inv_of_value_eq h (by
                have := getItem_value .factory fuel cfg st selName
                rw [hg] at this
                exact this)
              cases e1 with
              | some e => exact h1
              | none =>
                try simp only []
                cases selAsInt got with
                | error e => exact h1
                | ok sel =>
                  try simp only []
                  rcases hgs : getSub .factory fuel cfg st1 k sel with ⟨st2, r2, e2⟩
                  have h2 : Inv cfg st2 := inv_of_value_eq h1 (by
                    have := getSub_value .factory fuel cfg st1 k sel
                    rw [hgs] at this
                    exact this)
                  cases e2 with
                  | some e =>
                    cases r2 with
                    | none => exact h2
                    | some r => exact h2
                  | none =>
                    cases r2 with
                    | none => exact h2
                    | some r =>
                      obtain ⟨i, sub, sc⟩ := r
                      try simp only []
                      rcases hro : resetOp .factory fuel sc sub
                          (some ⟨fc.start, fc.width, st2.value⟩) with ⟨sub2, ctxS, e3⟩
                      have hctx0 : CtxIn (totalWidth cfg)
                          (some ⟨fc.start, fc.width, st2.value⟩) := by
                        intro c hc
                        simp only [Option.some.injEq] at hc
                        subst hc
                        exact ⟨⟨h2.1, h2.2⟩, hfcb⟩
                      have hctxS : CtxIn (totalWidth cfg) ctxS := by
                        have := (ctxPreserve fuel .factory sc sub
                          (some ⟨fc.start, fc.width, st2.value⟩)
                          (totalWidth cfg) hctx0).2.2.2.2.2.1
                        rw [hro] at this
                        exact this
                      have h3 : Inv cfg (putSub (St.mk (pvalOf ctxS st2.value) st2.subs)
                          k i sub2) := by
                        refine inv_of_value_eq ?_ (putSub_value _ k i sub2)
                        cases ctxS with
                        | none => exact ⟨h2.1, h2.2⟩
                        | some c =>
                          obtain ⟨⟨hc0, hc1⟩, hcW⟩ := hctxS c rfl
                          exact ⟨hc0, hc1⟩
                      cases e3 with
                      | some e => exact h3
                      | none =>
                        exact (ih cfg (putSub (St.mk (pvalOf ctxS st2.value) st2.subs) k i sub2)
                          h3).2.2.2.2.2.2.2.2.2.1 ctx rest hrest
          | bool =>
            cases fc.dflt with
            | none => exact h
            | some dv =>
              try simp only []
              rcases hsi : setItem .factory fuel cfg st ctx k (dvalPy dv) with ⟨st1, ctx1, e1⟩
              have h1 : Inv cfg st1 := by
                have := (ih cfg st h).2.2.1 ctx k (dvalPy dv)
                rw [hsi] at this
                exact this
              cases e1 with
              | some e => exact h1
              | none => exact (ih cfg st1 h1).2.2.2.2.2.2.2.2.2.1 ctx1 rest hrest
          | uint =>
            cases fc.dflt with
            | none => exact h
            | some dv =>
              try simp only []
              rcases hsi : setItem .factory fuel cfg st ctx k (dvalPy dv) with ⟨st1, ctx1, e1⟩
              have h1 : Inv cfg st1 := by
                have := (ih cfg st h).2.2.1 ctx k (dvalPy dv)
                rw [hsi] at this
                exact this
              cases e1 with
              | some e => exact h1
              | none => exact (ih cfg st1 h1).2.2.2.2.2.2.2.2.2.1 ctx1 rest hrest
          | int =>
            cases fc.dflt with
            | none => exact h
            | some dv =>
              try simp only []
              rcases hsi : setItem .factory fuel cfg st ctx k (dvalPy dv) with ⟨st1, ctx1, e1⟩
              have h1 : Inv cfg st1 := by
                have := (ih cfg st h).2.2.1 ctx k (dvalPy dv)
                rw [hsi] at this
                exact this
              cases e1 with
              | some e => exact h1
              | none => exact (ih cfg st1 h1).2.2.2.2.2.2.2.2.2.1 ctx1 rest hrest
          | reserved =>
            cases fc.dflt with
            | none => exact h
            | some dv =>
              try simp only []
              rcases hsi : setItem .factory fuel cfg st ctx k (dvalPy dv) with ⟨st1, ctx1, e1⟩
              have h1 : Inv cfg st1 := by
                have := (ih cfg st h).2.2.1 ctx k (dvalPy dv)
                rw [hsi] at this
                exact this
              cases e1 with
              | some e => exact h1
              | none => exact (ih cfg st1 h1).2.2.2.2.2.2.2.2.2.1 ctx1 rest hrest
    · -- updateOp
      intro ctx v
      unfold updateOp
      cases v with
      | pdict d => exact (ih cfg st h).2.2.2.2.2.2.2.2.2.2.2 ctx d
      | pb b => exact h
      | pi z => exact h
      | pother => exact h
    · -- updateGo
      intro ctx d
      unfold updateGo
      cases d with
      | nil => exact h
      | cons p rest =>
        obtain ⟨k, dv⟩ := p
        try simp only []
        rcases hsi : setItem .factory fuel cfg st ctx k dv with ⟨st1, ctx1, e1⟩
        have h1 : Inv cfg st1 := by
          have := (ih cfg st h).2.2.1 ctx k dv
          rw [hsi] at this
          exact this
        cases e1 with
        | some e => exact h1
        | none => exact (ih cfg st1 h1).2.2.2.2.2.2.2.2.2.2.2 ctx1 rest

theorem initInv (fuel : Nat) (cfg : Cfg) (iv : InitV) (ign : Bool) :
    Inv cfg (initOp .factory fuel cfg iv ign).1 := by
  cases fuel with
  | zero => exact ⟨le_refl 0, pow2_pos _⟩
  | succ fuel =>
    unfold initOp
    have hz : Inv cfg (St.mk 0 []) := ⟨le_refl 0, pow2_pos _⟩
    cases iv with
    | vnone =>
      try simp only []
      rcases hro : resetOp .factory fuel cfg (St.mk 0 []) none with ⟨st1, ctx1, e1⟩
      have h2 := (invPreserve fuel cfg (St.mk 0 []) hz).2.2.2.2.2.2.2.2.1 none
      rw [hro] at h2
      exact h2
    | vint z =>
      try simp only []
      split
      · exact hz
      · split
        · exact hz
        · split
          · exact hz
          · rcases hso : setOp .factory fuel cfg (St.mk 0 []) none (.pi z) true
              with ⟨st1, ctx1, e1⟩
            have h2 := (invPreserve fuel cfg (St.mk 0 []) hz).2.2.2.1 none (.pi z) true
            rw [hso] at h2
            exact h2
    | vbytes bs =>
      try simp only []
      split
      · exact hz
      · rcases hso : setOp .factory fuel cfg (St.mk 0 []) none (.pi (fromBytes bs)) true
          with ⟨st1, ctx1, e1⟩
        have h2 := (invPreserve fuel cfg (St.mk 0 []) hz).2.2.2.1 none
          (.pi (fromBytes bs)) true
        rw [hso] at h2
        exact h2
    | vdict d =>
      try simp only []
      rcases hso : setOp .factory fuel cfg (St.mk 0 []) none (.pdict d) ign
          with ⟨st1, ctx1, e1⟩
      have h2 := (invPreserve fuel cfg (St.mk 0 []) hz).2.2.2.1 none (.pdict d) ign
      rw [hso] at h2
      exact h2
    | vother => exact hz

set_option maxHeartbeats 1000000 in
/-- C4, amended to the engine split: in the factory engine (`factory.py`)
the packed-integer invariant `0 ≤ to_int() < 2^total_width` holds after
construction from any admitted seed and is preserved by every mutating
accessor — `__setitem__`, `set`, `reset`, `clear`, `update` — on every
configuration, every parent context, and regardless of whether the
operation raises (partial states of failed operations also satisfy it).
The legacy `bitdict.py` engine does not satisfy the claim: its `set`
accepts negative integers down to `-2^(total_width-1)` and stores them, so
`to_int()` can be negative there. -/
theorem c4_theorem (fuel : Nat) (cfg : Cfg) (st : St) (ctx : Option Ctx) (v : PyVal)
    (iv : InitV) (key : String) (ign : Bool)
    (h0 : 0 ≤ st.value) (h1 : st.value < pow2 (totalWidth cfg)) :
    (0 ≤ (initOp .factory fuel cfg iv ign).1.value ∧
      (initOp .factory fuel cfg iv ign).1.value < pow2 (totalWidth cfg)) ∧
    (0 ≤ (setItem .factory fuel cfg st ctx key v).1.value ∧
      (setItem .factory fuel cfg st ctx key v).1.value < pow2 (totalWidth cfg)) ∧
    (0 ≤ (setOp .factory fuel cfg st ctx v ign).1.value ∧
      (setOp .factory fuel cfg st ctx v ign).1.value < pow2 (totalWidth cfg)) ∧
    (0 ≤ (resetOp .factory fuel cfg st ctx).1.value ∧
      (resetOp .factory fuel cfg st ctx).1.value < pow2 (totalWidth cfg)) ∧
    (0 ≤ (clearOp .factory fuel cfg st ctx).1.value ∧
      (clearOp .factory fuel cfg st ctx).1.value < pow2 (totalWidth cfg)) ∧
    (0 ≤ (updateOp .factory fuel cfg st ctx v).1.value ∧
      (updateOp .factory fuel cfg st ctx v).1.value < pow2 (totalWidth cfg)) := by
  have big := invPreserve fuel cfg st ⟨h0, h1⟩
  exact ⟨initInv fuel cfg iv ign, big.2.2.1 ctx key v, big.2.2.2.1 ctx v ign,
    big.2.2.2.2.2.2.2.2.1 ctx, big.2.2.2.1 ctx (.pi 0) true,
    big.2.2.2.2.2.2.2.2.2.2.1 ctx v⟩

set_option maxHeartbeats 4000000 in
theorem c4_witness :
    (0 ≤ c9st0.value ∧ c9st0.value < pow2 (totalWidth c9n)) ∧
    (0 ≤ (setItem .factory 10 c9n c9st0 none "sel" (.pi 1)).1.value ∧
      (setItem .factory 10 c9n c9st0 none "sel" (.pi 1)).1.value
        < pow2 (totalWidth c9n)) :=
  ⟨⟨by decide, by decide⟩,
    (c4_theorem 10 c9n c9st0 none (.pi 1) .vnone "sel" true
      (by decide) (by decide)).2.1⟩

theorem setIntSubs_value (fuel : Nat) : ∀ (rev : Rev) (cfg : Cfg) (st : St) (z : Int)
    (fields : List (String × FieldCfg)),
    (setIntSubs rev fuel cfg st z fields).1.value = st.value := by
  induction fuel with
  | zero => intro rev cfg st z fields; rfl
  | succ fuel ih =>
    intro rev cfg st z fields
    unfold setIntSubs
    cases fields with
    | nil => rfl
    | cons p rest =>
      obtain ⟨k, fc⟩ := p
      try simp only []
      cases hT : fc.ty with
      | bool => exact ih rev cfg st z rest
      | uint => exact ih rev cfg st z rest
      | int => exact ih rev cfg st z rest
      | reserved => exact ih rev cfg st z rest
      | bitdict =>
        try simp only []
        cases hSel : fc.selector with
        | none => rfl
        | some selName =>
          try simp only []
          rcases hg : getItem rev fuel cfg st selName with ⟨st1, got, e1⟩
          have hv1 : st1.value = st.value := by
            have h2 := getItem_value rev fuel cfg st selName
            rw [hg] at h2
            exact h2
          cases e1 with
          | some e => exact hv1
          | none =>
            try simp only []
            cases selAsInt got with
            | error e => exact hv1
            | ok sel =>
              try simp only []
              rcases hgs : getSub rev fuel cfg st1 k sel with ⟨st2, r2, e2⟩
              have hv2 : st2.value = st.value := by
                have h2 := getSub_value rev fuel cfg st1 k sel
                rw [hgs] at h2
                rw [h2, hv1]
              cases e2 with
              | some e =>
                cases r2 with
                | none => exact hv2
                | some r => exact hv2
              | none =>
                cases r2 with
                | none => exact hv2
                | some r =>
                  obtain ⟨i, sub, sc⟩ := r
                  try simp only []
                  rcases hso : setOp rev fuel sc sub none (.pi (bdSlice z fc.start fc.width))
                      true with ⟨sub2, ctxS, e3⟩
                  cases e3 with
                  | some e =>
                    rw [putSub_value]
                    exact hv2
                  | none =>
                    rw [ih rev cfg (putSub st2 k i sub2) z rest, putSub_value]
                    exact hv2

theorem beBytes_length (n : Nat) : ∀ v : Nat, (beBytes n v).length = n := by
  induction n with
  | zero => intro v; rfl
  | succ n ih =>
    intro v
    unfold beBytes
    simp [ih]

theorem beBytes_foldl (n : Nat) : ∀ (v : Nat), v < 256 ^ n → ∀ acc : Int,
    List.foldl (fun (a : Int) (b : Nat) => a * 256 + (b : Int)) acc (beBytes n v)
      = acc * ((256 ^ n : Nat) : Int) + (v : Int) := by
  induction n with
  | zero =>
    intro v hv acc
    have hv0 : v = 0 := Nat.lt_one_iff.mp hv
    subst hv0
    simp [beBytes]
  | succ n ih =>
    intro v hv acc
    unfold beBytes
    rw [List.foldl_append]
    have hdiv : v / 256 < 256 ^ n := by
      rw [Nat.div_lt_iff_lt_mul (by norm_num : 0 < 256)]
      calc v < 256 ^ (n + 1) := hv
        _ = 256 ^ n * 256 := by ring
    rw [ih (v / 256) hdiv acc]
    simp only [List.foldl_cons, List.foldl_nil]
    have hnat : (v / 256) * 256 + v % 256 = v := by omega
    have hvm : ((v / 256 : Nat) : Int) * 256 + ((v % 256 : Nat) : Int) = (v : Int) := by
      exact_mod_cast hnat
    push_cast at hvm ⊢
    linear_combination hvm

theorem fromBytes_beBytes (n : Nat) (v : Nat) (hv : v < 256 ^ n) :
    fromBytes (beBytes n v) = (v : Int) := by
  unfold fromBytes
  rw [beBytes_foldl n v hv 0]
  simp

theorem width_le_bytes (w : Nat) : w ≤ 8 * numBytes w := by
  unfold numBytes
  omega

theorem pow2_le_bytePow (w : Nat) : pow2 w ≤ ((256 ^ numBytes w : Nat) : Int) := by
  have h1 : (256 : Nat) ^ numBytes w = 2 ^ (8 * numBytes w) := by
    rw [pow_mul]
    norm_num
  rw [h1]
  unfold pow2
  push_cast
  exact pow_le_pow_right (by norm_num) (width_le_bytes w)

/-- Partial correctness of integer `set` in the factory engine: a run that
raises nothing has stored exactly the given integer. -/
theorem setOp_int_value (fuel : Nat) (cfg : Cfg) (st : St) (ctx : Option Ctx) (I : Int)
    (ign : Bool) (st2 : St) (ctx2 : Option Ctx)
    (h : setOp .factory fuel cfg st ctx (.pi I) ign = (st2, ctx2, none)) :
    st2.value = I := by
  cases fuel with
  | zero =>
    simp only [setOp, Prod.mk.injEq] at h
    exact absurd h.2.2 (by simp)
  | succ fuel =>
    unfold setOp at h
    simp only [intOf] at h
    try simp only [] at h
    split at h
    · simp only [Prod.mk.injEq] at h
      exact absurd h.2.2 (by simp)
    · split at h
      · simp only [Prod.mk.injEq] at h
        exact absurd h.2.2 (by simp)
      · rcases hsi : setIntSubs .factory fuel cfg (St.mk I st.subs) I cfg.fields
          with ⟨st1, e1⟩
        rw [hsi] at h
        simp only [Prod.mk.injEq] at h
        obtain ⟨h1, -, -⟩ := h
        have hv := setIntSubs_value fuel .factory cfg (St.mk I st.subs) I cfg.fields
        rw [hsi] at hv
        rw [← h1]
        exact hv

set_option maxHeartbeats 4000000 in
set_option maxRecDepth 100000 in
/-- C1, amended for the factory engine's stricter `set`: construction from
an integer seed that raises nothing has `to_int() = I` (for every
configuration); a seed at or above `2^total_width` raises the range error
with no instance produced, as does one below `-2^(total_width-1)`; but a
negative seed inside the interval the claim admits
(`-2^(total_width-1) ≤ I < 0`) also raises the range error, because `set`
only accepts non-negative integers — the admitted interval that round-trips
is `0 ≤ I < 2^total_width`, exhibited exhaustively on the one-byte record
type `c1n`. -/
theorem c1_theorem :
    (∀ (fuel : Nat) (cfg : Cfg) (I : Int) (st : St),
      initOp .factory fuel cfg (.vint I) true = (st, none) → st.value = I) ∧
    (∀ (fuel : Nat) (cfg : Cfg) (I : Int), pow2 (totalWidth cfg) ≤ I →
      initOp .factory (fuel+1) cfg (.vint I) true = (St.mk 0 [], some (.valErr .range))) ∧
    (∀ (fuel : Nat) (cfg : Cfg) (I : Int), 0 < totalWidth cfg →
      I < -(pow2 (totalWidth cfg - 1)) →
      initOp .factory (fuel+1) cfg (.vint I) true = (St.mk 0 [], some (.valErr .range))) ∧
    (∀ (fuel : Nat) (cfg : Cfg) (I : Int), 0 < totalWidth cfg →
      -(pow2 (totalWidth cfg - 1)) ≤ I → I < 0 →
      initOp .factory (fuel+2) cfg (.vint I) true = (St.mk 0 [], some (.valErr .range))) ∧
    (∀ n : Fin 256, (initOp .factory 10 c1n (.vint n.val) true).2 = none ∧
      (initOp .factory 10 c1n (.vint n.val) true).1.value = n.val) := by
  refine ⟨?_, ?_, ?_, ?_, ?_⟩
  · intro fuel cfg I st h
    cases fuel with
    | zero =>
      simp only [initOp, Prod.mk.injEq] at h
      exact absurd h.2 (by simp)
    | succ fuel =>
      unfold initOp at h
      try simp only [] at h
      split at h
      · simp only [Prod.mk.injEq] at h
        exact absurd h.2 (by simp)
      · split at h
        · simp only [Prod.mk.injEq] at h
          exact absurd h.2 (by simp)
        · split at h
          · simp only [Prod.mk.injEq] at h
            exact absurd h.2 (by simp)
          · rcases hso : setOp .factory fuel cfg (St.mk 0 []) none (.pi I) true
              with ⟨st1, ctx1, e1⟩
            rw [hso] at h
            simp only [Prod.mk.injEq] at h
            obtain ⟨h1, h2⟩ := h
            subst h2
            subst h1
            exact setOp_int_value fuel cfg (St.mk 0 []) none I true st1 ctx1 hso
  · intro fuel cfg I hge
    unfold initOp
    try simp only []
    rw [if_pos hge]
  · intro fuel cfg I hW hlt
    unfold initOp
    try simp only []
    have hnge : ¬ (pow2 (totalWidth cfg) ≤ I) := by
      rw [not_le]
      calc I < -(pow2 (totalWidth cfg - 1)) := hlt
        _ ≤ 0 := by
          rw [neg_nonpos]
          exact le_of_lt (pow2_pos _)
        _ < pow2 (totalWidth cfg) := pow2_pos _
    rw [if_neg hnge, if_neg (Nat.pos_iff_ne_zero.mp hW), if_pos hlt]
  · intro fuel cfg I hW hle hneg
    unfold initOp
    try simp only []
    have hnge : ¬ (pow2 (totalWidth cfg) ≤ I) := by
      rw [not_le]
      calc I < 0 := hneg
        _ < pow2 (totalWidth cfg) := pow2_pos _
    rw [if_neg hnge, if_neg (Nat.pos_iff_ne_zero.mp hW), if_neg (not_lt.mpr hle)]
    unfold setOp
    simp only [intOf]
    try simp only []
    rw [if_neg hnge, if_pos hneg]
  · decide

set_option maxHeartbeats 4000000 in
theorem c1_witness :
    pow2 (totalWidth c1n) ≤ 256 ∧
    initOp .factory 4 c1n (.vint 256) true = (St.mk 0 [], some (.valErr .range)) ∧
    (0 < totalWidth c1n ∧ -(pow2 (totalWidth c1n - 1)) ≤ -1 ∧ (-1 : Int) < 0) ∧
    initOp .factory 5 c1n (.vint (-1)) true = (St.mk 0 [], some (.valErr .range)) ∧
    (initOp .factory 10 c1n (.vint 7) true).1.value = 7 :=
  ⟨by decide, c1_theorem.2.1 3 c1n 256 (by decide),
    ⟨by decide, by decide, by decide⟩,
    c1_theorem.2.2.2.1 3 c1n (-1) (by decide) (by decide) (by decide),
    c1_theorem.1 10 c1n 7 (initOp .factory 10 c1n (.vint 7) true).1 (by rfl)⟩

set_option maxHeartbeats 4000000 in
set_option maxRecDepth 100000 in
/-- C7, amended: a byte seed whose decoded integer `I` fits the record's
byte length but satisfies `2^total_width ≤ I` passes the length check yet
raises the range error with no instance produced; a byte construction that
raises nothing has `to_int()` equal to the big-endian decoding of the seed
(so only `I < 2^total_width` round-trips); and for every in-range state
`to_bytes()` is the big-endian encoding of `to_int()` in exactly
`ceil(total_width/8)` bytes, zero-padded on the most-significant side, and
decodes back to `to_int()`.  The exhaustive byte round-trip is exhibited on
the 4-bit record type `c7n`. -/
theorem c7_theorem :
    (∀ (fuel : Nat) (cfg : Cfg) (bs : List Nat) (st : St),
      initOp .factory fuel cfg (.vbytes bs) true = (st, none) → st.value = fromBytes bs) ∧
    (∀ (fuel : Nat) (cfg : Cfg) (bs : List Nat),
      bs.length ≤ numBytes (totalWidth cfg) → pow2 (totalWidth cfg) ≤ fromBytes bs →
      initOp .factory (fuel+2) cfg (.vbytes bs) true
        = (St.mk 0 [], some (.valErr .range))) ∧
    (∀ (cfg : Cfg) (st : St), 0 ≤ st.value → st.value < pow2 (totalWidth cfg) →
      toBytesOp cfg st = some (beBytes (numBytes (totalWidth cfg)) st.value.toNat) ∧
      (beBytes (numBytes (totalWidth cfg)) st.value.toNat).length
        = numBytes (totalWidth cfg) ∧
      fromBytes (beBytes (numBytes (totalWidth cfg)) st.value.toNat) = st.value) ∧
    (∀ n : Fin 16, (initOp .factory 10 c7n (.vbytes [n.val]) true).2 = none ∧
      (initOp .factory 10 c7n (.vbytes [n.val]) true).1.value = n.val ∧
      toBytesOp c7n (initOp .factory 10 c7n (.vbytes [n.val]) true).1
        = some [n.val]) := by
  refine ⟨?_, ?_, ?_, ?_⟩
  · intro fuel cfg bs st h
    cases fuel with
    | zero =>
      simp only [initOp, Prod.mk.injEq] at h
      exact absurd h.2 (by simp)
    | succ fuel =>
      unfold initOp at h
      try simp only [] at h
      split at h
      · simp only [Prod.mk.injEq] at h
        exact absurd h.2 (by simp)
      · rcases hso : setOp .factory fuel cfg (St.mk 0 []) none (.pi (fromBytes bs)) true
            with ⟨st1, ctx1, e1⟩
        rw [hso] at h
        simp only [Prod.mk.injEq] at h
        obtain ⟨h1, h2⟩ := h
        subst h2
        subst h1
        exact setOp_int_value fuel cfg (St.mk 0 []) none (fromBytes bs) true st1 ctx1 hso
  · intro fuel cfg bs hlen hge
    unfold initOp
    try simp only []
    rw [if_neg (not_lt.mpr hlen)]
    unfold setOp
    simp only [intOf]
    try simp only []
    rw [if_pos hge]
  · intro cfg st h0 h1
    have hlt : st.value < ((256 ^ numBytes (totalWidth cfg) : Nat) : Int) :=
      lt_of_lt_of_le h1 (pow2_le_bytePow (totalWidth cfg))
    have htn : st.value.toNat < 256 ^ numBytes (totalWidth cfg) := by
      have hc : (st.value.toNat : Int) = st.value := Int.toNat_of_nonneg h0
      exact_mod_cast hc ▸ hlt
    refine ⟨?_, beBytes_length _ _, ?_⟩
    · unfold toBytesOp
      rw [if_pos ⟨h0, by exact_mod_cast hlt⟩]
    · rw [fromBytes_beBytes _ _ htn]
      exact Int.toNat_of_nonneg h0
  · decide

set_option maxHeartbeats 4000000 in
theorem c7_witness :
    ([(16 : Nat)].length ≤ numBytes (totalWidth c7n) ∧
      pow2 (totalWidth c7n) ≤ fromBytes [16]) ∧
    initOp .factory 5 c7n (.vbytes [16]) true = (St.mk 0 [], some (.valErr .range)) ∧
    (initOp .factory 10 c7n (.vbytes [9]) true).1.value = fromBytes [9] ∧
    (0 ≤ (St.mk 9 [] : St).value ∧ (St.mk 9 [] : St).value < pow2 (totalWidth c7n)) ∧
    toBytesOp c7n (St.mk 9 [])
      = some (beBytes (numBytes (totalWidth c7n)) (St.mk 9 [] : St).value.toNat) :=
  ⟨⟨by decide, by decide⟩,
    c7_theorem.2.1 3 c7n [16] (by decide) (by decide),
    c7_theorem.1 10 c7n [9] (initOp .factory 10 c7n (.vbytes [9]) true).1 (by rfl),
    ⟨by decide, by decide⟩,
    (c7_theorem.2.2.1 c7n (St.mk 9 []) (by decide) (by decide)).1⟩
end BitDictModel
